import Mathlib

/-!
# Contention manager, combining FIFO queue and transactional priority queue

A shallow embedding of `ContentionManager.cc`, `FCQueue.hh` and
`PriorityQueue.hh`, followed by theorems about the embedded definitions.

Sequential semantics only: one thread runs at a time, so an atomic
fetch-and-add is a read followed by a write and the flat-combining kernel
applies a submitted record at once.
-/

set_option autoImplicit false

/-! ## Part 1. Definitions -/

/-! ### ContentionManager.cc -/

namespace ContentionManager

/-- `#define MAX_TS UINT_MAX` (32-bit `unsigned int`). -/
def MAX_TS : Nat := 4294967295

/-- `#define TS_THRESHOLD 10`. -/
def TS_THRESHOLD : Nat := 10

/-- `#define SUCC_ABORTS_MAX 10`. -/
def SUCC_ABORTS_MAX : Nat := 10

/-- `#define WAIT_CYCLES_MULTIPLICATOR 8000`. -/
def WAIT_CYCLES_MULTIPLICATOR : Nat := 8000

/-- Number of values of the `uint128_t` element type of the slot arrays. -/
def U128 : Nat := 2 ^ 128

/-- Number of values of the `uint64_t` global counter `ts`. -/
def U64 : Nat := 2 ^ 64

/-- The static fields of `ContentionManager`.  Each array is a map from the
array index to the `uint128_t` stored there; a thread with id `t` uses index
`4 * t`, so the 128 entries serve thread ids below 32 (keeping the index in
bounds is the caller's obligation, as in the source). -/
structure State where
  ts : Nat
  aborted : Nat → Nat
  timestamp : Nat → Nat
  write_set_size : Nat → Nat
  abort_count : Nat → Nat
  version : Nat → Nat
  seed : Nat → Nat

/-- The static initialisers: `ts = 0` and zero-filled arrays. -/
def State.init : State :=
  { ts := 0, aborted := fun _ => 0, timestamp := fun _ => 0,
    write_set_size := fun _ => 0, abort_count := fun _ => 0,
    version := fun _ => 0, seed := fun _ => 0 }

/-- `ContentionManager::should_abort(tx, wlock, aborted_by_others)`.
`tx_threadid` is `tx->threadid()`; `threadid_mask` is
`TransactionTid::threadid_mask`, a constant that is not defined under `src/`.
Returns the boolean result, the final value of the reference parameter
`aborted_by_others`, and the new state. -/
def should_abort (threadid_mask : Nat) (s : State) (tx_threadid : Nat) (wlock : Nat)
    (aborted_by_others : Bool) : Bool × Bool × State :=
  let threadid := tx_threadid * 4
  if s.aborted threadid = 1 then
    (true, true, s)
  else if s.timestamp threadid = MAX_TS then
    (true, aborted_by_others, s)
  else
    let owner_threadid := (wlock &&& threadid_mask) * 4
    if s.timestamp owner_threadid < s.timestamp threadid then
      if s.aborted owner_threadid = 0 then
        (true, aborted_by_others, s)
      else
        (false, aborted_by_others, s)
    else
      (false, aborted_by_others,
        { s with aborted := Function.update s.aborted owner_threadid 1 })

/-- `ContentionManager::on_write(tx)`.  `fetch_and_add(&ts, 1)` returns the old
counter and stores the counter plus one, modulo `2^64`. -/
def on_write (s : State) (tx_threadid : Nat) : State :=
  let threadid := tx_threadid * 4
  let s1 : State :=
    { s with write_set_size :=
        Function.update s.write_set_size threadid ((s.write_set_size threadid + 1) % U128) }
  if s1.timestamp threadid = MAX_TS ∧ s1.write_set_size threadid = TS_THRESHOLD then
    { s1 with timestamp := Function.update s1.timestamp threadid s1.ts
              ts := (s1.ts + 1) % U64 }
  else
    s1

/-- `ContentionManager::start(tx)`; `is_restarted` is `tx->is_restarted()`. -/
def start (s : State) (tx_threadid : Nat) (is_restarted : Bool) : State :=
  let threadid := tx_threadid * 4
  if is_restarted then
    { s with aborted := Function.update s.aborted threadid 0
             write_set_size := Function.update s.write_set_size threadid 0 }
  else
    { s with timestamp := Function.update s.timestamp threadid MAX_TS
             aborted := Function.update s.aborted threadid 0
             write_set_size := Function.update s.write_set_size threadid 0
             abort_count := Function.update s.abort_count threadid 0 }

/-- `ContentionManager::on_rollback(tx)`.  `rand_r` is the C library generator
applied to the slot's seed word: it maps the seed to the returned number and
the updated seed.  The result is the new state together with the argument
passed to `wait_cycles` (a `uint64_t`); `none` when the modulus
`abort_count * WAIT_CYCLES_MULTIPLICATOR` is zero, where the remainder is
undefined. -/
def on_rollback (s : State) (tx_threadid : Nat) (rand_r : Nat → Nat × Nat) :
    Option (State × Nat) :=
  let threadid := tx_threadid * 4
  let s1 : State :=
    if s.abort_count threadid < SUCC_ABORTS_MAX then
      { s with abort_count :=
          Function.update s.abort_count threadid ((s.abort_count threadid + 1) % U128) }
    else s
  let r := rand_r (s1.seed threadid)
  let s2 : State := { s1 with seed := Function.update s1.seed threadid r.2 }
  let modulus := (s2.abort_count threadid * WAIT_CYCLES_MULTIPLICATOR) % U128
  if modulus = 0 then none
  else some (s2, (r.1 % modulus) % U64)

/-- States reached from the static initial state by any sequence of calls of
the four operations, by any threads and with any arguments. -/
inductive Reachable (threadid_mask : Nat) : State → Prop
  | init : Reachable threadid_mask State.init
  | should_abort (s : State) (tid wlock : Nat) (abo : Bool) :
      Reachable threadid_mask s →
      Reachable threadid_mask (ContentionManager.should_abort threadid_mask s tid wlock abo).2.2
  | on_write (s : State) (tid : Nat) :
      Reachable threadid_mask s → Reachable threadid_mask (ContentionManager.on_write s tid)
  | start (s : State) (tid : Nat) (restarted : Bool) :
      Reachable threadid_mask s → Reachable threadid_mask (ContentionManager.start s tid restarted)
  | on_rollback (s : State) (tid : Nat) (rand_r : Nat → Nat × Nat) (s' : State) (c : Nat) :
      Reachable threadid_mask s → ContentionManager.on_rollback s tid rand_r = some (s', c) →
      Reachable threadid_mask s'

/-- A call of one of the four operations, with its arguments; `tid` is the
calling transaction's thread id. -/
inductive Call where
  | should_abort (tid wlock : Nat) (aborted_by_others : Bool)
  | on_write (tid : Nat)
  | start (tid : Nat) (is_restarted : Bool)
  | on_rollback (tid : Nat) (rand_r : Nat → Nat × Nat)

/-- The state after the call; `none` where `on_rollback` has no defined
result. -/
def Call.exec (threadid_mask : Nat) (s : State) : Call → Option State
  | .should_abort tid wlock abo => some (ContentionManager.should_abort threadid_mask s tid wlock abo).2.2
  | .on_write tid => some (ContentionManager.on_write s tid)
  | .start tid is_restarted => some (ContentionManager.start s tid is_restarted)
  | .on_rollback tid rand_r => (ContentionManager.on_rollback s tid rand_r).map Prod.fst

/-- The state after a sequence of calls, made one after the other. -/
def run (threadid_mask : Nat) : List Call → State → Option State
  | [], s => some s
  | c :: cs, s => (c.exec threadid_mask s).bind (run threadid_mask cs)

/-- Whether the call is `start` of a fresh attempt (not a restart) by the
thread `t`. -/
def Call.isFreshStartOf (t : Nat) : Call → Bool
  | .start tid is_restarted => decide (tid = t) && !is_restarted
  | _ => false

/-- The state after thread `tid` starts a fresh attempt in the initial state and
calls `on_write` `n` times. -/
def State.afterWrites (tid n : Nat) : State :=
  (fun s => on_write s tid)^[n] (start State.init tid false)

/-- The calls of a transaction of thread `tid` that is rolled back and
restarted once for each generator of the list: `on_rollback` with that
generator, then `start` as a restart. -/
def rollbackRestarts (tid : Nat) : List (Nat → Nat × Nat) → List Call
  | [] => []
  | rand_r :: rest => .on_rollback tid rand_r :: .start tid true :: rollbackRestarts tid rest

/-- The timestamp assignments made during the run of `calls` from `s`, in
order: for each call of `on_write` that takes the assigning branch (the slot's
timestamp is `MAX_TS` and the incremented write-set size equals
`TS_THRESHOLD`), the calling thread and the timestamp its slot holds after the
call. -/
def assignments (threadid_mask : Nat) : List Call → State → List (Nat × Nat)
  | [], _ => []
  | c :: cs, s =>
    match c.exec threadid_mask s with
    | none => []
    | some s' =>
      (match c with
        | .on_write tid =>
          if s.timestamp (tid * 4) = MAX_TS ∧
              (on_write s tid).write_set_size (tid * 4) = TS_THRESHOLD then
            [(tid, s'.timestamp (tid * 4))]
          else []
        | _ => []) ++ assignments threadid_mask cs s'

end ContentionManager

/-! ### Item tracking of the transaction runtime -/

namespace Sto

/-- Modelled from the spec: the item-tracking API of the transaction runtime
(`Transaction.hh` and `TransItem` are not under `src/`).  An item is keyed by
`key` (an element pointer or a reserved small integer), carries user flag bits
(`flags`, counted from `TransItem::user0_bit`), an optional recorded read
version and an optional pending write of type `W`. -/
structure TransItem (W : Type) where
  key : Int
  flags : Nat
  rdata : Option Nat
  wdata : Option W

/-- `TransItem::user0_bit`, the first user flag; flags are kept relative to it. -/
def user0_bit : Nat := 1

/-- `item.has_read()`. -/
def TransItem.has_read {W : Type} (it : TransItem W) : Bool := it.rdata.isSome

/-- `item.has_write()`. -/
def TransItem.has_write {W : Type} (it : TransItem W) : Bool := it.wdata.isSome

/-- `item.add_read(v)`: records `v` unless a read is already recorded. -/
def TransItem.add_read {W : Type} (it : TransItem W) (v : Nat) : TransItem W :=
  if it.has_read then it else { it with rdata := some v }

/-- `item.add_write(w)`: records (or replaces) the pending write. -/
def TransItem.add_write {W : Type} (it : TransItem W) (w : W) : TransItem W :=
  { it with wdata := some w }

/-- `item.clear_write()`. -/
def TransItem.clear_write {W : Type} (it : TransItem W) : TransItem W :=
  { it with wdata := none }

/-- `item.add_flags(f)`. -/
def TransItem.add_flags {W : Type} (it : TransItem W) (f : Nat) : TransItem W :=
  { it with flags := it.flags ||| f }

/-- `item.clear_flags(f)`: `flags & ~f`, written as `flags ^ (flags & f)`. -/
def TransItem.clear_flags {W : Type} (it : TransItem W) (f : Nat) : TransItem W :=
  { it with flags := it.flags ^^^ (it.flags &&& f) }

/-- The item of `txn` with key `k`, if the transaction tracks one. -/
def find {W : Type} (txn : List (TransItem W)) (k : Int) : Option (TransItem W) :=
  txn.find? (fun it => decide (it.key = k))

/-- `Sto::item(this, k)` read access: the tracked item, or the fresh item
that the call creates. -/
def item {W : Type} (txn : List (TransItem W)) (k : Int) : TransItem W :=
  (find txn k).getD { key := k, flags := 0, rdata := none, wdata := none }

/-- Stores `it` as the item with key `it.key`, replacing the tracked one or
appending it to the transaction's item list. -/
def store {W : Type} : List (TransItem W) → TransItem W → List (TransItem W)
  | [], it => [it]
  | x :: xs, it => if x.key = it.key then it :: xs else x :: store xs it

end Sto

/-! ### FCQueue.hh -/

namespace FCQueue

/-- The compile-time switches `ITER`, `LOCKQV`, `INSTALL`, `CLEANUP`. -/
structure Config where
  ITER : Bool
  LOCKQV : Bool
  INSTALL : Bool
  CLEANUP : Bool
deriving DecidableEq, Repr

/-- The values the source defines: all four switches are `0`. -/
def Config.asBuilt : Config :=
  { ITER := false, LOCKQV := false, INSTALL := false, CLEANUP := false }

/-- `struct val_wrapper<T>` with `T = int`. -/
structure val_wrapper where
  val : Int
  flags : Nat
  threadid : Int
deriving DecidableEq, Repr

/-- `delete_bit = 1<<0` of the publication-list records. -/
def delete_bit : Nat := 1

/-- `popped_bit = 1<<1`. -/
def popped_bit : Nat := 2

/-- `list_bit = TransItem::user0_bit<<1`. -/
def list_bit : Nat := Sto.user0_bit <<< 1

/-- `empty_bit = TransItem::user0_bit<<2`. -/
def empty_bit : Nat := Sto.user0_bit <<< 2

/-- `enum fc_operation`. -/
inductive fc_operation where
  | op_push
  | op_mark_deleted
  | op_install_pops
  | op_undo_mark_deleted
  | op_clear_popped
  | op_clear
  | op_empty
deriving DecidableEq, Repr

/-- `struct fc_record`: the wrapper that the union pointer
(`pValPush`/`pValPop`/`pValEdit`) refers to, and the `is_empty` answer. -/
structure fc_record where
  pVal : val_wrapper
  is_empty : Bool
deriving DecidableEq, Repr

/-- Modelled from the spec: the queue version word (`TWrapped.hh` is not under
`src/`): a lock held or not by the running thread and a comparable value. -/
structure version_type where
  locked_here : Bool
  value : Nat
deriving DecidableEq, Repr

/-- The data members of `FCQueue` (the statistics counters printed by the
destructor are left out). -/
structure Queue where
  q_ : List val_wrapper
  queueversion_ : version_type
  last_deleted_index_ : Int
deriving DecidableEq, Repr

/-- The constructor `FCQueue()`. -/
def Queue.init : Queue :=
  { q_ := [], queueversion_ := { locked_here := false, value := 0 },
    last_deleted_index_ := -1 }

/-- `has_delete(val)`. -/
def has_delete (v : val_wrapper) : Bool := v.flags &&& delete_bit != 0

/-- `is_popped(val)`. -/
def is_popped (v : val_wrapper) : Bool := v.flags &&& popped_bit != 0

/-- The `ITER` loop of `op_mark_deleted`: marks the first element that is
neither delete-marked nor popped with `threadid` and `delete_bit`; returns the
index, the marked element and the new container. -/
def markFirst (threadid : Int) : List val_wrapper → Option (Nat × val_wrapper × List val_wrapper)
  | [] => none
  | x :: xs =>
    if !has_delete x && !is_popped x then
      let x' : val_wrapper := { x with threadid := threadid, flags := delete_bit }
      some (0, x', x' :: xs)
    else
      match markFirst threadid xs with
      | none => none
      | some (i, y, xs') => some (i + 1, y, x :: xs')

/-- The loop of `op_install_pops` over the first `n` elements: a delete-marked
element of `threadid` becomes popped. -/
def installPrefix (threadid : Int) : Nat → List val_wrapper → List val_wrapper
  | 0, l => l
  | _ + 1, [] => []
  | n + 1, x :: xs =>
    (if has_delete x && decide (threadid = x.threadid) then { x with flags := popped_bit } else x)
      :: installPrefix threadid n xs

/-- The loop of `op_undo_mark_deleted` over the first `n` elements, `idx` being
the index of the head: clears the mark of `threadid`, and tracks in `new_di`
the index of the last element delete-marked by another thread. -/
def undoPrefix (threadid : Int) : Nat → Nat → Int → List val_wrapper → Int × List val_wrapper
  | 0, _, new_di, l => (new_di, l)
  | _ + 1, _, new_di, [] => (new_di, [])
  | n + 1, idx, new_di, x :: xs =>
    if has_delete x then
      if threadid = x.threadid then
        let r := undoPrefix threadid n (idx + 1) new_di xs
        (r.1, { x with flags := 0 } :: r.2)
      else
        let r := undoPrefix threadid n (idx + 1) (idx : Int) xs
        (r.1, x :: r.2)
    else
      let r := undoPrefix threadid n (idx + 1) new_di xs
      (r.1, x :: r.2)

/-- The loop of `op_clear_popped`: drops popped elements from the front. -/
def clearPopped : List val_wrapper → Int → List val_wrapper × Int
  | [], ldi => ([], ldi)
  | x :: xs, ldi =>
    if is_popped x then clearPopped xs (if ldi ≠ -1 then ldi - 1 else ldi)
    else (x :: xs, ldi)

/-- `FCQueue::fc_apply(pRec)` for the operation `op`. -/
def fc_apply (cfg : Config) (op : fc_operation) (q : Queue) (pRec : fc_record) :
    Queue × fc_record :=
  match op with
  | .op_push => ({ q with q_ := q.q_ ++ [pRec.pVal] }, pRec)
  | .op_mark_deleted =>
    if !cfg.ITER then
      match q.q_ with
      | [] => (q, { pRec with is_empty := true })
      | front :: rest => ({ q with q_ := rest }, { pVal := front, is_empty := false })
    else
      match markFirst pRec.pVal.threadid q.q_ with
      | some (index, it, l) =>
        ({ q with q_ := l
                  last_deleted_index_ :=
                    if q.last_deleted_index_ > (index : Int) then q.last_deleted_index_
                    else (index : Int) },
          { pVal := it, is_empty := false })
      | none => (q, { pRec with is_empty := true })
  | .op_install_pops =>
    if cfg.ITER then
      ({ q with q_ := installPrefix pRec.pVal.threadid (q.last_deleted_index_ + 1).toNat q.q_ },
        pRec)
    else (q, pRec)
  | .op_undo_mark_deleted =>
    let r : Int × List val_wrapper :=
      if q.last_deleted_index_ ≠ -1 then
        undoPrefix pRec.pVal.threadid (q.last_deleted_index_ + 1).toNat 0 0 q.q_
      else (0, q.q_)
    ({ q with q_ := r.2, last_deleted_index_ := r.1 }, pRec)
  | .op_clear_popped =>
    let r := clearPopped q.q_ q.last_deleted_index_
    ({ q with q_ := r.1, last_deleted_index_ := r.2 }, pRec)
  | .op_clear => ({ q with q_ := [], last_deleted_index_ := -1 }, pRec)
  | .op_empty => (q, { pRec with is_empty := q.q_.isEmpty })

/-- Modelled from the spec: `fc_kernel_.combine(op, pRec, *this)` of the
combining kernel (`FlatCombining.hh` is not under `src/`).  With one thread
the caller is the combiner and the record is applied at once. -/
def combine (cfg : Config) (op : fc_operation) (q : Queue) (pRec : fc_record) :
    Queue × fc_record :=
  fc_apply cfg op q pRec

/-- The pending write of the push item: one value or a `std::list` of values;
`zero` is the `add_write(0)` of the pop item. -/
inductive WriteValue where
  | value (v : Int)
  | list (l : List Int)
  | zero
deriving DecidableEq, Repr

/-- The item type of a transaction on the queue. -/
abbrev TransItem := Sto.TransItem WriteValue

/-- `is_list(item)`. -/
def is_list (item : TransItem) : Bool := item.flags &&& list_bit != 0

/-- `is_empty(item)`. -/
def is_empty (item : TransItem) : Bool := item.flags &&& empty_bit != 0

/-- `item.write_value<value_type>()`. -/
def write_value (item : TransItem) : Int :=
  match item.wdata with
  | some (.value v) => v
  | _ => 0

/-- `item.write_value<std::list<value_type>>()`. -/
def write_list (item : TransItem) : List Int :=
  match item.wdata with
  | some (.list l) => l
  | _ => []

/-- `FCQueue::push(v)`: returns the result and the transaction's items. -/
def push (txn : List TransItem) (v : Int) : Bool × List TransItem :=
  let item := Sto.item txn (-1)
  if item.has_write then
    if !is_list item then
      let val := write_value item
      let r : List Int × TransItem :=
        if !is_empty item then ([val], item.clear_flags empty_bit) else ([], item)
      let wl := r.1 ++ [v]
      (true, Sto.store txn (((r.2.clear_write).add_write (.list wl)).add_flags list_bit))
    else
      (true, Sto.store txn (item.add_write (.list (write_list item ++ [v]))))
  else
    (true, Sto.store txn (item.add_write (.value v)))

/-- `FCQueue::pop(val)`: `val` is the value of the reference parameter on
entry, `tid` is `TThread::id()`.  Returns the result, the reference
parameter on return, the queue and the transaction's items. -/
def pop (cfg : Config) (tid : Int) (q : Queue) (txn : List TransItem) (val : Int) :
    Bool × Int × Queue × List TransItem :=
  let vw : val_wrapper := { val := val, flags := 0, threadid := tid }
  let r := combine cfg .op_mark_deleted q { pVal := vw, is_empty := false }
  if !r.2.is_empty then
    (true, r.2.pVal.val, r.1, Sto.store txn ((Sto.item txn 0).add_write .zero))
  else
    let pushitem0 := Sto.item txn (-1)
    let pushitem :=
      if !pushitem0.has_read then pushitem0.add_read r.1.queueversion_.value else pushitem0
    if pushitem.has_write then
      if is_list pushitem then
        match write_list pushitem with
        | _ :: rest => (true, val, r.1, Sto.store txn (pushitem.add_write (.list rest)))
        | [] => (false, val, r.1, Sto.store txn pushitem)
      else if !is_empty pushitem then
        (true, val, r.1, Sto.store txn (pushitem.add_flags empty_bit))
      else (false, val, r.1, Sto.store txn pushitem)
    else (false, val, r.1, Sto.store txn pushitem)

/-- `FCQueue::lock(item, txn)`; with `LOCKQV` it takes the queue version lock
for the push item. -/
def lock (cfg : Config) (q : Queue) (item : TransItem) : Bool × Queue :=
  if item.key = -1 ∧ !q.queueversion_.locked_here then
    if cfg.LOCKQV then (true, { q with queueversion_ := { q.queueversion_ with locked_here := true } })
    else (true, q)
  else (true, q)

/-- `FCQueue::check(item, t)`: `item.check_version(queueversion_)` for the push
item, false for any other key. -/
def check (q : Queue) (item : TransItem) : Bool :=
  if item.key = -1 then decide (item.rdata = some q.queueversion_.value)
  else false

/-- The loop of `install` over the write list: one `op_push` per value. -/
def installList (cfg : Config) : List Int → Queue → Queue
  | [], q => q
  | val :: rest, q =>
    installList cfg rest
      (combine cfg .op_push q { pVal := { val := val, flags := 0, threadid := 0 }, is_empty := false }).1

/-- `FCQueue::install(item, txn)`; `tid` is `TThread::id()` and `commit_tid` is
`txn.commit_tid()`.  Returns the queue and the item (whose write list the
loop drains). -/
def install (cfg : Config) (tid : Int) (commit_tid : Nat) (q : Queue) (item : TransItem) :
    Queue × TransItem :=
  let q1 : Queue :=
    if (cfg.INSTALL || cfg.ITER) && decide (item.key = 0) then
      (combine cfg .op_install_pops q
        { pVal := { val := 0, flags := 0, threadid := tid }, is_empty := false }).1
    else q
  let r : Queue × TransItem :=
    if item.key = -1 then
      if is_list item then
        (installList cfg (write_list item) q1, item.add_write (.list []))
      else if !is_empty item then
        ((combine cfg .op_push q1
          { pVal := { val := write_value item, flags := 0, threadid := 0 }, is_empty := false }).1,
          item)
      else (q1, item)
    else (q1, item)
  if !r.1.queueversion_.locked_here then
    ({ r.1 with queueversion_ := { locked_here := true, value := commit_tid } }, r.2)
  else r

/-- `FCQueue::unlock(item)`. -/
def unlock (q : Queue) : Queue :=
  if q.queueversion_.locked_here then
    { q with queueversion_ := { q.queueversion_ with locked_here := false } }
  else q

/-- `FCQueue::cleanup(item, committed)`. -/
def cleanup (cfg : Config) (tid : Int) (q : Queue) (committed : Bool) : Queue :=
  let q1 : Queue :=
    if cfg.CLEANUP || cfg.ITER then
      if !committed then
        (combine cfg .op_undo_mark_deleted q
          { pVal := { val := 0, flags := 0, threadid := tid }, is_empty := false }).1
      else
        (combine cfg .op_clear_popped q
          { pVal := { val := 0, flags := 0, threadid := 0 }, is_empty := false }).1
    else q
  if q1.queueversion_.locked_here then
    { q1 with queueversion_ := { q1.queueversion_ with locked_here := false } }
  else q1

/-- Modelled from the spec: the runtime's commit of a transaction with items
`txn` (the runtime is not under `src/`): `lock` on every item with a write,
`check` on every item with a read, then, when all checks pass, `install` and
`unlock` on the written items and `cleanup(committed = true)` on every item;
when a check fails, `unlock` on the written items and
`cleanup(committed = false)` on every item. -/
def commit (cfg : Config) (tid : Int) (commit_tid : Nat) (q : Queue) (txn : List TransItem) :
    Bool × Queue :=
  let writes := txn.filter (fun it => it.has_write)
  let q1 := writes.foldl (fun q it => (lock cfg q it).2) q
  let ok := (txn.filter (fun it => it.has_read)).all (fun it => check q1 it)
  if ok then
    let q2 := writes.foldl (fun q it => (install cfg tid commit_tid q it).1) q1
    let q3 := writes.foldl (fun q _ => unlock q) q2
    (true, txn.foldl (fun q _ => cleanup cfg tid q true) q3)
  else
    let q3 := writes.foldl (fun q _ => unlock q) q1
    (false, txn.foldl (fun q _ => cleanup cfg tid q false) q3)

/-- A transaction body that pushes the values of `vs` in order. -/
def pushAll (txn : List TransItem) : List Int → List TransItem
  | [] => txn
  | v :: vs => pushAll (push txn v).2 vs

/-- A transaction body that calls `pop` `n` times; returns each call's result
and reference parameter, and the final queue and items. -/
def popN (cfg : Config) (tid : Int) :
    Nat → Queue → List TransItem → Int → List (Bool × Int) × Queue × List TransItem
  | 0, q, txn, _ => ([], q, txn)
  | n + 1, q, txn, val =>
    let r := pop cfg tid q txn val
    let rest := popN cfg tid n r.2.2.1 r.2.2.2 r.2.1
    ((r.1, r.2.1) :: rest.1, rest.2)

/-- Runs the transactions of `txns` one after the other, each pushing its
values and committing with its commit timestamp. -/
def commitPushes (cfg : Config) (tid : Int) (q : Queue) (txns : List (Nat × List Int)) : Queue :=
  txns.foldl (fun q t => (commit cfg tid t.1 q (pushAll [] t.2)).2) q

/-- The push item of a transaction that pushed exactly `v`. -/
def valueItem (v : Int) : TransItem :=
  { key := -1, flags := 0, rdata := none, wdata := some (.value v) }

/-- The push item of a transaction whose pushes are kept as the list `l`. -/
def listItem (l : List Int) : TransItem :=
  { key := -1, flags := list_bit, rdata := none, wdata := some (.list l) }

/-- The values pushed by the transactions of `txns`, in push order. -/
def allValues : List (Nat × List Int) → List Int
  | [] => []
  | t :: ts => t.2 ++ allValues ts

/-- The record `op_push` stores for a value pushed at install time. -/
def pushed (v : Int) : val_wrapper := { val := v, flags := 0, threadid := 0 }

/-- The pending pushes that the push item stands for, oldest first, as `pop`
and `install` read them: the write list of a list item, the single value of an
item that is not flagged empty, nothing otherwise. -/
def pending (item : TransItem) : List Int :=
  if item.has_write then
    if is_list item then write_list item
    else if !is_empty item then [write_value item] else []
  else []

/-- An item without a pending write carries neither the list flag nor the
empty flag (as the item that `Sto::item` creates). -/
def Clean (item : TransItem) : Bool :=
  item.has_write || (!is_list item && !is_empty item)

/-- A queue operation of a transaction body. -/
inductive TxOp where
  | push (v : Int)
  | pop
deriving DecidableEq, Repr

/-- Runs the operations in order in one transaction; returns the results of
the pops, the queue and the transaction's items. -/
def runOps (cfg : Config) (tid : Int) :
    List TxOp → Queue → List TransItem → Int → List Bool × Queue × List TransItem
  | [], q, txn, _ => ([], q, txn)
  | .push v :: ops, q, txn, val => runOps cfg tid ops q (push txn v).2 val
  | .pop :: ops, q, txn, val =>
    let r := pop cfg tid q txn val
    let rest := runOps cfg tid ops r.2.2.1 r.2.2.2 r.2.1
    (r.1 :: rest.1, rest.2)

/-- The pending-push list as the specification describes it: a push appends
its value, a pop succeeds exactly when the list is not empty and then consumes
its front entry.  Returns the results of the pops and the final list. -/
def specOps : List TxOp → List Int → List Bool × List Int
  | [], p => ([], p)
  | .push v :: ops, p => specOps ops (p ++ [v])
  | .pop :: ops, [] => ((false :: (specOps ops []).1), (specOps ops []).2)
  | .pop :: ops, _ :: rest => ((true :: (specOps ops rest).1), (specOps ops rest).2)

end FCQueue

/-! ### PriorityQueue.hh -/

namespace PriorityQueue

/-- `enum Status`. -/
inductive Status where
  | AVAILABLE
  | EMPTY
  | BUSY
deriving DecidableEq, Repr

/-- The parts of `TransactionTid` the queue uses and that are not under
`src/`, taken as parameters: the lock bit, the first user bit, the sequence
increment, and the version updates `inc_invalid_version(v)`,
`set_version(v, tid)` and the comparison `same_version(a, b)`. -/
structure TransactionTid where
  lock_bit : Nat
  user_bit1 : Nat
  increment_value : Nat
  inc_invalid_version : Nat → Nat
  set_version : Nat → Nat → Nat
  same_version : Nat → Nat → Bool

/-- A layout for concrete runs: bit 0 is the lock, bits 2, 3 and 4 are the
user bits (inserted, deleted, dirty) and sequence numbers count in units of
32. -/
def TransactionTid.sample : TransactionTid :=
  { lock_bit := 1, user_bit1 := 4, increment_value := 32,
    inc_invalid_version := fun v => v + 32,
    set_version := fun _ t => t,
    same_version := fun a b => (a ^^^ b) ≤ 1 }

/-- `insert_tag = TransItem::user0_bit`. -/
def insert_tag : Nat := Sto.user0_bit

/-- `delete_tag = TransItem::user0_bit<<1`. -/
def delete_tag : Nat := Sto.user0_bit <<< 1

/-- `dirty_tag = TransItem::user0_bit<<2`. -/
def dirty_tag : Nat := Sto.user0_bit <<< 2

/-- `insert_bit = TransactionTid::user_bit1`. -/
def insert_bit (T : TransactionTid) : Nat := T.user_bit1

/-- `delete_bit = TransactionTid::user_bit1<<1`. -/
def delete_bit (T : TransactionTid) : Nat := T.user_bit1 <<< 1

/-- `dirty_bit = TransactionTid::user_bit1<<2`. -/
def dirty_bit (T : TransactionTid) : Nat := T.user_bit1 <<< 2

/-- `NO_ONE = -1`. -/
def NO_ONE : Int := -1

/-- `pop_key = -2`. -/
def pop_key : Int := -2

/-- `versioned_value_struct<T>` with `T = int`: the payload returned by
`read_value()` and the word returned by `version()`. -/
structure versioned_value where
  value : Int
  version : Nat

/-- `struct HeapNode<T>`; `val` is the address of the versioned value. -/
structure HeapNode where
  val : Nat
  ver : Nat
  status : Status
  owner : Int

/-- The pending write of an item: the pushed payload, the integer `0`, or the
address of the new head (`none` for `NULL`). -/
inductive WriteValue where
  | payload (v : Int)
  | zero
  | ptr (p : Option Nat)
deriving DecidableEq, Repr

/-- The item type of a transaction on the priority queue. -/
abbrev TransItem := Sto.TransItem WriteValue

/-- The data members of `PriorityQueue` (`heap_` as a map from the index to the
node it points to, `heap_size` being `heap_.size()`), the store of versioned
values (`mem`, with `mem_next` the next address `versioned_value::make`
hands out) and the items of the running transaction. -/
structure State where
  heap_ : Int → HeapNode
  heap_size : Int
  heaplock_ : Nat
  poplock_ : Nat
  popversion_ : Nat
  size_ : Int
  mem : Nat → versioned_value
  mem_next : Nat
  txn : List TransItem

/-- The constructor `PriorityQueue()`, with an empty value store and no
running transaction's items. -/
def State.init : State :=
  { heap_ := fun _ => { val := 0, ver := 0, status := .EMPTY, owner := -1 },
    heap_size := 0, heaplock_ := 0, poplock_ := 0, popversion_ := 0, size_ := 0,
    mem := fun _ => { value := 0, version := 0 }, mem_next := 0, txn := [] }

/-- How a call ends: it returns `a`; it calls `Sto::abort()` in state `s`; it
indexes `heap_` outside the vector or dereferences `NULL` (`fault`); it waits
forever, on a lock word that is held or for another thread's step, none
running (`spin`); or the fuel of the model's loop ran out (`fuel`). -/
inductive Res (α : Type) where
  | ok (a : α)
  | abort (s : State)
  | fault
  | spin
  | fuel

/-- Sequencing: the continuation runs on a normal return only. -/
def Res.bind {α β : Type} (r : Res α) (f : α → Res β) : Res β :=
  match r with
  | .ok a => f a
  | .abort s => .abort s
  | .fault => .fault
  | .spin => .spin
  | .fuel => .fuel

/-- The monad of call results. -/
instance : Monad Res where
  pure := Res.ok
  bind := Res.bind

/-- The value a call returned, if it returned. -/
def Res.val? {α : Type} : Res α → Option α
  | .ok a => some a
  | _ => none

/-- Whether the call ended in an out-of-range access. -/
def Res.isFault {α : Type} : Res α → Bool
  | .fault => true
  | _ => false

/-- Whether the call ended in `Sto::abort()`. -/
def Res.isAbort {α : Type} : Res α → Bool
  | .abort _ => true
  | _ => false

/-- Modelled from the spec: `TransactionTid::is_locked(v)`, the lock bit of a
version word (`TransactionTid` is not under `src/`). -/
def is_locked (T : TransactionTid) (v : Nat) : Bool := v &&& T.lock_bit != 0

/-- Modelled from the spec: `TransactionTid::lock(v)`, a spin lock: it sets the
lock bit once the bit is clear; `none` when the bit is set, where the only
running thread would wait forever. -/
def lockWord (T : TransactionTid) (v : Nat) : Option Nat :=
  if is_locked T v then none else some (v ||| T.lock_bit)

/-- Modelled from the spec: `TransactionTid::unlock(v)` clears the lock bit
(`v & ~lock_bit`, written as `v ^ (v & lock_bit)`). -/
def unlockWord (T : TransactionTid) (v : Nat) : Nat := v ^^^ (v &&& T.lock_bit)

/-- `is_inserted(v)`. -/
def is_inserted (T : TransactionTid) (v : Nat) : Bool := v &&& insert_bit T != 0

/-- `erase_inserted(v)`: `*v & ~insert_bit`. -/
def erase_inserted (T : TransactionTid) (v : Nat) : Nat := v ^^^ (v &&& insert_bit T)

/-- `mark_inserted(v)`. -/
def mark_inserted (T : TransactionTid) (v : Nat) : Nat := v ||| insert_bit T

/-- `is_dirty(v)`. -/
def is_dirty (T : TransactionTid) (v : Nat) : Bool := v &&& dirty_bit T != 0

/-- `erase_dirty(v)`: `*v & ~dirty_bit`. -/
def erase_dirty (T : TransactionTid) (v : Nat) : Nat := v ^^^ (v &&& dirty_bit T)

/-- `mark_dirty(v)`. -/
def mark_dirty (T : TransactionTid) (v : Nat) : Nat := v ||| dirty_bit T

/-- `is_deleted(v)`. -/
def is_deleted (T : TransactionTid) (v : Nat) : Bool := v &&& delete_bit T != 0

/-- `erase_deleted(v)`: `*v & ~delete_bit`. -/
def erase_deleted (T : TransactionTid) (v : Nat) : Nat := v ^^^ (v &&& delete_bit T)

/-- `mark_deleted(v)`. -/
def mark_deleted (T : TransactionTid) (v : Nat) : Nat := v ||| delete_bit T

/-- `has_insert(item)`. -/
def has_insert (item : TransItem) : Bool := item.flags &&& insert_tag != 0

/-- `has_delete(item)`. -/
def has_delete (item : TransItem) : Bool := item.flags &&& delete_tag != 0

/-- `has_dirty(item)`. -/
def has_dirty (item : TransItem) : Bool := item.flags &&& dirty_tag != 0

/-- `HeapNode::amOwner()`; `me` is `Transaction::threadid`. -/
def amOwner (me : Int) (n : HeapNode) : Bool := n.status = .BUSY ∧ n.owner = me

/-- `p->read_value()`. -/
def read_value (s : State) (p : Nat) : Int := (s.mem p).value

/-- `p->version()` as a value. -/
def version (s : State) (p : Nat) : Nat := (s.mem p).version

/-- Assignment through `p->version()`. -/
def setVersion (s : State) (p : Nat) (v : Nat) : State :=
  { s with mem := Function.update s.mem p { s.mem p with version := v } }

/-- `versioned_value::make(v, ver)`: the new address and the new state. -/
def make (s : State) (v : Int) (ver : Nat) : Nat × State :=
  (s.mem_next,
    { s with mem := Function.update s.mem s.mem_next { value := v, version := ver }
             mem_next := s.mem_next + 1 })

/-- Whether `heap_[i]` lies inside the vector. -/
def inBounds (s : State) (i : Int) : Bool := 0 ≤ i ∧ i < s.heap_size

/-- Assignment to `heaplock_`. -/
def setHeaplock (s : State) (v : Nat) : State := { s with heaplock_ := v }

/-- Assignment to `poplock_`. -/
def setPoplock (s : State) (v : Nat) : State := { s with poplock_ := v }

/-- Assignment to `popversion_`. -/
def setPopversion (s : State) (v : Nat) : State := { s with popversion_ := v }

/-- Assignment to `size_`. -/
def setSize (s : State) (n : Int) : State := { s with size_ := n }

/-- Assignment `heap_[i] = node`. -/
def setNode (s : State) (i : Int) (node : HeapNode) : State :=
  { s with heap_ := Function.update s.heap_ i node }

/-- `heap_.push_back(node)`. -/
def pushBack (s : State) (node : HeapNode) : State :=
  { s with heap_ := Function.update s.heap_ s.heap_size node, heap_size := s.heap_size + 1 }

/-- Assignment to `heap_[i]->ver`. -/
def setNodeVer (s : State) (i : Int) (v : Nat) : State :=
  { s with heap_ := Function.update s.heap_ i { s.heap_ i with ver := v } }

/-- `lock(&heap_[i]->ver)`. -/
def lockNode (T : TransactionTid) (s : State) (i : Int) : Res State :=
  if inBounds s i then
    match lockWord T (s.heap_ i).ver with
    | some v => .ok (setNodeVer s i v)
    | none => .spin
  else .fault

/-- `unlock(&heap_[i]->ver)`, for an index locked before. -/
def unlockNode (T : TransactionTid) (s : State) (i : Int) : State :=
  setNodeVer s i (unlockWord T (s.heap_ i).ver)

/-- The two assignments `heap_[i]->status = AVAILABLE; heap_[i]->owner = NO_ONE`. -/
def settle (s : State) (i : Int) : State :=
  { s with heap_ :=
      Function.update s.heap_ i { s.heap_ i with status := .AVAILABLE, owner := NO_ONE } }

/-- The two assignments `heap_[i]->status = EMPTY; heap_[i]->owner = NO_ONE`. -/
def vacate (s : State) (i : Int) : State :=
  { s with heap_ :=
      Function.update s.heap_ i { s.heap_ i with status := .EMPTY, owner := NO_ONE } }

/-- `PriorityQueue::swap(i, j)`: exchanges value, status and owner of the two
nodes, not their lock words. -/
def swap (s : State) (i j : Int) : State :=
  let tmp := s.heap_ i
  let h1 := Function.update s.heap_ i
    { s.heap_ i with val := (s.heap_ j).val, status := (s.heap_ j).status,
                     owner := (s.heap_ j).owner }
  let h2 := Function.update h1 j
    { h1 j with val := tmp.val, status := tmp.status, owner := tmp.owner }
  { s with heap_ := h2 }

/-- Replaces the item list of the running transaction. -/
def setTxn (s : State) (txn : List TransItem) : State := { s with txn := txn }

/-- `Sto::item(this, k)` as a statement: the transaction tracks an item with
key `k` afterwards. -/
def touch (s : State) (k : Int) : State :=
  setTxn s (Sto.store s.txn (Sto.item s.txn k))

/-- Replaces the tracked item with key `it.key` by `it`. -/
def setItem (s : State) (it : TransItem) : State :=
  setTxn s (Sto.store s.txn it)

/-- The `while (child > 0)` loop of `add`.  The result is the state and
`some child` when the loop ends, `none` when `add` returns from inside the
loop.  When the parent is not `AVAILABLE` while the child is still owned, an
iteration changes nothing and the loop waits for another thread (`spin`). -/
def addLoop (T : TransactionTid) (me : Int) : Nat → State → Int → Res (State × Option Int)
  | 0, s, child => if child > 0 then .fuel else .ok (s, some child)
  | fuel + 1, s, child =>
    if child > 0 then do
      let parent := (child - 1) / 2
      let s ← lockNode T s parent
      let s ← lockNode T s child
      let old := child
      if (s.heap_ parent).status = .AVAILABLE ∧ amOwner me (s.heap_ child) then
        let parent_val := (s.heap_ parent).val
        if read_value s (s.heap_ child).val > read_value s parent_val then
          let s := swap s child parent
          let child := parent
          if is_dirty T (version s parent_val) then
            let s := touch s parent_val
            if !has_dirty (Sto.item s.txn parent_val) then
              let s := settle s child
              let s := unlockNode T s old
              let s := unlockNode T s parent
              .abort s
            else
              let s := unlockNode T s old
              let s := unlockNode T s parent
              addLoop T me fuel s child
          else
            let s := unlockNode T s old
            let s := unlockNode T s parent
            addLoop T me fuel s child
        else
          let s := settle s child
          let s := unlockNode T s old
          let s := unlockNode T s parent
          .ok (s, none)
      else if !amOwner me (s.heap_ child) then
        let s := unlockNode T s old
        let s := unlockNode T s parent
        addLoop T me fuel s parent
      else .spin
    else .ok (s, some child)

/-- `PriorityQueue::add(v)`; `me` is `Transaction::threadid`. -/
def add (T : TransactionTid) (me : Int) (s : State) (v : Nat) : Res State :=
  match lockWord T s.heaplock_ with
  | none => .spin
  | some hl =>
    let s := setHeaplock s hl
    let child := s.size_
    let s := setSize s (s.size_ + 1)
    let new_node : HeapNode := { val := v, ver := 0, status := .BUSY, owner := me }
    let s :=
      if child < 0 ∨ child ≥ s.heap_size then pushBack s new_node
      else setNode s child new_node
    let s := setHeaplock s (unlockWord T s.heaplock_)
    (addLoop T me child.toNat s child).bind fun r =>
    match r.2 with
    | none => .ok r.1
    | some child =>
      if child = 0 then
        (lockNode T r.1 0).bind fun s =>
        let s := if amOwner me (s.heap_ 0) then settle s 0 else s
        .ok (unlockNode T s 0)
      else .ok r.1

/-- The `while (2*parent < size_ - 2)` loop of `removeMax` together with the
final `unlock(&heap_[parent]->ver)`. -/
def siftDown (T : TransactionTid) : Nat → State → Int → Res State
  | 0, s, parent =>
    if 2 * parent < s.size_ - 2 then .fuel else .ok (unlockNode T s parent)
  | fuel + 1, s, parent =>
    if 2 * parent < s.size_ - 2 then do
      let left := parent * 2 + 1
      let right := parent * 2 + 2
      let s ← lockNode T s left
      let s ← lockNode T s right
      if (s.heap_ left).status = .EMPTY then
        let s := unlockNode T s right
        let s := unlockNode T s left
        .ok (unlockNode T s parent)
      else if (s.heap_ right).status = .EMPTY ∨
          read_value s (s.heap_ left).val > read_value s (s.heap_ right).val then
        let s := unlockNode T s right
        let child := left
        if read_value s (s.heap_ child).val > read_value s (s.heap_ parent).val then
          let s := swap s parent child
          let s := unlockNode T s parent
          siftDown T fuel s child
        else
          let s := unlockNode T s child
          .ok (unlockNode T s parent)
      else
        let s := unlockNode T s left
        let child := right
        if read_value s (s.heap_ child).val > read_value s (s.heap_ parent).val then
          let s := swap s parent child
          let s := unlockNode T s parent
          siftDown T fuel s child
        else
          let s := unlockNode T s child
          .ok (unlockNode T s parent)
    else .ok (unlockNode T s parent)

/-- `PriorityQueue::removeMax(expVal)`; `expVal = none` is the default `NULL`.
Returns the removed value's address (`none` for `NULL`) and the state. -/
def removeMax (T : TransactionTid) (s : State) (expVal : Option Nat) :
    Res (Option Nat × State) :=
  match lockWord T s.heaplock_ with
  | none => .spin
  | some hl =>
    let s := setHeaplock s hl
    let bottom := s.size_ - 1
    let s := setSize s bottom
    if bottom = 0 then
      if inBounds s 0 then
        let res := (s.heap_ 0).val
        .ok (some res, setHeaplock s (unlockWord T s.heaplock_))
      else .fault
    else
      (lockNode T s bottom).bind fun s =>
      (lockNode T s 0).bind fun s =>
      let res := (s.heap_ 0).val
      let s := setHeaplock s (unlockWord T s.heaplock_)
      if expVal ≠ none ∧ some res ≠ expVal then .ok (none, s)
      else
        let s := vacate s 0
        let s := swap s bottom 0
        let s := unlockNode T s bottom
        (siftDown T s.size_.toNat s 0).bind fun s => .ok (some res, s)

/-- The `while(1)` loop of `getMax`. -/
def getMaxLoop (T : TransactionTid) : Nat → State → Res (Option Nat × State)
  | 0, _ => .fuel
  | fuel + 1, s =>
    if inBounds s 0 then
      let val := (s.heap_ 0).val
      let s := touch s val
      let item := Sto.item s.txn val
      if is_inserted T (version s val) then
        if has_insert item then .ok (some val, s)
        else .abort (setPoplock s (unlockWord T s.poplock_))
      else if is_deleted T (version s val) then
        (removeMax T s (some val)).bind fun r => getMaxLoop T fuel r.2
      else .ok (some val, s)
    else .fault

/-- `PriorityQueue::getMax()`. -/
def getMax (T : TransactionTid) (s : State) : Res (Option Nat × State) :=
  if s.size_ = 0 then .ok (none, s)
  else getMaxLoop T (s.size_.toNat + 2) s

/-- `PriorityQueue::push(v)`. -/
def push (T : TransactionTid) (me : Int) (s : State) (v : Int) : Res State :=
  let r := make s v (T.increment_value + insert_bit T)
  (add T me r.2 r.1).bind fun s =>
  .ok (setItem s (((Sto.item s.txn r.1).add_write (.payload v)).add_flags insert_tag))

/-- The statements of `pop()` that follow the call of `getMax()`: `val` is the
result of `removeMax()` and `new_head` the result of `getMax()`. -/
def popFinish (T : TransactionTid) (s : State) (val : Option Nat) (new_head : Option Nat) :
    Res State :=
  let s := match new_head with
    | some nh => setVersion s nh (mark_dirty T (version s nh))
    | none => s
  let s := setPoplock s (unlockWord T s.poplock_)
  let s := match new_head with
    | some nh => setItem s (((Sto.item s.txn nh).add_write .zero).add_flags dirty_tag)
    | none => s
  match val with
  | none => .fault
  | some val =>
    let item := (Sto.item s.txn val).add_read (version s val)
    let s := setItem s ((item.add_write (.ptr new_head)).add_flags delete_tag)
    .ok (setItem s ((Sto.item s.txn pop_key).add_write .zero))

/-- `PriorityQueue::pop()`. -/
def pop (T : TransactionTid) (s : State) : Res State :=
  if s.size_ = 0 then .ok s
  else
    match lockWord T s.poplock_ with
    | none => .spin
    | some pl =>
      let s := setPoplock s pl
      (removeMax T s none).bind fun r1 =>
      (getMax T r1.2).bind fun r2 =>
      popFinish T r2.2 r1.1 r2.1

/-- `PriorityQueue::top()`: the returned payload and the state. -/
def top (T : TransactionTid) (s : State) : Res (Int × State) :=
  let s := setItem s ((Sto.item s.txn pop_key).add_read s.popversion_)
  match lockWord T s.poplock_ with
  | none => .spin
  | some pl =>
    let s := setPoplock s pl
    (getMax T s).bind fun r =>
    let s := setPoplock r.2 (unlockWord T r.2.poplock_)
    match r.1 with
    | none => .fault
    | some val =>
      let retval := read_value s val
      .ok (retval, setItem s ((Sto.item s.txn val).add_read (version s val)))

/-- `item.template write_value<versioned_value*>()`. -/
def write_value_ptr (item : TransItem) : Option Nat :=
  match item.wdata with
  | some (.ptr p) => p
  | _ => none

/-- `PriorityQueue::lock(TransItem& item)`. -/
def lock (T : TransactionTid) (s : State) (item : TransItem) : Res State :=
  if item.key = pop_key then
    match lockWord T s.popversion_ with
    | some v => .ok (setPopversion s v)
    | none => .spin
  else
    match lockWord T (version s item.key.toNat) with
    | some v => .ok (setVersion s item.key.toNat v)
    | none => .spin

/-- `PriorityQueue::unlock(TransItem& item)`. -/
def unlock (T : TransactionTid) (s : State) (item : TransItem) : State :=
  if item.key = pop_key then setPopversion s (unlockWord T s.popversion_)
  else setVersion s item.key.toNat (unlockWord T (version s item.key.toNat))

/-- `PriorityQueue::check(item, trans)`; `has_lock` is `item.has_lock(trans)`. -/
def check (T : TransactionTid) (s : State) (item : TransItem) (has_lock : Bool) : Bool :=
  if item.key = pop_key then
    let lv := s.popversion_
    T.same_version lv (item.rdata.getD 0) && (!is_locked T lv || has_lock)
  else
    let e := item.key.toNat
    let read_version := item.rdata.getD 0
    let same_version : Bool := (read_version ^^^ version s e) ≤ dirty_bit T + T.lock_bit
    let not_locked := !is_locked T (version s e) || has_lock
    let not_dirty := !is_dirty T read_version || !is_dirty T (version s e) || has_lock
    same_version && not_locked && not_dirty

/-- `PriorityQueue::install(item, t)`; `Opacity` is the template parameter and
`commit_tid` is `t.commit_tid()`. -/
def install (T : TransactionTid) (Opacity : Bool) (commit_tid : Nat) (s : State)
    (item : TransItem) : State :=
  if item.key = pop_key then
    if Opacity then setPopversion s (T.set_version s.popversion_ commit_tid)
    else setPopversion s (T.inc_invalid_version s.popversion_)
  else
    let e := item.key.toNat
    let s := if has_insert item then setVersion s e (erase_inserted T (version s e)) else s
    if has_delete item then
      match write_value_ptr item with
      | some new_head =>
        if is_dirty T (version s new_head) then
          setVersion s new_head (erase_dirty T (version s new_head))
        else s
      | none => s
    else s

/-- The statements of `cleanup` on the recorded new head of an aborted pop:
lock its version, `inc_invalid_version`, `erase_dirty`, unlock. -/
def undirty (T : TransactionTid) (s : State) (new_head : Nat) : Res State :=
  match lockWord T (version s new_head) with
  | none => .spin
  | some lv =>
    let s := setVersion s new_head lv
    let s := setVersion s new_head (T.inc_invalid_version (version s new_head))
    let s := setVersion s new_head (erase_dirty T (version s new_head))
    .ok (setVersion s new_head (unlockWord T (version s new_head)))

/-- `PriorityQueue::cleanup(item, committed)`. -/
def cleanup (T : TransactionTid) (me : Int) (s : State) (item : TransItem) (committed : Bool) :
    Res State :=
  if !committed then
    if has_insert item then
      let e := item.key.toNat
      let s := setVersion s e (mark_deleted T (version s e))
      .ok (setVersion s e (erase_inserted T (version s e)))
    else if has_delete item then
      let e := item.key.toNat
      let v := read_value s e
      let r := make s v T.increment_value
      (add T me r.2 r.1).bind fun s =>
      match write_value_ptr item with
      | some new_head => undirty T s new_head
      | none => .ok s
    else .ok s
  else .ok s

/-- The queue after committed pushes of 5 and 3 under the sample layout: two
settled nodes pointing at the values at addresses 0 and 1. -/
def State.sample : State :=
  { heap_ := fun i =>
      if i = 0 then { val := 0, ver := 0, status := .AVAILABLE, owner := -1 }
      else if i = 1 then { val := 1, ver := 0, status := .AVAILABLE, owner := -1 }
      else { val := 0, ver := 0, status := .EMPTY, owner := -1 },
    heap_size := 2, heaplock_ := 0, poplock_ := 0, popversion_ := 0, size_ := 2,
    mem := fun p =>
      if p = 0 then { value := 5, version := 32 }
      else if p = 1 then { value := 3, version := 32 }
      else { value := 0, version := 0 },
    mem_next := 2, txn := [] }

/-- Runs `f` on the elements of the list in order, stopping at the first call
that does not return. -/
def forEach {α : Type} (f : State → α → Res State) : List α → State → Res State
  | [], s => .ok s
  | x :: xs, s => (f s x).bind (forEach f xs)

/-- Modelled from the spec: the runtime's commit of the running transaction
(the runtime is not under `src/`): `lock` on every item with a write, `check`
on every item with a read (an item counts as locked by the transaction when it
has a write), then, when all checks pass, `install` and `unlock` on the written
items and `cleanup(committed = true)` on every item; when a check fails,
`unlock` on the written items and `cleanup(committed = false)` on every item.
The transaction's item list is empty afterwards. -/
def commit (T : TransactionTid) (me : Int) (Opacity : Bool) (commit_tid : Nat) (s : State) :
    Res (Bool × State) :=
  let items := s.txn
  let writes := items.filter (fun it => it.has_write)
  (forEach (lock T) writes s).bind fun s =>
  let ok := (items.filter (fun it => it.has_read)).all (fun it => check T s it it.has_write)
  if ok then
    let s := writes.foldl (install T Opacity commit_tid) s
    let s := writes.foldl (unlock T) s
    (forEach (fun s it => cleanup T me s it true) items s).bind fun s =>
    .ok (true, setTxn s [])
  else
    let s := writes.foldl (unlock T) s
    (forEach (fun s it => cleanup T me s it false) items s).bind fun s =>
    .ok (false, setTxn s [])

/-- Modelled from the spec: the runtime's abort of the running transaction
before commit: `cleanup(committed = false)` on every item, in the order the
items were created; the item list is empty afterwards. -/
def abortTxn (T : TransactionTid) (me : Int) (s : State) : Res State :=
  (forEach (fun s it => cleanup T me s it false) s.txn s).bind fun s =>
  .ok (setTxn s [])

/-- The payloads of the values the running transaction popped: the keys of its
delete-tagged items, in the order of the pops. -/
def poppedPayloads (s : State) : List Int :=
  (s.txn.filter has_delete).map (fun it => read_value s it.key.toNat)

/-- The payload of the value at heap index `i`:
`heap_[i]->val->read_value()`. -/
def pay (s : State) (i : Int) : Int := read_value s (s.heap_ i).val

/-- The payloads of the live prefix `[0, size_)` of the heap, by index. -/
def livePayloads (s : State) : List Int :=
  (List.range s.size_.toNat).map (fun i : Nat => pay s (i : Int))

/-- Max-heap order of the payloads `p` on the indexes `[0, n)`: every index but
the root holds at most what its parent holds. -/
def HeapOrdered (p : Int → Int) (n : Int) : Prop :=
  ∀ i : Int, 0 < i → i < n → p i ≤ p ((i - 1) / 2)

/-- Max-heap order on `[0, n)` except, possibly, between the last index
`n - 1` and its parent. -/
def AlmostHeap (p : Int → Int) (n : Int) : Prop :=
  ∀ i : Int, 0 < i → i + 1 < n → p i ≤ p ((i - 1) / 2)

/-- The invariant of the sift-down loop at the index `k`: the order holds on
every edge that does not leave `k`, and the children of `k` hold at most what
the parent of `k` holds. -/
def SiftInv (p : Int → Int) (n k : Int) : Prop :=
  (∀ i : Int, 0 < i → i < n → (i - 1) / 2 ≠ k → p i ≤ p ((i - 1) / 2)) ∧
  (0 < k → ∀ c : Int, 0 < c → c < n → (c - 1) / 2 = k → p c ≤ p ((k - 1) / 2))

/-- The fields other than the heap array are the same in `s` and `s'`. -/
structure Frame (s s' : State) : Prop where
  size_ : s'.size_ = s.size_
  heap_size : s'.heap_size = s.heap_size
  heaplock_ : s'.heaplock_ = s.heaplock_
  poplock_ : s'.poplock_ = s.poplock_
  popversion_ : s'.popversion_ = s.popversion_
  mem : s'.mem = s.mem
  mem_next : s'.mem_next = s.mem_next
  txn : s'.txn = s.txn

/-- The nodes of `s'` hold the values of the nodes of `s`, rearranged by a
permutation of the indexes `[0, n)`. -/
def Rearranged (n : Int) (s s' : State) : Prop :=
  ∃ σ : Equiv.Perm Int, (∀ i, ¬ (0 ≤ i ∧ i < n) → σ i = i) ∧
    ∀ i, (s'.heap_ i).val = (s.heap_ (σ i)).val

/-- Every node of `[0, n)` is `AVAILABLE`. -/
def Settled (s : State) (n : Int) : Prop :=
  ∀ i : Int, 0 ≤ i → i < n → (s.heap_ i).status = .AVAILABLE

/-- The lock word of every node of `[0, n)` other than `k` is free. -/
def FreeExcept (T : TransactionTid) (s : State) (n k : Int) : Prop :=
  ∀ i : Int, 0 ≤ i → i < n → i ≠ k → is_locked T (s.heap_ i).ver = false

/-- The lock word of every node of `[0, n)` is free. -/
def NodesFree (T : TransactionTid) (s : State) (n : Int) : Prop :=
  ∀ i : Int, 0 ≤ i → i < n → is_locked T (s.heap_ i).ver = false

/-- What `removeMax()` leaves behind when called on a state `s` with `n` live
nodes: one node less, the other fields untouched (the heap lock free again),
the prefix settled, unlocked and ordered except possibly at its last index,
holding the payloads of `s` without the old root's, each node value being one
that `s` held below the root. -/
structure RemoveMaxPost (T : TransactionTid) (n : Int) (s s' : State) : Prop where
  size_ : s'.size_ = n - 1
  heap_size : s'.heap_size = s.heap_size
  heaplock_ : is_locked T s'.heaplock_ = false
  poplock_ : s'.poplock_ = s.poplock_
  popversion_ : s'.popversion_ = s.popversion_
  mem : s'.mem = s.mem
  mem_next : s'.mem_next = s.mem_next
  txn : s'.txn = s.txn
  settled : Settled s' (n - 1)
  free : NodesFree T s' (n - 1)
  almost : AlmostHeap (pay s') (n - 1)
  perm : (livePayloads s' ++ [pay s 0]).Perm (livePayloads s)
  from_below : ∀ i, 0 ≤ i → i < n - 1 → ∃ j, 1 ≤ j ∧ j < n ∧ (s'.heap_ i).val = (s.heap_ j).val

/-- What the sift-up loop of `add` leaves behind when started at a node that
holds the payload `v`: the other fields untouched, the values rearranged, all
locks free, the root holding at least `v`; either `add` returned from inside
the loop with every node settled, or the loop ended at the root, still owned,
with every other node settled. -/
structure AddLoopPost (T : TransactionTid) (me : Int) (n : Int) (v : Int) (s : State)
    (r : State × Option Int) : Prop where
  frame : Frame s r.1
  rearranged : Rearranged n s r.1
  free : NodesFree T r.1 n
  root_ge : v ≤ pay r.1 0
  returned : r.2 = none → Settled r.1 n
  at_root : ∀ c, r.2 = some c → c = 0 ∧ amOwner me (r.1.heap_ 0) = true ∧
    ∀ i : Int, 0 < i → i < n → (r.1.heap_ i).status = .AVAILABLE

/-- What `add(v)` leaves behind when called on a state `s` with `m` live
nodes: one node more, the other fields untouched (the heap lock free again),
every node settled and unlocked, the payloads of `s` plus the payload of `v`,
and a root that holds at least the payload of `v`. -/
structure AddPost (T : TransactionTid) (m : Int) (v : Nat) (s s' : State) : Prop where
  size_ : s'.size_ = m + 1
  heap_size : m + 1 ≤ s'.heap_size
  heaplock_ : is_locked T s'.heaplock_ = false
  poplock_ : s'.poplock_ = s.poplock_
  popversion_ : s'.popversion_ = s.popversion_
  mem : s'.mem = s.mem
  mem_next : s'.mem_next = s.mem_next
  txn : s'.txn = s.txn
  settled : Settled s' (m + 1)
  free : NodesFree T s' (m + 1)
  perm : (livePayloads s').Perm (livePayloads s ++ [read_value s v])
  root_ge : read_value s v ≤ pay s' 0

/-- A quiescent queue of committed values: the live prefix lies inside the
vector, every live node is settled and unlocked, the two global locks are free,
the payloads are in max-heap order, and the live nodes point to distinct
allocated values whose version words are unlocked and marked neither inserted
nor deleted nor dirty. -/
structure Committed (T : TransactionTid) (s : State) : Prop where
  size_nonneg : 0 ≤ s.size_
  size_le : s.size_ ≤ s.heap_size
  settled : Settled s s.size_
  free : NodesFree T s s.size_
  heaplock_free : is_locked T s.heaplock_ = false
  poplock_free : is_locked T s.poplock_ = false
  ordered : HeapOrdered (pay s) s.size_
  allocated : ∀ i : Int, 0 ≤ i → i < s.size_ → (s.heap_ i).val < s.mem_next
  distinct : ∀ i j : Int, 0 ≤ i → i < s.size_ → 0 ≤ j → j < s.size_ →
    (s.heap_ i).val = (s.heap_ j).val → i = j
  val_unlocked : ∀ i : Int, 0 ≤ i → i < s.size_ →
    is_locked T (version s (s.heap_ i).val) = false
  not_inserted : ∀ i : Int, 0 ≤ i → i < s.size_ →
    is_inserted T (version s (s.heap_ i).val) = false
  not_deleted : ∀ i : Int, 0 ≤ i → i < s.size_ →
    is_deleted T (version s (s.heap_ i).val) = false
  not_dirty : ∀ i : Int, 0 ≤ i → i < s.size_ →
    is_dirty T (version s (s.heap_ i).val) = false

/-- The item `pop` records for the new head `nh`. -/
def dirtyItem (nh : Nat) : TransItem :=
  { key := (nh : Int), flags := 0 ||| dirty_tag, rdata := none, wdata := some .zero }

/-- The item `pop` records for the popped value `val`, read at version `ver`,
with the new head `new_head`. -/
def deleteItem (val : Nat) (ver : Nat) (new_head : Option Nat) : TransItem :=
  { key := (val : Int), flags := 0 ||| delete_tag, rdata := some ver,
    wdata := some (.ptr new_head) }

/-- The item `pop` records for the pop sequence. -/
def popItem : TransItem :=
  { key := pop_key, flags := 0, rdata := none, wdata := some .zero }

/-- The items a transaction with no earlier items holds after a `pop()` that
removed `val`, read at version `ver`, and found the new head `new_head`. -/
def popItems (val : Nat) (ver : Nat) (new_head : Option Nat) : List TransItem :=
  (match new_head with
    | some nh => [dirtyItem nh]
    | none => []) ++ [deleteItem val ver new_head, popItem]

/-- What `pop()` leaves behind when a transaction without items calls it on a
committed queue `s` of `n ≥ 1` live nodes and finds the new head `new_head`:
the old root is out of the live prefix, the prefix is settled, unlocked and
ordered except possibly at its last index, all locks are free, no payload has
changed, the only version word changed is the new head's, now marked dirty,
and the transaction holds the items of the pop. -/
structure PopPost (T : TransactionTid) (n : Int) (new_head : Option Nat) (s s1 : State) :
    Prop where
  size_ : s1.size_ = n - 1
  heap_size : s1.heap_size = s.heap_size
  heaplock_ : is_locked T s1.heaplock_ = false
  poplock_ : is_locked T s1.poplock_ = false
  popversion_ : s1.popversion_ = s.popversion_
  mem_next : s1.mem_next = s.mem_next
  settled : Settled s1 (n - 1)
  free : NodesFree T s1 (n - 1)
  almost : AlmostHeap (pay s1) (n - 1)
  perm : (livePayloads s1 ++ [pay s 0]).Perm (livePayloads s)
  from_below : ∀ i, 0 ≤ i → i < n - 1 → ∃ j, 1 ≤ j ∧ j < n ∧ (s1.heap_ i).val = (s.heap_ j).val
  value : ∀ q, (s1.mem q).value = (s.mem q).value
  version_other : ∀ q, new_head ≠ some q → version s1 q = version s q
  version_head : ∀ nh, new_head = some nh → version s1 nh = mark_dirty T (version s nh)
  head_from : ∀ nh, new_head = some nh → ∃ j, 1 ≤ j ∧ j < n ∧ nh = (s.heap_ j).val
  txn : s1.txn = popItems (s.heap_ 0).val (version s (s.heap_ 0).val) new_head

/-- What a sift loop leaves behind on the prefix `[0, n)`: the other fields
untouched, every node settled and unlocked, the values rearranged. -/
structure LoopPost (T : TransactionTid) (n : Int) (s s' : State) : Prop where
  frame : Frame s s'
  settled : Settled s' n
  free : NodesFree T s' n
  rearranged : Rearranged n s s'

/-- A queue operation of a transaction body. -/
inductive Op where
  | push (v : Int)
  | pop
deriving DecidableEq, Repr

/-- Runs one operation in the running transaction. -/
def execOp (T : TransactionTid) (me : Int) (s : State) : Op → Res State
  | .push v => push T me s v
  | .pop => pop T s

/-- Runs each operation of the list as a transaction of its own and commits
it; returns the payloads the pops removed, in order, and the final state.  A
transaction whose commit-time checks fail ends the run as an abort. -/
def runCommitted (T : TransactionTid) (me : Int) : List Op → State → Res (List Int × State)
  | [], s => .ok ([], s)
  | op :: ops, s =>
    (execOp T me (setTxn s []) op).bind fun s1 =>
    (commit T me false 0 s1).bind fun r =>
    if r.1 then
      (runCommitted T me ops r.2).bind fun rest =>
      .ok (poppedPayloads s1 ++ rest.1, rest.2)
    else .abort r.2

/-- The queue during a transaction that pushed 7 into the empty queue, under
the sample layout: one settled node pointing at the value at address 0, whose
version word carries the inserted bit, and the transaction's insert-tagged
item for it. -/
def State.inserted : State :=
  { heap_ := fun i =>
      if i = 0 then { val := 0, ver := 0, status := .AVAILABLE, owner := -1 }
      else { val := 0, ver := 0, status := .EMPTY, owner := -1 },
    heap_size := 1, heaplock_ := 0, poplock_ := 1, popversion_ := 0, size_ := 1,
    mem := fun p =>
      if p = 0 then { value := 7, version := 36 }
      else { value := 0, version := 0 },
    mem_next := 1,
    txn := [{ key := 0, flags := 1, rdata := none, wdata := some (.payload 7) }] }

/-- The invariant of the sift-up loop at the index `c`: the order holds on
every edge but the one from `c` to its parent, and the children of `c` hold at
most what the parent of `c` holds. -/
def SiftUpInv (p : Int → Int) (n c : Int) : Prop :=
  (∀ i : Int, 0 < i → i < n → i ≠ c → p i ≤ p ((i - 1) / 2)) ∧
  (0 < c → ∀ d : Int, 0 < d → d < n → (d - 1) / 2 = c → p d ≤ p ((c - 1) / 2))

end PriorityQueue

namespace PriorityQueue

/-- What the sift-up loop of `add` leaves behind, as far as the node statuses
go, when it ends without `Sto::abort()` on a prefix of `n` nodes: size and
vector length as before, all locks free, the statuses past the prefix as they
were; either `add` returned from inside the loop with every node settled, or
the loop ended at the root, still owned, with every other node settled. -/
structure AddLoopStatus (T : TransactionTid) (me : Int) (n : Int) (s : State)
    (r : State × Option Int) : Prop where
  size_ : r.1.size_ = n
  heap_size : r.1.heap_size = s.heap_size
  free : NodesFree T r.1 n
  outside : ∀ i : Int, ¬ (0 ≤ i ∧ i < n) → (r.1.heap_ i).status = (s.heap_ i).status
  returned : r.2 = none → Settled r.1 n
  at_root : ∀ c, r.2 = some c → c = 0 ∧ amOwner me (r.1.heap_ 0) = true ∧
    ∀ i : Int, 0 < i → i < n → (r.1.heap_ i).status = .AVAILABLE

/-- The node statuses of a state `s'` reached from `s` by one heap operation
that leaves `n'` live nodes: every node of the live prefix `[0, n')` is
`AVAILABLE` and unlocked, an `EMPTY` node lies at or past the end of the
prefix, and a node that is `BUSY` was `BUSY` before the operation. -/
structure StatusPost (T : TransactionTid) (n' : Int) (s s' : State) : Prop where
  size_ : s'.size_ = n'
  settled : Settled s' n'
  free : NodesFree T s' n'
  empty_past_end : ∀ i : Int, 0 ≤ i → (s'.heap_ i).status = .EMPTY → n' ≤ i
  no_new_busy : ∀ i : Int, (s'.heap_ i).status = .BUSY → (s.heap_ i).status = .BUSY

end PriorityQueue

/-! ## Part 2. Theorems -/

/-! ### ContentionManager -/

namespace ContentionManager

/-- In every reachable state each slot's `abort_count` is at most
`SUCC_ABORTS_MAX`. -/
theorem abort_count_le_of_reachable (mask : Nat) (s : State) (h : Reachable mask s) :
    ∀ i, s.abort_count i ≤ SUCC_ABORTS_MAX := by
  induction h with
  | init => intro i; simp [State.init, SUCC_ABORTS_MAX]
  | should_abort s tid wlock abo _ ih =>
    intro i
    have := ih i
    unfold ContentionManager.should_abort
    simp only []
    split_ifs <;> simpa using this
  | on_write s tid _ ih =>
    intro i
    have := ih i
    unfold ContentionManager.on_write
    simp only []
    split_ifs <;> simpa using this
  | start s tid restarted _ ih =>
    intro i
    have := ih i
    unfold ContentionManager.start
    cases restarted
    · by_cases hi : i = tid * 4
      · simp [hi]
      · simpa [Function.update_noteq hi] using this
    · simpa using this
  | on_rollback s tid rand_r s' c _ hstep ih =>
    intro i
    have hi := ih i
    have ht := ih (tid * 4)
    unfold ContentionManager.on_rollback at hstep
    simp only [] at hstep
    split_ifs at hstep with hlt hz hz
    · simp only [Option.some.injEq, Prod.mk.injEq] at hstep
      obtain ⟨rfl, -⟩ := hstep
      by_cases hi' : i = tid * 4
      · subst hi'
        simp only [Function.update_same]
        have : s.abort_count (tid * 4) + 1 < U128 := by
          unfold SUCC_ABORTS_MAX at hlt; unfold U128; omega
        rw [Nat.mod_eq_of_lt this]
        exact hlt
      · simpa [Function.update_noteq hi'] using hi
    · simp only [Option.some.injEq, Prod.mk.injEq] at hstep
      obtain ⟨rfl, -⟩ := hstep
      simpa using hi

/-- C3. Priority comparison: for two slots `A` and `B` that both hold an
assigned timestamp (not `MAX_TS`) with `ts(A) < ts(B)` and neither flagged
aborted, `should_abort` called by `B` against a lock owned by `A` returns true
and leaves the state (so `A`'s aborted flag) as it was, and `should_abort`
called by `A` against a lock owned by `B` returns false and sets `B`'s aborted
flag. -/
theorem should_abort_priority_comparison (mask : Nat) (s : State)
    (A B wlockA wlockB : Nat) (abo : Bool)
    (hA : wlockA &&& mask = A) (hB : wlockB &&& mask = B) (hAB : A ≠ B)
    (htsA : s.timestamp (A * 4) ≠ MAX_TS) (htsB : s.timestamp (B * 4) ≠ MAX_TS)
    (hlt : s.timestamp (A * 4) < s.timestamp (B * 4))
    (habA : s.aborted (A * 4) = 0) (habB : s.aborted (B * 4) = 0) :
    (should_abort mask s B wlockA abo).1 = true ∧
    (should_abort mask s B wlockA abo).2.2 = s ∧
    (should_abort mask s B wlockA abo).2.2.aborted (A * 4) = 0 ∧
    (should_abort mask s A wlockB abo).1 = false ∧
    (should_abort mask s A wlockB abo).2.2.aborted (B * 4) = 1 := by
  have hA1 : ¬ s.aborted (A * 4) = 1 := by omega
  have hB1 : ¬ s.aborted (B * 4) = 1 := by omega
  have hnlt : ¬ s.timestamp (B * 4) < s.timestamp (A * 4) := by omega
  have _ := hAB
  refine ⟨?_, ?_, ?_, ?_, ?_⟩ <;>
    simp [should_abort, hA, hB, hA1, hB1, htsA, htsB, hlt, hnlt, habA]

/-- C3 at the timestamps 5 (thread 1) and 9 (thread 2). -/
theorem should_abort_priority_comparison_witness :
    (should_abort 31
      { State.init with
        timestamp := Function.update (Function.update State.init.timestamp 4 5) 8 9 }
      2 1 false).1 = true ∧
    (should_abort 31
      { State.init with
        timestamp := Function.update (Function.update State.init.timestamp 4 5) 8 9 }
      1 2 false).2.2.aborted 8 = 1 :=
  have h := should_abort_priority_comparison 31
    { State.init with
      timestamp := Function.update (Function.update State.init.timestamp 4 5) 8 9 }
    1 2 1 2 false (by decide) (by decide) (by decide)
    (by simp [State.init, MAX_TS, Function.update])
    (by simp [State.init, MAX_TS, Function.update])
    (by simp [State.init, Function.update])
    (by simp [State.init]) (by simp [State.init])
  ⟨h.1, h.2.2.2.2⟩

/-- C4. Timid-phase yielding: when the caller's slot timestamp is `MAX_TS`
(unset), `should_abort` returns true whatever the lock word and the owner's
slot hold, and the state is unchanged, so no slot's aborted flag changes. -/
theorem should_abort_timid_yields (mask : Nat) (s : State) (tid wlock : Nat) (abo : Bool)
    (h : s.timestamp (tid * 4) = MAX_TS) :
    (should_abort mask s tid wlock abo).1 = true ∧
    (should_abort mask s tid wlock abo).2.2 = s ∧
    ∀ i, (should_abort mask s tid wlock abo).2.2.aborted i = s.aborted i := by
  unfold should_abort
  simp only [h]
  split_ifs <;> simp

/-- C4 on a freshly started slot of thread 3 facing a lock of thread 7. -/
theorem should_abort_timid_yields_witness :
    (should_abort 31 (start State.init 3 false) 3 7 false).1 = true :=
  (should_abort_timid_yields 31 (start State.init 3 false) 3 7 false
    (by simp [start, MAX_TS])).1

/-- C8. Backoff bound: in every state reachable from the initial state,
`on_rollback` returns, leaves the slot's `abort_count` equal to
`min (old + 1) 10`, and the number of cycles it waits is strictly below that
new count times 8000, hence at most 80000, for every behaviour of the random
generator. -/
theorem on_rollback_backoff_bound (mask : Nat) (s : State) (h : Reachable mask s)
    (tid : Nat) (rand_r : Nat → Nat × Nat) :
    ∃ s' cycles, on_rollback s tid rand_r = some (s', cycles) ∧
      s'.abort_count (tid * 4) = min (s.abort_count (tid * 4) + 1) 10 ∧
      cycles < s'.abort_count (tid * 4) * 8000 ∧ cycles ≤ 80000 := by
  have hle := abort_count_le_of_reachable mask s h (tid * 4)
  unfold SUCC_ABORTS_MAX at hle
  by_cases hlt : s.abort_count (tid * 4) < 10
  · have hmod : (s.abort_count (tid * 4) + 1) % U128 = s.abort_count (tid * 4) + 1 :=
      Nat.mod_eq_of_lt (by unfold U128; omega)
    have hm2 : ((s.abort_count (tid * 4) + 1) * 8000) % U128
        = (s.abort_count (tid * 4) + 1) * 8000 :=
      Nat.mod_eq_of_lt (by unfold U128; omega)
    have hpos : (s.abort_count (tid * 4) + 1) * 8000 ≠ 0 := by omega
    have hr := Nat.mod_lt (rand_r (s.seed (tid * 4))).1
      (show 0 < (s.abort_count (tid * 4) + 1) * 8000 by omega)
    have hr64 := Nat.mod_le ((rand_r (s.seed (tid * 4))).1 %
      ((s.abort_count (tid * 4) + 1) * 8000)) U64
    have hres : on_rollback s tid rand_r = some
        ({ s with
            abort_count := Function.update s.abort_count (tid * 4)
              (s.abort_count (tid * 4) + 1)
            seed := Function.update s.seed (tid * 4) (rand_r (s.seed (tid * 4))).2 },
          (rand_r (s.seed (tid * 4))).1 % ((s.abort_count (tid * 4) + 1) * 8000) % U64) := by
      unfold on_rollback
      simp only [SUCC_ABORTS_MAX, WAIT_CYCLES_MULTIPLICATOR, hlt, if_true,
        Function.update_same, hmod, hm2, hpos, if_false]
    refine ⟨_, _, hres, ?_, ?_, ?_⟩
    · simp only [Function.update_same]; omega
    · simp only [Function.update_same]; omega
    · omega
  · have h10 : s.abort_count (tid * 4) = 10 := by omega
    have hm2 : (10 * 8000) % U128 = 80000 := by unfold U128; norm_num
    have hr := Nat.mod_lt (rand_r (s.seed (tid * 4))).1 (show 0 < 80000 by omega)
    have hr64 := Nat.mod_le ((rand_r (s.seed (tid * 4))).1 % 80000) U64
    have hres : on_rollback s tid rand_r = some
        ({ s with seed := Function.update s.seed (tid * 4) (rand_r (s.seed (tid * 4))).2 },
          (rand_r (s.seed (tid * 4))).1 % 80000 % U64) := by
      unfold on_rollback
      simp only [SUCC_ABORTS_MAX, WAIT_CYCLES_MULTIPLICATOR, hlt, if_false]
      simp only [h10, hm2]
      simp
    refine ⟨_, _, hres, ?_, ?_, ?_⟩
    · simp only [h10]; rfl
    · simp only [h10]; omega
    · omega

/-- C8 in the initial state, thread 0, a generator returning 123456789. -/
theorem on_rollback_backoff_bound_witness :
    ∃ s' cycles, on_rollback State.init 0 (fun seed => (123456789, seed + 1))
        = some (s', cycles) ∧
      s'.abort_count (0 * 4) = min (State.init.abort_count (0 * 4) + 1) 10 ∧
      cycles < s'.abort_count (0 * 4) * 8000 ∧ cycles ≤ 80000 :=
  on_rollback_backoff_bound 31 State.init Reachable.init 0 (fun seed => (123456789, seed + 1))

/-- C9. Already-aborted short-circuit: when the caller's own slot is flagged
aborted (`aborted == 1`), `should_abort` returns true, sets
`aborted_by_others` to true and leaves the state unchanged, whatever the
timestamps are; in every other case `aborted_by_others` keeps the value the
caller passed. -/
theorem should_abort_already_aborted (mask : Nat) (s : State) (tid wlock : Nat) (abo : Bool) :
    (s.aborted (tid * 4) = 1 → should_abort mask s tid wlock abo = (true, true, s)) ∧
    (s.aborted (tid * 4) ≠ 1 → (should_abort mask s tid wlock abo).2.1 = abo) := by
  constructor
  · intro h
    simp [should_abort, h]
  · intro h
    unfold should_abort
    simp only [h, if_false]
    split_ifs <;> rfl

/-- C9 on thread 2: flagged aborted with an unset timestamp, and not flagged. -/
theorem should_abort_already_aborted_witness :
    should_abort 31
        { start State.init 2 false with aborted := Function.update State.init.aborted 8 1 }
        2 5 false
      = (true, true,
        { start State.init 2 false with aborted := Function.update State.init.aborted 8 1 }) ∧
    (should_abort 31 State.init 2 5 false).2.1 = false :=
  ⟨(should_abort_already_aborted 31
      { start State.init 2 false with aborted := Function.update State.init.aborted 8 1 }
      2 5 false).1 (by simp),
   (should_abort_already_aborted 31 State.init 2 5 false).2 (by simp [State.init])⟩

/-- C10. `on_write` adds exactly one to the caller slot's `write_set_size`; when
the slot's timestamp was `MAX_TS` and the new size is 10 it stores the current
global counter as the timestamp and adds one to the counter; in every other
case the timestamps and the counter are unchanged.  Stated for increments that
do not wrap the 128-bit size and the 64-bit counter. -/
theorem on_write_effect (s : State) (tid : Nat)
    (hw : s.write_set_size (tid * 4) + 1 < U128) (hts : s.ts + 1 < U64) :
    (on_write s tid).write_set_size (tid * 4) = s.write_set_size (tid * 4) + 1 ∧
    ((s.timestamp (tid * 4) = MAX_TS ∧ s.write_set_size (tid * 4) + 1 = 10) →
      (on_write s tid).timestamp (tid * 4) = s.ts ∧ (on_write s tid).ts = s.ts + 1) ∧
    (¬ (s.timestamp (tid * 4) = MAX_TS ∧ s.write_set_size (tid * 4) + 1 = 10) →
      (on_write s tid).timestamp = s.timestamp ∧ (on_write s tid).ts = s.ts) := by
  have h1 := Nat.mod_eq_of_lt hw
  have h2 := Nat.mod_eq_of_lt hts
  refine ⟨?_, ?_, ?_⟩
  · unfold on_write
    simp only [Function.update_same, h1]
    split_ifs <;> simp
  · intro hc
    have hif : (s.timestamp (tid * 4) = MAX_TS ∧
        s.write_set_size (tid * 4) + 1 = TS_THRESHOLD) := hc
    unfold on_write
    simp only [Function.update_same, h1]
    rw [if_pos hif]
    simp [h2]
  · intro hc
    have hif : ¬ (s.timestamp (tid * 4) = MAX_TS ∧
        s.write_set_size (tid * 4) + 1 = TS_THRESHOLD) := hc
    unfold on_write
    simp only [Function.update_same, h1]
    rw [if_neg hif]
    simp

/-- C10 on thread 1: the tenth write of a fresh attempt takes timestamp 0, and
the first write takes none. -/
theorem on_write_effect_witness :
    ((on_write { start State.init 1 false with
        write_set_size := Function.update State.init.write_set_size 4 9 } 1).timestamp (1 * 4)
        = 0 ∧
      (on_write { start State.init 1 false with
        write_set_size := Function.update State.init.write_set_size 4 9 } 1).ts = 0 + 1) ∧
    (on_write (start State.init 1 false) 1).ts = 0 :=
  ⟨(on_write_effect { start State.init 1 false with
        write_set_size := Function.update State.init.write_set_size 4 9 } 1
      (by simp [State.init, U128]) (by simp [start, State.init, U64])).2.1
      (by simp [start, State.init]),
   ((on_write_effect (start State.init 1 false) 1
      (by simp [start, U128]) (by simp [start, State.init, U64])).2.2
      (by simp [start])).2⟩

/-- In a reachable state `on_rollback` has a defined result: the modulus
`abort_count * 8000` is not zero. -/
theorem on_rollback_isSome_of_reachable (mask : Nat) (s : State) (h : Reachable mask s)
    (tid : Nat) (rand_r : Nat → Nat × Nat) :
    ∃ r, on_rollback s tid rand_r = some r := by
  have hle := abort_count_le_of_reachable mask s h (tid * 4)
  unfold SUCC_ABORTS_MAX at hle
  unfold on_rollback
  simp only [SUCC_ABORTS_MAX, WAIT_CYCLES_MULTIPLICATOR]
  by_cases hlt : s.abort_count (tid * 4) < 10
  · have hmod : (s.abort_count (tid * 4) + 1) % U128 = s.abort_count (tid * 4) + 1 :=
      Nat.mod_eq_of_lt (by unfold U128; omega)
    have hm2 : ((s.abort_count (tid * 4) + 1) * 8000) % U128 ≠ 0 := by
      rw [Nat.mod_eq_of_lt (by unfold U128; omega)]; omega
    simp only [hlt, if_true, Function.update_same, hmod, hm2, if_false]
    exact ⟨_, rfl⟩
  · have h10 : s.abort_count (tid * 4) = 10 := by omega
    have hm2 : (10 * 8000) % U128 ≠ 0 := by unfold U128; norm_num
    simp only [hlt, if_false]
    simp only [h10, hm2, if_false]
    exact ⟨_, rfl⟩

/-- A call made in a reachable state returns and leaves a reachable state. -/
theorem exec_reachable (mask : Nat) (s : State) (h : Reachable mask s) (c : Call) :
    ∃ s', c.exec mask s = some s' ∧ Reachable mask s' := by
  cases c with
  | should_abort tid wlock abo => exact ⟨_, rfl, Reachable.should_abort s tid wlock abo h⟩
  | on_write tid => exact ⟨_, rfl, Reachable.on_write s tid h⟩
  | start tid r => exact ⟨_, rfl, Reachable.start s tid r h⟩
  | on_rollback tid rand_r =>
    obtain ⟨r, hr⟩ := on_rollback_isSome_of_reachable mask s h tid rand_r
    refine ⟨r.1, by simp [Call.exec, hr], Reachable.on_rollback s tid rand_r r.1 r.2 h hr⟩

/-- A call other than the fresh start of thread `t` leaves an assigned
timestamp of thread `t` as it is. -/
theorem exec_timestamp (mask : Nat) (s s' : State) (t : Nat) (c : Call)
    (hts : s.timestamp (t * 4) ≠ MAX_TS) (hc : c.isFreshStartOf t = false)
    (h : c.exec mask s = some s') : s'.timestamp (t * 4) = s.timestamp (t * 4) := by
  cases c with
  | should_abort tid wlock abo =>
    simp only [Call.exec, Option.some.injEq] at h
    subst h
    unfold ContentionManager.should_abort
    simp only []
    split_ifs <;> rfl
  | on_write tid =>
    simp only [Call.exec, Option.some.injEq] at h
    subst h
    unfold ContentionManager.on_write
    simp only []
    split_ifs with hif
    · by_cases ht : t = tid
      · subst ht
        exact absurd hif.1 hts
      · have : t * 4 ≠ tid * 4 := by omega
        simp [Function.update_noteq this]
    · rfl
  | start tid r =>
    simp only [Call.exec, Option.some.injEq] at h
    subst h
    unfold ContentionManager.start
    cases r
    · have ht : tid ≠ t := by simpa [Call.isFreshStartOf] using hc
      have : t * 4 ≠ tid * 4 := by omega
      simp [Function.update_noteq this]
    · rfl
  | on_rollback tid rand_r =>
    simp only [Call.exec, Option.map_eq_some'] at h
    obtain ⟨r, hr, rfl⟩ := h
    unfold ContentionManager.on_rollback at hr
    simp only [] at hr
    split_ifs at hr <;> simp only [Option.some.injEq] at hr <;> subst hr <;> rfl

/-- The states `State.afterWrites` are reachable. -/
theorem afterWrites_reachable (mask tid n : Nat) : Reachable mask (State.afterWrites tid n) := by
  unfold State.afterWrites
  induction n with
  | zero => exact Reachable.start _ tid false Reachable.init
  | succ n ih =>
    rw [Function.iterate_succ_apply']
    exact Reachable.on_write _ tid ih

/-- C11. Timestamp assigned once: from a reachable state in which the slot of
thread `t` holds an assigned timestamp (not `MAX_TS`), every sequence of calls
of `should_abort`, `on_write`, `on_rollback` and `start` by any threads that
contains no `start` of a fresh attempt by `t` returns and leaves that
timestamp as it was; `start` of a fresh attempt by `t` then sets it to
`MAX_TS`. -/
theorem timestamp_assigned_once (mask : Nat) (s : State) (h : Reachable mask s) (t : Nat)
    (hts : s.timestamp (t * 4) ≠ MAX_TS) (calls : List Call)
    (hc : ∀ c ∈ calls, c.isFreshStartOf t = false) :
    ∃ s', run mask calls s = some s' ∧ s'.timestamp (t * 4) = s.timestamp (t * 4) ∧
      (start s' t false).timestamp (t * 4) = MAX_TS := by
  induction calls generalizing s with
  | nil => exact ⟨s, rfl, rfl, by simp [start]⟩
  | cons c cs ih =>
    obtain ⟨s1, h1, hr1⟩ := exec_reachable mask s h c
    have ht1 := exec_timestamp mask s s1 t c hts (hc c (List.mem_cons_self _ _)) h1
    obtain ⟨s', hrun, hts', hst⟩ := ih s1 hr1 (by rw [ht1]; exact hts)
      (fun c' hc' => hc c' (List.mem_cons_of_mem _ hc'))
    exact ⟨s', by simp [run, h1, hrun], by rw [hts', ht1], hst⟩

/-- C11 on thread 1, whose tenth write of a fresh attempt took the timestamp
0: further writes, a rollback, a restart, contention calls by it and by thread
2 and a fresh start of thread 2 leave the timestamp at 0. -/
theorem timestamp_assigned_once_witness :
    (State.afterWrites 1 10).timestamp (1 * 4) = 0 ∧
    ∃ s', run 31
        [.on_write 1, .on_rollback 1 (fun seed => (7, seed)), .start 1 true,
          .should_abort 2 1 false, .should_abort 1 2 false, .start 2 false, .on_write 1]
        (State.afterWrites 1 10) = some s' ∧
      s'.timestamp (1 * 4) = (State.afterWrites 1 10).timestamp (1 * 4) ∧
      (start s' 1 false).timestamp (1 * 4) = MAX_TS :=
  ⟨by decide,
    timestamp_assigned_once 31 (State.afterWrites 1 10) (afterWrites_reachable 31 1 10) 1
      (by decide) _ (by simp [Call.isFreshStartOf])⟩

/-- C12. The function `start` clears the caller slot's aborted flag and sets its
`write_set_size` to 0; for a fresh attempt it also sets the slot's
`abort_count` to 0 and its timestamp to `MAX_TS`; for a restart it leaves all
abort counts and timestamps as they were; the entries of every other slot, the
global counter, the versions and the seeds are unchanged. -/
theorem start_effect (s : State) (tid : Nat) (is_restarted : Bool) :
    (start s tid is_restarted).aborted (tid * 4) = 0 ∧
    (start s tid is_restarted).write_set_size (tid * 4) = 0 ∧
    (is_restarted = false →
      (start s tid is_restarted).abort_count (tid * 4) = 0 ∧
      (start s tid is_restarted).timestamp (tid * 4) = MAX_TS) ∧
    (is_restarted = true →
      (start s tid is_restarted).abort_count = s.abort_count ∧
      (start s tid is_restarted).timestamp = s.timestamp) ∧
    (∀ i, i ≠ tid * 4 →
      (start s tid is_restarted).aborted i = s.aborted i ∧
      (start s tid is_restarted).write_set_size i = s.write_set_size i ∧
      (start s tid is_restarted).abort_count i = s.abort_count i ∧
      (start s tid is_restarted).timestamp i = s.timestamp i) ∧
    (start s tid is_restarted).ts = s.ts ∧
    (start s tid is_restarted).version = s.version ∧
    (start s tid is_restarted).seed = s.seed := by
  cases is_restarted <;>
    simp +contextual [start, Function.update_noteq]

/-- C12 on thread 1 after its tenth write took the timestamp 0: a restart
keeps the timestamp, a fresh start sets it to `MAX_TS`, and both clear the
write-set size. -/
theorem start_effect_witness :
    (start (State.afterWrites 1 10) 1 true).timestamp (1 * 4) = 0 ∧
    (start (State.afterWrites 1 10) 1 false).timestamp (1 * 4) = MAX_TS ∧
    (start (State.afterWrites 1 10) 1 true).write_set_size (1 * 4) = 0 :=
  ⟨by rw [((start_effect (State.afterWrites 1 10) 1 true).2.2.2.1 rfl).2]; decide,
   ((start_effect (State.afterWrites 1 10) 1 false).2.2.1 rfl).2,
   (start_effect (State.afterWrites 1 10) 1 true).2.1⟩

end ContentionManager

/-! ### FCQueue -/

namespace FCQueue

/-- Pushing onto a push item that already holds a list appends to the list. -/
theorem push_listItem (l : List Int) (v : Int) :
    (push [listItem l] v).2 = [listItem (l ++ [v])] := by
  simp [push, listItem, Sto.item, Sto.find, Sto.store, Sto.TransItem.has_write, is_list,
    list_bit, Sto.user0_bit, write_list, Sto.TransItem.add_write]

/-- Further pushes keep appending to the list of the push item. -/
theorem pushAll_listItem (l vs : List Int) :
    pushAll [listItem l] vs = [listItem (l ++ vs)] := by
  induction vs generalizing l with
  | nil => simp [pushAll]
  | cons v vs ih =>
    rw [pushAll, push_listItem, ih]
    simp

/-- The first push of a transaction records the single value. -/
theorem push_nil (v : Int) : (push [] v).2 = [valueItem v] := by
  simp [push, valueItem, Sto.item, Sto.find, Sto.store, Sto.TransItem.has_write,
    Sto.TransItem.add_write]

/-- The second push turns the single value into a list of two. -/
theorem push_valueItem (v w : Int) : (push [valueItem v] w).2 = [listItem [v, w]] := by
  simp [push, valueItem, listItem, Sto.item, Sto.find, Sto.store, Sto.TransItem.has_write,
    is_list, is_empty, list_bit, empty_bit, Sto.user0_bit, write_value,
    Sto.TransItem.add_write, Sto.TransItem.clear_write, Sto.TransItem.add_flags,
    Sto.TransItem.clear_flags]

/-- The install loop appends the values of the list, in order. -/
theorem installList_q (cfg : Config) (l : List Int) (q : Queue) :
    (installList cfg l q).q_ = q.q_ ++ l.map pushed := by
  induction l generalizing q with
  | nil => simp [installList]
  | cons v vs ih =>
    rw [installList, ih]
    simp [combine, fc_apply, pushed]

/-- `lock` leaves the shared container alone. -/
theorem lock_q (cfg : Config) (q : Queue) (it : TransItem) : (lock cfg q it).2.q_ = q.q_ := by
  unfold lock
  split_ifs <;> rfl

/-- `unlock` leaves the shared container alone. -/
theorem unlock_q (q : Queue) : (unlock q).q_ = q.q_ := by
  unfold unlock
  split_ifs <;> rfl

/-- As built, `cleanup` leaves the shared container alone. -/
theorem cleanup_q (tid : Int) (q : Queue) (committed : Bool) :
    (cleanup Config.asBuilt tid q committed).q_ = q.q_ := by
  simp only [cleanup, Config.asBuilt, Bool.or_self, Bool.false_eq_true, if_false]
  split_ifs <;> rfl

/-- As built, installing a list item appends its values. -/
theorem install_listItem_q (tid : Int) (ct : Nat) (q : Queue) (l : List Int) :
    (install Config.asBuilt tid ct q (listItem l)).1.q_ = q.q_ ++ l.map pushed := by
  have hk : (listItem l).key = -1 := rfl
  have hl : is_list (listItem l) = true := by
    simp [is_list, listItem, list_bit, Sto.user0_bit]
  have hw : write_list (listItem l) = l := rfl
  simp only [install, Config.asBuilt, Bool.or_self, Bool.false_and, Bool.false_eq_true,
    if_false, hk, if_true, hl, hw]
  split_ifs <;> simp [installList_q]

/-- As built, installing a single-value item appends the value. -/
theorem install_valueItem_q (tid : Int) (ct : Nat) (q : Queue) (v : Int) :
    (install Config.asBuilt tid ct q (valueItem v)).1.q_ = q.q_ ++ [pushed v] := by
  have hk : (valueItem v).key = -1 := rfl
  have hl : is_list (valueItem v) = false := by
    simp [is_list, valueItem, list_bit, Sto.user0_bit]
  have he : is_empty (valueItem v) = false := by
    simp [is_empty, valueItem, empty_bit, Sto.user0_bit]
  have hw : write_value (valueItem v) = v := rfl
  simp only [install, Config.asBuilt, Bool.or_self, Bool.false_and, Bool.false_eq_true,
    if_false, hk, if_true, hl, he, hw, Bool.not_false]
  split_ifs <;> simp [combine, fc_apply, pushed]

/-- Committing a transaction that only pushed `vs` appends `vs`, in order, to
the shared container. -/
theorem commit_pushAll_q (tid : Int) (ct : Nat) (q : Queue) (vs : List Int) :
    (commit Config.asBuilt tid ct q (pushAll [] vs)).2.q_ = q.q_ ++ vs.map pushed := by
  cases vs with
  | nil => simp [pushAll, commit]
  | cons v vs =>
    cases vs with
    | nil =>
      rw [pushAll, push_nil, pushAll]
      have hw : (valueItem v).has_write = true := rfl
      have hr : (valueItem v).has_read = false := rfl
      simp [commit, hw, hr, cleanup_q, unlock_q, install_valueItem_q, lock_q]
    | cons w ws =>
      rw [pushAll, push_nil, pushAll, push_valueItem, pushAll_listItem]
      have hw : ∀ l, (listItem l).has_write = true := fun _ => rfl
      have hr : ∀ l, (listItem l).has_read = false := fun _ => rfl
      simp [commit, hw, hr, cleanup_q, unlock_q, install_listItem_q, lock_q]

/-- Committed pushing transactions append all their values, in push order. -/
theorem commitPushes_q (tid : Int) (txns : List (Nat × List Int)) (q : Queue) :
    (commitPushes Config.asBuilt tid q txns).q_ = q.q_ ++ (allValues txns).map pushed := by
  induction txns generalizing q with
  | nil => simp [commitPushes, allValues]
  | cons t ts ih =>
    have := ih (commit Config.asBuilt tid t.1 q (pushAll [] t.2)).2
    simp only [commitPushes, List.foldl] at this ⊢
    rw [this, commit_pushAll_q]
    simp [allValues]

/-- As built, a pop that finds the shared container non-empty takes its front
element. -/
theorem pop_front (tid : Int) (q : Queue) (front : val_wrapper) (rest : List val_wrapper)
    (txn : List TransItem) (val : Int) (h : q.q_ = front :: rest) :
    (pop Config.asBuilt tid q txn val).1 = true ∧
    (pop Config.asBuilt tid q txn val).2.1 = front.val ∧
    (pop Config.asBuilt tid q txn val).2.2.1 = { q with q_ := rest } := by
  simp [pop, combine, fc_apply, Config.asBuilt, h]

/-- As built, as many pops as the container has elements return them in
order, each succeeding. -/
theorem popN_values (tid : Int) (l : List Int) (q : Queue) (txn : List TransItem) (val : Int)
    (h : q.q_ = l.map pushed) :
    (popN Config.asBuilt tid l.length q txn val).1 = l.map (fun v => (true, v)) := by
  induction l generalizing q txn val with
  | nil => simp [popN]
  | cons v vs ih =>
    have hp := pop_front tid q (pushed v) (vs.map pushed) txn val (by simpa using h)
    simp only [List.length_cons, popN, List.map_cons, List.cons.injEq, Prod.mk.injEq]
    refine ⟨⟨hp.1, by simpa [pushed] using hp.2.1⟩, ?_⟩
    apply ih
    rw [hp.2.2]

/-- C2. FIFO order: when transactions that only push commit one after the
other on a queue whose shared container is empty, as many subsequent pops as
values were pushed all return true and yield exactly the pushed values, in the
order they were pushed. -/
theorem fifo_order (q : Queue) (hq : q.q_ = []) (tid tid' : Int)
    (txns : List (Nat × List Int)) (txn : List TransItem) (val : Int) :
    (popN Config.asBuilt tid' (allValues txns).length
        (commitPushes Config.asBuilt tid q txns) txn val).1
      = (allValues txns).map (fun v => (true, v)) := by
  apply popN_values
  rw [commitPushes_q, hq]
  simp

/-- C2 on the pushes `a = 10`, `b = 20` (one transaction) and `c = 30`
(another): three pops yield 10, 20, 30. -/
theorem fifo_order_witness :
    (popN Config.asBuilt 2 3
        (commitPushes Config.asBuilt 1 Queue.init [(1, [10, 20]), (2, [30])]) [] 0).1
      = [(true, 10), (true, 20), (true, 30)] :=
  fifo_order Queue.init rfl 1 2 [(1, [10, 20]), (2, [30])] [] 0

/-- C6, counterexample: as built, after a pop from the one-element queue `[7]`
and `cleanup` with `committed = false`, the shared container is empty, not
`[7]`. -/
theorem fifo_undo_counterexample :
    (pop Config.asBuilt 1 { Queue.init with q_ := [pushed 7] } [] 0).1 = true ∧
    (cleanup Config.asBuilt 1
        (pop Config.asBuilt 1 { Queue.init with q_ := [pushed 7] } [] 0).2.2.1 false).q_
      ≠ [pushed 7] := by
  decide

/-- C6, amended. As built (`ITER`, `INSTALL`, `CLEANUP` all 0), a pop from a
non-empty shared container returns true with the front value and removes the
front element at once, and `cleanup` with `committed = false` does not put it
back: afterwards the container holds the elements behind the former front, in
their order. -/
theorem fifo_pop_abort_as_built (q : Queue) (front : val_wrapper) (rest : List val_wrapper)
    (tid : Int) (txn : List TransItem) (val : Int) :
    (pop Config.asBuilt tid { q with q_ := front :: rest } txn val).1 = true ∧
    (pop Config.asBuilt tid { q with q_ := front :: rest } txn val).2.1 = front.val ∧
    (cleanup Config.asBuilt tid
        (pop Config.asBuilt tid { q with q_ := front :: rest } txn val).2.2.1 false).q_
      = rest := by
  have hp := pop_front tid { q with q_ := front :: rest } front rest txn val rfl
  refine ⟨hp.1, hp.2.1, ?_⟩
  rw [hp.2.2]
  simp only [cleanup, Config.asBuilt]
  split_ifs <;> simp_all

end FCQueue

/-! ### PriorityQueue: heap order and rearrangement -/

namespace PriorityQueue

/-- Swapping the larger child `c` above `k` moves the sift-down invariant from
`k` to `c`. -/
theorem siftInv_swap (p p' : Int → Int) (n k c : Int) (hk : 0 ≤ k)
    (hc : c = k * 2 + 1 ∨ c = k * 2 + 2) (hn : k * 2 + 2 < n)
    (hp' : ∀ i, p' i = p (Equiv.swap k c i)) (hgt : p k < p c)
    (hmax : ∀ d, d = k * 2 + 1 ∨ d = k * 2 + 2 → p d ≤ p c)
    (hinv : SiftInv p n k) : SiftInv p' n c := by
  have hck : c ≠ k := by omega
  have hpk : p' k = p c := by rw [hp', Equiv.swap_apply_left]
  have hpc : p' c = p k := by rw [hp', Equiv.swap_apply_right]
  have hpo : ∀ i, i ≠ k → i ≠ c → p' i = p i := by
    intro i h1 h2
    rw [hp', Equiv.swap_apply_of_ne_of_ne h1 h2]
  have hpar : (c - 1) / 2 = k := by omega
  constructor
  · intro i hi0 hin hne
    by_cases hik : (i - 1) / 2 = k
    · rw [hik, hpk]
      by_cases hic : i = c
      · rw [hic, hpc]; exact le_of_lt hgt
      · have : i ≠ k := by omega
        rw [hpo i this hic]
        exact hmax i (by omega)
    · have hic : i ≠ c := by
        intro h; rw [h] at hik; exact hik hpar
      have hg1 : (i - 1) / 2 ≠ k := hik
      rw [hpo _ hg1 hne]
      by_cases hik' : i = k
      · rw [hik', hpk]
        have hk0 : 0 < k := by omega
        exact hinv.2 hk0 c (by omega) (by omega) hpar
      · rw [hpo i hik' hic]
        exact hinv.1 i hi0 hin hik
  · intro hc0 x hx0 hxn hxc
    rw [hpar, hpk]
    have h1 : x ≠ k := by omega
    have h2 : x ≠ c := by omega
    rw [hpo x h1 h2]
    have := hinv.1 x hx0 hxn (by omega)
    rw [hxc] at this
    exact this

/-- When the loop condition fails at `k`, only the edge to the last index can
be out of order. -/
theorem almostHeap_of_siftInv_exit (p : Int → Int) (n k : Int)
    (hexit : ¬ 2 * k < n - 2) (hinv : SiftInv p n k) : AlmostHeap p n := by
  intro i hi0 hin
  apply hinv.1 i hi0 (by omega)
  omega

/-- When both children of `k` hold at most what `k` holds, the whole prefix is
ordered. -/
theorem heapOrdered_of_siftInv_break (p : Int → Int) (n k : Int)
    (hl : p (k * 2 + 1) ≤ p k) (hr : p (k * 2 + 2) ≤ p k)
    (hinv : SiftInv p n k) : HeapOrdered p n := by
  intro i hi0 hin
  by_cases hik : (i - 1) / 2 = k
  · rw [hik]
    have : i = k * 2 + 1 ∨ i = k * 2 + 2 := by omega
    rcases this with h | h <;> rw [h] <;> assumption
  · exact hinv.1 i hi0 hin hik

/-- An ordered prefix is almost ordered. -/
theorem AlmostHeap.of_heapOrdered (p : Int → Int) (n : Int) (h : HeapOrdered p n) :
    AlmostHeap p n := fun i hi0 hin => h i hi0 (by omega)

/-- The root holds at least what any index holds whose path to the root is
ordered. -/
theorem root_ge_of_almostHeap (p : Int → Int) (c : Int) (h : AlmostHeap p c) :
    ∀ (m : Nat) (j : Int), j.toNat ≤ m → 0 ≤ j → (j = 0 ∨ j + 1 < c) → p j ≤ p 0 := by
  intro m
  induction m with
  | zero =>
    intro j hm hj0 _
    have : j = 0 := by omega
    rw [this]
  | succ m ih =>
    intro j hm hj0 hj
    by_cases hz : j = 0
    · rw [hz]
    · have hc : j + 1 < c := by omega
      have h1 := h j (by omega) hc
      have h2 := ih ((j - 1) / 2) (by omega) (by omega) (by omega)
      exact le_trans h1 h2

/-- In an ordered prefix the root holds the maximum. -/
theorem root_ge_of_heapOrdered (p : Int → Int) (n : Int) (h : HeapOrdered p n)
    (j : Int) (hj0 : 0 ≤ j) (hjn : j < n) : p j ≤ p 0 := by
  have hA : AlmostHeap p (j + 2) := fun i hi0 hin => h i hi0 (by omega)
  exact root_ge_of_almostHeap p (j + 2) hA j.toNat j le_rfl hj0 (by omega)

/-- A permutation that fixes everything outside `[0, n)` maps `[0, n)` to
itself. -/
theorem perm_maps_range (σ : Equiv.Perm Int) (n : Int)
    (hσ : ∀ i, ¬ (0 ≤ i ∧ i < n) → σ i = i) (i : Int) (hi : 0 ≤ i ∧ i < n) :
    0 ≤ σ i ∧ σ i < n := by
  by_contra hcon
  have h1 := hσ (σ i) hcon
  have h2 : σ i = i := σ.injective h1
  rw [h2] at hcon
  exact hcon hi

/-- Reading a function on `[0, n)` through a permutation of `[0, n)` gives a
permutation of the list of its values. -/
theorem perm_map_range {α : Type} (σ : Equiv.Perm Int) (n : Int)
    (hσ : ∀ i, ¬ (0 ≤ i ∧ i < n) → σ i = i) (f : Int → α) :
    ((List.range n.toNat).map (fun i : Nat => f (σ (i : Int)))).Perm
      ((List.range n.toNat).map (fun i : Nat => f (i : Int))) := by
  have hmem : ∀ i : Nat, i ∈ List.range n.toNat → (0 ≤ σ (i : Int) ∧ σ (i : Int) < n) := by
    intro i hi
    rw [List.mem_range] at hi
    exact perm_maps_range σ n hσ i (by omega)
  have hperm : ((List.range n.toNat).map (fun i : Nat => (σ (i : Int)).toNat)).Perm
      (List.range n.toNat) := by
    apply List.Subperm.perm_of_length_le
    · apply List.subperm_of_subset
      · apply List.Nodup.map_on _ (List.nodup_range _)
        intro a ha b hb hab
        have h1 := hmem a ha
        have h2 := hmem b hb
        have : σ (a : Int) = σ (b : Int) := by omega
        have := σ.injective this
        omega
      · intro x hx
        rw [List.mem_map] at hx
        obtain ⟨a, ha, rfl⟩ := hx
        have h1 := hmem a ha
        rw [List.mem_range]
        omega
    · simp
  have heq : (List.range n.toNat).map (fun i : Nat => f (σ (i : Int)))
      = ((List.range n.toNat).map (fun i : Nat => (σ (i : Int)).toNat)).map
          (fun j : Nat => f (j : Int)) := by
    rw [List.map_map]
    apply List.map_congr_left
    intro a ha
    have h1 := hmem a ha
    simp only [Function.comp]
    congr 1
    omega
  rw [heq]
  exact hperm.map _

end PriorityQueue

/-! ### PriorityQueue: the node primitives -/

namespace PriorityQueue

/-- A normal return passes its value to the continuation. -/
@[simp]
theorem Res.ok_bind {α β : Type} (a : α) (f : α → Res β) : (Res.ok a).bind f = f a := rfl

/-- The same for the bind of the do-blocks. -/
@[simp]
theorem Res.ok_bind_do {α β : Type} (a : α) (f : α → Res β) : (Res.ok a >>= f) = f a := rfl

/-- Clearing the bits of `l` leaves none of them set. -/
theorem xor_and_self_and (v l : Nat) : (v ^^^ (v &&& l)) &&& l = 0 := by
  apply Nat.eq_of_testBit_eq
  intro i
  simp only [Nat.testBit_and, Nat.testBit_xor, Nat.zero_testBit]
  cases v.testBit i <;> cases l.testBit i <;> rfl

/-- A bit set by `|||` is set. -/
theorem or_and_self (v l : Nat) : (v ||| l) &&& l = l := by
  apply Nat.eq_of_testBit_eq
  intro i
  simp only [Nat.testBit_and, Nat.testBit_or]
  cases v.testBit i <;> cases l.testBit i <;> rfl

/-- Setting the bits of `d` does not touch the bits of `l` when the two are
disjoint. -/
theorem or_and_of_disjoint (v d l : Nat) (hv : v &&& l = 0) (hd : d &&& l = 0) :
    (v ||| d) &&& l = 0 := by
  apply Nat.eq_of_testBit_eq
  intro i
  have h1 := congrArg (fun x => x.testBit i) hv
  have h2 := congrArg (fun x => x.testBit i) hd
  simp only [Nat.testBit_and, Nat.zero_testBit] at h1 h2
  simp only [Nat.testBit_and, Nat.testBit_or, Nat.zero_testBit]
  cases hvi : v.testBit i <;> cases hli : l.testBit i <;> cases hdi : d.testBit i <;>
    simp_all

/-- An unlocked word is not locked. -/
theorem is_locked_unlockWord (T : TransactionTid) (v : Nat) :
    is_locked T (unlockWord T v) = false := by
  simp [is_locked, unlockWord, xor_and_self_and]

/-- The zero word is not locked. -/
theorem is_locked_zero (T : TransactionTid) : is_locked T 0 = false := by
  simp [is_locked]

/-- Locking a free word succeeds and sets the lock bit. -/
theorem lockWord_of_free (T : TransactionTid) (v : Nat) (h : is_locked T v = false) :
    lockWord T v = some (v ||| T.lock_bit) := by
  simp [lockWord, h]

/-- Writing a lock word leaves the node values alone. -/
@[simp]
theorem setNodeVer_val (s : State) (i : Int) (v : Nat) (j : Int) :
    ((setNodeVer s i v).heap_ j).val = (s.heap_ j).val := by
  by_cases h : j = i <;> simp [setNodeVer, Function.update_apply, h]

/-- Writing a lock word leaves the node statuses alone. -/
@[simp]
theorem setNodeVer_status (s : State) (i : Int) (v : Nat) (j : Int) :
    ((setNodeVer s i v).heap_ j).status = (s.heap_ j).status := by
  by_cases h : j = i <;> simp [setNodeVer, Function.update_apply, h]

/-- Writing a lock word leaves the node owners alone. -/
@[simp]
theorem setNodeVer_owner (s : State) (i : Int) (v : Nat) (j : Int) :
    ((setNodeVer s i v).heap_ j).owner = (s.heap_ j).owner := by
  by_cases h : j = i <;> simp [setNodeVer, Function.update_apply, h]

/-- The lock words after writing the one at index `i`. -/
theorem setNodeVer_ver (s : State) (i : Int) (v : Nat) (j : Int) :
    ((setNodeVer s i v).heap_ j).ver = if j = i then v else (s.heap_ j).ver := by
  by_cases h : j = i <;> simp [setNodeVer, Function.update_apply, h]

/-- Writing a lock word changes the heap array only. -/
theorem setNodeVer_frame (s : State) (i : Int) (v : Nat) : Frame s (setNodeVer s i v) :=
  ⟨rfl, rfl, rfl, rfl, rfl, rfl, rfl, rfl⟩

/-- Unlocking a node leaves the node values alone. -/
@[simp]
theorem unlockNode_val (T : TransactionTid) (s : State) (i j : Int) :
    ((unlockNode T s i).heap_ j).val = (s.heap_ j).val := by
  simp [unlockNode]

/-- Unlocking a node leaves the node statuses alone. -/
@[simp]
theorem unlockNode_status (T : TransactionTid) (s : State) (i j : Int) :
    ((unlockNode T s i).heap_ j).status = (s.heap_ j).status := by
  simp [unlockNode]

/-- Unlocking a node leaves the node owners alone. -/
@[simp]
theorem unlockNode_owner (T : TransactionTid) (s : State) (i j : Int) :
    ((unlockNode T s i).heap_ j).owner = (s.heap_ j).owner := by
  simp [unlockNode]

/-- The lock words after unlocking the node at index `i`. -/
theorem unlockNode_ver (T : TransactionTid) (s : State) (i j : Int) :
    ((unlockNode T s i).heap_ j).ver
      = if j = i then unlockWord T (s.heap_ i).ver else (s.heap_ j).ver := by
  simp [unlockNode, setNodeVer_ver]

/-- Unlocking a node changes the heap array only. -/
theorem unlockNode_frame (T : TransactionTid) (s : State) (i : Int) :
    Frame s (unlockNode T s i) :=
  ⟨rfl, rfl, rfl, rfl, rfl, rfl, rfl, rfl⟩

/-- The node values after `swap(a, b)`. -/
@[simp]
theorem swap_val (s : State) (a b j : Int) :
    ((swap s a b).heap_ j).val = (s.heap_ (Equiv.swap a b j)).val := by
  by_cases hb : j = b
  · subst hb; simp [swap, Function.update_apply]
  · by_cases ha : j = a
    · subst ha; simp [swap, Function.update_apply, hb]
    · simp [swap, Function.update_apply, ha, hb, Equiv.swap_apply_of_ne_of_ne ha hb]

/-- The node statuses after `swap(a, b)`. -/
@[simp]
theorem swap_status (s : State) (a b j : Int) :
    ((swap s a b).heap_ j).status = (s.heap_ (Equiv.swap a b j)).status := by
  by_cases hb : j = b
  · subst hb; simp [swap, Function.update_apply]
  · by_cases ha : j = a
    · subst ha; simp [swap, Function.update_apply, hb]
    · simp [swap, Function.update_apply, ha, hb, Equiv.swap_apply_of_ne_of_ne ha hb]

/-- The node owners after `swap(a, b)`. -/
@[simp]
theorem swap_owner (s : State) (a b j : Int) :
    ((swap s a b).heap_ j).owner = (s.heap_ (Equiv.swap a b j)).owner := by
  by_cases hb : j = b
  · subst hb; simp [swap, Function.update_apply]
  · by_cases ha : j = a
    · subst ha; simp [swap, Function.update_apply, hb]
    · simp [swap, Function.update_apply, ha, hb, Equiv.swap_apply_of_ne_of_ne ha hb]

/-- The function `swap` leaves the lock words where they are. -/
@[simp]
theorem swap_ver (s : State) (a b j : Int) :
    ((swap s a b).heap_ j).ver = (s.heap_ j).ver := by
  by_cases hb : j = b
  · subst hb
    by_cases hab : j = a <;> simp [swap, Function.update_apply, hab]
  · by_cases ha : j = a
    · subst ha; simp [swap, Function.update_apply, hb]
    · simp [swap, Function.update_apply, ha, hb]

/-- The function `swap` changes the heap array only. -/
theorem swap_frame (s : State) (a b : Int) : Frame s (swap s a b) :=
  ⟨rfl, rfl, rfl, rfl, rfl, rfl, rfl, rfl⟩

/-- Settling a node leaves the node values alone. -/
@[simp]
theorem settle_val (s : State) (i j : Int) :
    ((settle s i).heap_ j).val = (s.heap_ j).val := by
  by_cases h : j = i <;> simp [settle, Function.update_apply, h]

/-- Settling a node leaves the lock words alone. -/
@[simp]
theorem settle_ver (s : State) (i j : Int) :
    ((settle s i).heap_ j).ver = (s.heap_ j).ver := by
  by_cases h : j = i <;> simp [settle, Function.update_apply, h]

/-- The node statuses after settling the node at index `i`. -/
theorem settle_status (s : State) (i j : Int) :
    ((settle s i).heap_ j).status = if j = i then .AVAILABLE else (s.heap_ j).status := by
  by_cases h : j = i <;> simp [settle, Function.update_apply, h]

/-- Settling a node changes the heap array only. -/
theorem settle_frame (s : State) (i : Int) : Frame s (settle s i) :=
  ⟨rfl, rfl, rfl, rfl, rfl, rfl, rfl, rfl⟩

/-- Vacating a node leaves the node values alone. -/
@[simp]
theorem vacate_val (s : State) (i j : Int) :
    ((vacate s i).heap_ j).val = (s.heap_ j).val := by
  by_cases h : j = i <;> simp [vacate, Function.update_apply, h]

/-- Vacating a node leaves the lock words alone. -/
@[simp]
theorem vacate_ver (s : State) (i j : Int) :
    ((vacate s i).heap_ j).ver = (s.heap_ j).ver := by
  by_cases h : j = i <;> simp [vacate, Function.update_apply, h]

/-- The node statuses after vacating the node at index `i`. -/
theorem vacate_status (s : State) (i j : Int) :
    ((vacate s i).heap_ j).status = if j = i then .EMPTY else (s.heap_ j).status := by
  by_cases h : j = i <;> simp [vacate, Function.update_apply, h]

/-- Vacating a node changes the heap array only. -/
theorem vacate_frame (s : State) (i : Int) : Frame s (vacate s i) :=
  ⟨rfl, rfl, rfl, rfl, rfl, rfl, rfl, rfl⟩

/-- A state frames itself. -/
theorem Frame.same (s : State) : Frame s s := ⟨rfl, rfl, rfl, rfl, rfl, rfl, rfl, rfl⟩

/-- Frames compose. -/
theorem Frame.comp {s1 s2 s3 : State} (h1 : Frame s1 s2) (h2 : Frame s2 s3) : Frame s1 s3 :=
  ⟨h2.size_.trans h1.size_, h2.heap_size.trans h1.heap_size, h2.heaplock_.trans h1.heaplock_,
   h2.poplock_.trans h1.poplock_, h2.popversion_.trans h1.popversion_, h2.mem.trans h1.mem,
   h2.mem_next.trans h1.mem_next, h2.txn.trans h1.txn⟩

/-- `lock(&heap_[i]->ver)` succeeds on a node inside the vector whose lock
word is free. -/
theorem lockNode_ok (T : TransactionTid) (s : State) (i : Int)
    (hb : 0 ≤ i ∧ i < s.heap_size) (hf : is_locked T (s.heap_ i).ver = false) :
    lockNode T s i = .ok (setNodeVer s i ((s.heap_ i).ver ||| T.lock_bit)) := by
  simp [lockNode, inBounds, hb, lockWord_of_free T _ hf]

/-- The payloads by index depend on the node values and the store only. -/
theorem pay_congr (s s' : State) (hm : s'.mem = s.mem) (i j : Int)
    (h : (s'.heap_ i).val = (s.heap_ j).val) : pay s' i = pay s j := by
  simp [pay, read_value, hm, h]

/-- A rearrangement of the nodes permutes the payloads of the live prefix. -/
theorem Rearranged.perm {n : Int} {s s' : State} (h : Rearranged n s s')
    (hn : s.size_ = n) (hn' : s'.size_ = n) (hm : s'.mem = s.mem) :
    (livePayloads s').Perm (livePayloads s) := by
  obtain ⟨σ, hσ, hval⟩ := h
  have := perm_map_range σ n hσ (pay s)
  unfold livePayloads
  rw [hn, hn']
  have heq : (fun i : Nat => pay s' (i : Int)) = (fun i : Nat => pay s (σ (i : Int))) := by
    funext i
    exact pay_congr s s' hm _ _ (hval _)
  rw [heq]
  exact this

/-- Equal node values are a rearrangement by the identity. -/
theorem Rearranged.of_same (n : Int) (s s' : State) (h : ∀ i, (s'.heap_ i).val = (s.heap_ i).val) :
    Rearranged n s s' :=
  ⟨1, fun _ _ => rfl, fun i => by simpa using h i⟩

/-- Rearrangements compose. -/
theorem Rearranged.chain {n : Int} {s1 s2 s3 : State} (h1 : Rearranged n s1 s2)
    (h2 : Rearranged n s2 s3) : Rearranged n s1 s3 := by
  obtain ⟨σ1, hσ1, hv1⟩ := h1
  obtain ⟨σ2, hσ2, hv2⟩ := h2
  refine ⟨σ1 * σ2, ?_, ?_⟩
  · intro i hi
    simp [Equiv.Perm.mul_apply, hσ2 i hi, hσ1 i hi]
  · intro i
    rw [hv2, hv1]
    rfl

/-- Exchanging the values of two indexes of the prefix is a rearrangement. -/
theorem Rearranged.of_swap (n : Int) (s s' : State) (a b : Int) (ha : 0 ≤ a ∧ a < n)
    (hb : 0 ≤ b ∧ b < n) (h : ∀ i, (s'.heap_ i).val = (s.heap_ (Equiv.swap a b i)).val) :
    Rearranged n s s' := by
  refine ⟨Equiv.swap a b, ?_, h⟩
  intro i hi
  apply Equiv.swap_apply_of_ne_of_ne
  · intro h; subst h; exact hi ha
  · intro h; subst h; exact hi hb

/-- Each node value of a rearranged prefix is a node value of the original
prefix. -/
theorem Rearranged.mem {n : Int} {s s' : State} (h : Rearranged n s s') (i : Int)
    (hi : 0 ≤ i ∧ i < n) : ∃ j, (0 ≤ j ∧ j < n) ∧ (s'.heap_ i).val = (s.heap_ j).val := by
  obtain ⟨σ, hσ, hval⟩ := h
  exact ⟨σ i, perm_maps_range σ n hσ i hi, hval i⟩

end PriorityQueue

namespace PriorityQueue

/-- Payloads do not depend on the lock words of the nodes. -/
@[simp]
theorem read_value_setNodeVer (s : State) (i : Int) (v : Nat) (p : Nat) :
    read_value (setNodeVer s i v) p = read_value s p := rfl

/-- Payloads do not change when a node is unlocked. -/
@[simp]
theorem read_value_unlockNode (T : TransactionTid) (s : State) (i : Int) (p : Nat) :
    read_value (unlockNode T s i) p = read_value s p := rfl

/-- Payloads do not change when two nodes are swapped. -/
@[simp]
theorem read_value_swap (s : State) (a b : Int) (p : Nat) :
    read_value (swap s a b) p = read_value s p := rfl

/-- The continuation of one sift-down iteration once the larger child `c` is
chosen and the other child `o` is unlocked. -/
theorem siftDown_step (T : TransactionTid) (fuel : Nat)
    (ih : ∀ (s : State) (k n : Int),
      s.size_ = n → n ≤ s.heap_size → 0 ≤ k → k < n → n ≤ k + fuel →
      Settled s n → FreeExcept T s n k → SiftInv (pay s) n k →
      ∃ s', siftDown T fuel s k = .ok s' ∧ LoopPost T n s s' ∧ AlmostHeap (pay s') n)
    (s s3 : State) (k n c o : Int)
    (hsz : s.size_ = n) (hcap : n ≤ s.heap_size) (hk0 : 0 ≤ k)
    (hfuel : n ≤ k + (fuel + 1)) (hcond : 2 * k < n - 2)
    (hset : Settled s n) (hinv : SiftInv (pay s) n k)
    (hco : (c = k * 2 + 1 ∧ o = k * 2 + 2) ∨ (c = k * 2 + 2 ∧ o = k * 2 + 1))
    (hfr : Frame s s3)
    (hval : ∀ i, (s3.heap_ i).val = (s.heap_ i).val)
    (hst : ∀ i, (s3.heap_ i).status = (s.heap_ i).status)
    (hfree3 : ∀ i, 0 ≤ i → i < n → i ≠ k → i ≠ c → is_locked T (s3.heap_ i).ver = false)
    (hoc : pay s o ≤ pay s c) :
    ∃ s', (if read_value s3 (s3.heap_ c).val > read_value s3 (s3.heap_ k).val then
            siftDown T fuel (unlockNode T (swap s3 k c) k) c
          else Res.ok (unlockNode T (unlockNode T s3 c) k)) = .ok s' ∧
      LoopPost T n s s' ∧ AlmostHeap (pay s') n := by
  have hc0 : 0 ≤ c := by omega
  have hcn : c < n := by omega
  have hck : c ≠ k := by omega
  have hp3 : ∀ i, pay s3 i = pay s i := fun i => pay_congr s s3 hfr.mem i i (hval i)
  have e1 : read_value s3 (s3.heap_ c).val = pay s c := hp3 c
  have e2 : read_value s3 (s3.heap_ k).val = pay s k := hp3 k
  rw [e1, e2]
  by_cases hgt : pay s c > pay s k
  · rw [if_pos hgt]
    have hswapr : ∀ i, 0 ≤ i → i < n → (0 ≤ Equiv.swap k c i ∧ Equiv.swap k c i < n) := by
      intro i h0 h1
      rw [Equiv.swap_apply_def]
      split_ifs <;> omega
    have hv5 : ∀ i, ((unlockNode T (swap s3 k c) k).heap_ i).val
        = (s.heap_ (Equiv.swap k c i)).val := by
      intro i; simp [hval]
    have hfr5 : Frame s (unlockNode T (swap s3 k c) k) :=
      (hfr.comp (swap_frame s3 k c)).comp (unlockNode_frame T _ k)
    have hp5 : ∀ i, pay (unlockNode T (swap s3 k c) k) i = pay s (Equiv.swap k c i) :=
      fun i => pay_congr s _ hfr5.mem _ _ (hv5 i)
    obtain ⟨s', hrun, hpost, halm⟩ := ih (unlockNode T (swap s3 k c) k) c n
      (by rw [hfr5.size_, hsz]) (by rw [hfr5.heap_size]; exact hcap) hc0 hcn (by omega)
      (by
        intro i h0 h1
        have := hswapr i h0 h1
        simp only [unlockNode_status, swap_status, hst]
        exact hset _ this.1 this.2)
      (by
        intro i h0 h1 hic
        rw [unlockNode_ver]
        split_ifs with hik
        · exact is_locked_unlockWord T _
        · rw [swap_ver]; exact hfree3 i h0 h1 hik hic)
      (siftInv_swap (pay s) _ n k c hk0 (by omega) (by omega) hp5 hgt
        (by
          intro d hd
          rcases hco with ⟨h1, h2⟩ | ⟨h1, h2⟩ <;> rcases hd with hd | hd
          · rw [hd, ← h1]
          · rw [hd, ← h2]; exact hoc
          · rw [hd, ← h2]; exact hoc
          · rw [hd, ← h1])
        hinv)
    refine ⟨s', hrun, ⟨hfr5.comp hpost.frame, hpost.settled, hpost.free, ?_⟩, halm⟩
    exact (Rearranged.of_swap n s _ k c ⟨hk0, by omega⟩ ⟨hc0, hcn⟩ hv5).chain hpost.rearranged
  · rw [if_neg hgt]
    have hfr' : Frame s (unlockNode T (unlockNode T s3 c) k) :=
      (hfr.comp (unlockNode_frame T s3 c)).comp (unlockNode_frame T _ k)
    have hv' : ∀ i, ((unlockNode T (unlockNode T s3 c) k).heap_ i).val = (s.heap_ i).val := by
      intro i; simp [hval]
    have hp' : pay (unlockNode T (unlockNode T s3 c) k) = pay s :=
      funext fun i => pay_congr s _ hfr'.mem _ _ (hv' i)
    refine ⟨_, rfl, ⟨hfr', ?_, ?_, Rearranged.of_same n s _ hv'⟩, ?_⟩
    · intro i h0 h1
      simp only [unlockNode_status, hst]
      exact hset i h0 h1
    · intro i h0 h1
      rw [unlockNode_ver]
      split_ifs with hik
      · exact is_locked_unlockWord T _
      · rw [unlockNode_ver]
        split_ifs with hic
        · exact is_locked_unlockWord T _
        · exact hfree3 i h0 h1 hik hic
    · rw [hp']
      apply AlmostHeap.of_heapOrdered
      have hck' : pay s c ≤ pay s k := by omega
      apply heapOrdered_of_siftInv_break (pay s) n k _ _ hinv
      · rcases hco with ⟨h1, h2⟩ | ⟨h1, h2⟩
        · rw [← h1]; exact hck'
        · rw [← h2]; exact le_trans hoc hck'
      · rcases hco with ⟨h1, h2⟩ | ⟨h1, h2⟩
        · rw [← h2]; exact le_trans hoc hck'
        · rw [← h1]; exact hck'

/-- The sift-down loop of `removeMax`, started at `k` with the lock of `k`
held on a settled prefix whose other locks are free: it returns, leaves every
node settled and unlocked, rearranges the values, and leaves the prefix
ordered except, possibly, at its last index. -/
theorem siftDown_spec (T : TransactionTid) : ∀ (fuel : Nat) (s : State) (k n : Int),
    s.size_ = n → n ≤ s.heap_size → 0 ≤ k → k < n → n ≤ k + fuel →
    Settled s n → FreeExcept T s n k → SiftInv (pay s) n k →
    ∃ s', siftDown T fuel s k = .ok s' ∧ LoopPost T n s s' ∧ AlmostHeap (pay s') n := by
  intro fuel
  induction fuel with
  | zero =>
    intro s k n _ _ _ hkn hfuel
    omega
  | succ fuel ih =>
    intro s k n hsz hcap hk0 hkn hfuel hset hfree hinv
    by_cases hcond : 2 * k < n - 2
    · have hL : lockNode T s (k * 2 + 1)
          = .ok (setNodeVer s (k * 2 + 1) ((s.heap_ (k * 2 + 1)).ver ||| T.lock_bit)) :=
        lockNode_ok T s _ (by omega) (hfree _ (by omega) (by omega) (by omega))
      have hR : lockNode T (setNodeVer s (k * 2 + 1) ((s.heap_ (k * 2 + 1)).ver ||| T.lock_bit))
            (k * 2 + 2)
          = .ok (setNodeVer (setNodeVer s (k * 2 + 1) ((s.heap_ (k * 2 + 1)).ver ||| T.lock_bit))
              (k * 2 + 2) ((s.heap_ (k * 2 + 2)).ver ||| T.lock_bit)) := by
        have := lockNode_ok T
          (setNodeVer s (k * 2 + 1) ((s.heap_ (k * 2 + 1)).ver ||| T.lock_bit)) (k * 2 + 2)
          (by show 0 ≤ k * 2 + 2 ∧ k * 2 + 2 < s.heap_size; omega)
          (by
            rw [setNodeVer_ver, if_neg (by omega)]
            exact hfree _ (by omega) (by omega) (by omega))
        rw [this, setNodeVer_ver, if_neg (by omega)]
      have hsL : (s.heap_ (k * 2 + 1)).status = .AVAILABLE := hset _ (by omega) (by omega)
      have hsR : (s.heap_ (k * 2 + 2)).status = .AVAILABLE := hset _ (by omega) (by omega)
      rw [siftDown, if_pos (by rw [hsz]; exact hcond)]
      simp only [hL, hR, Res.ok_bind_do, setNodeVer_status, hsL, hsR, setNodeVer_val,
        read_value_setNodeVer, reduceCtorEq, if_false, false_or]
      by_cases hlr : read_value s (s.heap_ (k * 2 + 1)).val > read_value s (s.heap_ (k * 2 + 2)).val
      · rw [if_pos hlr]
        apply siftDown_step T fuel ih s _ k n (k * 2 + 1) (k * 2 + 2) hsz hcap hk0 hfuel hcond
          hset hinv (Or.inl ⟨rfl, rfl⟩)
        · exact ((setNodeVer_frame s _ _).comp (setNodeVer_frame _ _ _)).comp
            (unlockNode_frame T _ _)
        · intro i; simp
        · intro i; simp
        · intro i h0 h1 hik hic
          rw [unlockNode_ver]
          split_ifs with hiR
          · exact is_locked_unlockWord T _
          · rw [setNodeVer_ver, if_neg hiR, setNodeVer_ver, if_neg hic]
            exact hfree i h0 h1 hik
        · exact le_of_lt hlr
      · rw [if_neg hlr]
        apply siftDown_step T fuel ih s _ k n (k * 2 + 2) (k * 2 + 1) hsz hcap hk0 hfuel hcond
          hset hinv (Or.inr ⟨rfl, rfl⟩)
        · exact ((setNodeVer_frame s _ _).comp (setNodeVer_frame _ _ _)).comp
            (unlockNode_frame T _ _)
        · intro i; simp
        · intro i; simp
        · intro i h0 h1 hik hic
          rw [unlockNode_ver]
          split_ifs with hiL
          · exact is_locked_unlockWord T _
          · rw [setNodeVer_ver, if_neg hic, setNodeVer_ver, if_neg hiL]
            exact hfree i h0 h1 hik
        · exact not_lt.mp hlr
    · refine ⟨unlockNode T s k, ?_, ⟨unlockNode_frame T s k, ?_, ?_, ?_⟩, ?_⟩
      · cases fuel <;> simp [siftDown, hsz, hcond]
      · intro i h0 h1
        simp only [unlockNode_status]
        exact hset i h0 h1
      · intro i h0 h1
        rw [unlockNode_ver]
        split_ifs with hik
        · exact is_locked_unlockWord T _
        · exact hfree i h0 h1 hik
      · exact Rearranged.of_same n s _ (fun i => by simp)
      · have hp' : pay (unlockNode T s k) = pay s :=
          funext fun i => pay_congr s _ (unlockNode_frame T s k).mem _ _ (by simp)
        rw [hp']
        exact almostHeap_of_siftInv_exit (pay s) n k hcond hinv

end PriorityQueue

namespace PriorityQueue

/-- Writing `heaplock_` leaves the heap array alone. -/
@[simp]
theorem setHeaplock_heap_ (s : State) (v : Nat) : (setHeaplock s v).heap_ = s.heap_ := rfl

/-- Writing `heaplock_` leaves `size_` alone. -/
@[simp]
theorem setHeaplock_size_ (s : State) (v : Nat) : (setHeaplock s v).size_ = s.size_ := rfl

/-- Writing `heaplock_` leaves the vector size alone. -/
@[simp]
theorem setHeaplock_heap_size (s : State) (v : Nat) :
    (setHeaplock s v).heap_size = s.heap_size := rfl

/-- Reading `heaplock_` after writing it. -/
@[simp]
theorem setHeaplock_heaplock_ (s : State) (v : Nat) : (setHeaplock s v).heaplock_ = v := rfl

/-- Writing `size_` leaves the heap array alone. -/
@[simp]
theorem setSize_heap_ (s : State) (n : Int) : (setSize s n).heap_ = s.heap_ := rfl

/-- Reading `size_` after writing it. -/
@[simp]
theorem setSize_size_ (s : State) (n : Int) : (setSize s n).size_ = n := rfl

/-- Writing `size_` leaves the vector size alone. -/
@[simp]
theorem setSize_heap_size (s : State) (n : Int) : (setSize s n).heap_size = s.heap_size := rfl

/-- Writing `size_` leaves `heaplock_` alone. -/
@[simp]
theorem setSize_heaplock_ (s : State) (n : Int) : (setSize s n).heaplock_ = s.heaplock_ := rfl

/-- Payloads do not change when a node is vacated. -/
@[simp]
theorem read_value_vacate (s : State) (i : Int) (p : Nat) :
    read_value (vacate s i) p = read_value s p := rfl

/-- Payloads do not depend on `heaplock_`. -/
@[simp]
theorem read_value_setHeaplock (s : State) (v : Nat) (p : Nat) :
    read_value (setHeaplock s v) p = read_value s p := rfl

/-- Payloads do not depend on `size_`. -/
@[simp]
theorem read_value_setSize (s : State) (n : Int) (p : Nat) :
    read_value (setSize s n) p = read_value s p := rfl

/-- Lifts what is known of a loop's result through the `bind` that follows
it. -/
theorem Res.bind_ok_of_exists {α β : Type} {r : Res α} {f : α → Res β} {Q : α → Prop}
    {P : β → Prop} (h : ∃ a, r = .ok a ∧ Q a) (hf : ∀ a, Q a → ∃ b, f a = .ok b ∧ P b) :
    ∃ b, r.bind f = .ok b ∧ P b := by
  obtain ⟨a, hr, hq⟩ := h
  rw [hr]
  exact hf a hq

/-- The payload list of a prefix of `m + 1` nodes is that of the first `m`
nodes followed by the last payload. -/
theorem map_range_succ {α : Type} (f : Nat → α) (m : Nat) :
    (List.range (m + 1)).map f = (List.range m).map f ++ [f m] := by
  rw [List.range_succ, List.map_append]
  rfl

/-- Once the old root is exchanged with the last node of the prefix and the
prefix shortened by one, any rearrangement of the shorter prefix holds the
payloads of the original prefix without the old root's, on values that the
original held below the root. -/
theorem removed_root (s X a : State) (n : Int) (hfr : Frame X a)
    (hre : Rearranged (n - 1) X a) (hn : 2 ≤ n) (hsz : s.size_ = n)
    (hX : ∀ i, (X.heap_ i).val = (s.heap_ (Equiv.swap (n - 1) 0 i)).val)
    (hXm : X.mem = s.mem) (hXs : X.size_ = n - 1) :
    (livePayloads a ++ [pay s 0]).Perm (livePayloads s) ∧
    ∀ i, 0 ≤ i → i < n - 1 → ∃ j, 1 ≤ j ∧ j < n ∧ (a.heap_ i).val = (s.heap_ j).val := by
  constructor
  · have h1 : (livePayloads a).Perm (livePayloads X) :=
      hre.perm hXs (hfr.size_.trans hXs) hfr.mem
    have h2 : livePayloads X ++ [pay s 0]
        = (List.range n.toNat).map (fun i : Nat => pay s (Equiv.swap (n - 1) 0 (i : Int))) := by
      have hnat : n.toNat = (n - 1).toNat + 1 := by omega
      rw [hnat, map_range_succ]
      unfold livePayloads
      rw [hXs]
      congr 1
      · apply List.map_congr_left
        intro i _
        exact pay_congr s X hXm _ _ (hX _)
      · have : (((n - 1).toNat : Nat) : Int) = n - 1 := by omega
        rw [this, Equiv.swap_apply_left]
    have h3 := perm_map_range (Equiv.swap (n - 1) 0) n (by
      intro i hi
      apply Equiv.swap_apply_of_ne_of_ne <;> omega) (pay s)
    have h4 : (livePayloads X ++ [pay s 0]).Perm (livePayloads s) := by
      rw [h2]
      unfold livePayloads
      rw [hsz]
      exact h3
    exact (h1.append_right _).trans h4
  · intro i h0 h1
    obtain ⟨j, hj, hv⟩ := hre.mem i ⟨h0, h1⟩
    refine ⟨Equiv.swap (n - 1) 0 j, ?_, ?_, ?_⟩
    · rw [Equiv.swap_apply_def]; split_ifs <;> omega
    · rw [Equiv.swap_apply_def]; split_ifs <;> omega
    · rw [hv, hX]

/-- With the last node of an ordered prefix moved to the root and the prefix
shortened by one, the sift-down invariant holds at the root. -/
theorem siftInv_after_swap (s X : State) (n : Int)
    (hX : ∀ i, (X.heap_ i).val = (s.heap_ (Equiv.swap (n - 1) 0 i)).val)
    (hXm : X.mem = s.mem) (hord : HeapOrdered (pay s) n) : SiftInv (pay X) (n - 1) 0 := by
  have hp : ∀ i, i ≠ 0 → i ≠ n - 1 → pay X i = pay s i := by
    intro i h1 h2
    apply pay_congr s X hXm
    rw [hX, Equiv.swap_apply_of_ne_of_ne h2 h1]
  constructor
  · intro i hi0 hin hpar
    rw [hp i (by omega) (by omega), hp _ hpar (by omega)]
    exact hord i hi0 (by omega)
  · intro h; omega

/-- On a settled, unlocked, max-heap ordered prefix of `n ≥ 1` nodes
`removeMax()` returns the value of the root and leaves a state described by
`RemoveMaxPost`. -/
theorem removeMax_spec (T : TransactionTid) (s : State) (n : Int)
    (hsz : s.size_ = n) (hn : 1 ≤ n) (hcap : n ≤ s.heap_size)
    (hset : Settled s n) (hfree : NodesFree T s n) (hhl : is_locked T s.heaplock_ = false)
    (hord : HeapOrdered (pay s) n) :
    ∃ r, removeMax T s none = .ok r ∧ r.1 = some (s.heap_ 0).val ∧ RemoveMaxPost T n s r.2 := by
  rw [removeMax, lockWord_of_free T _ hhl]
  simp only [setHeaplock_size_, hsz, setSize_heap_, setHeaplock_heap_, setSize_heaplock_,
    setHeaplock_heaplock_]
  by_cases hne : n - 1 = 0
  · rw [if_pos hne]
    have hb : inBounds (setSize (setHeaplock s (s.heaplock_ ||| T.lock_bit)) (n - 1)) 0 = true := by
      simp [inBounds]; omega
    rw [if_pos hb]
    refine ⟨_, rfl, rfl, ?_⟩
    have hn1 : n = 1 := by omega
    subst hn1
    refine ⟨rfl, rfl, is_locked_unlockWord T _, rfl, rfl, rfl, rfl, rfl, ?_, ?_, ?_, ?_, ?_⟩
    · intro i h0 h1; omega
    · intro i h0 h1; omega
    · intro i h0 h1; omega
    · simp [livePayloads, hsz]
      rfl
    · intro i h0 h1; omega
  · rw [if_neg hne]
    have hLb := lockNode_ok T (setSize (setHeaplock s (s.heaplock_ ||| T.lock_bit)) (n - 1))
      (n - 1) (by show 0 ≤ n - 1 ∧ n - 1 < s.heap_size; omega)
      (by show is_locked T (s.heap_ (n - 1)).ver = false; exact hfree _ (by omega) (by omega))
    rw [hLb, Res.ok_bind]
    have hL0 := lockNode_ok T
      (setNodeVer (setSize (setHeaplock s (s.heaplock_ ||| T.lock_bit)) (n - 1)) (n - 1)
        (((setSize (setHeaplock s (s.heaplock_ ||| T.lock_bit)) (n - 1)).heap_ (n - 1)).ver
          ||| T.lock_bit)) 0
      (by show 0 ≤ (0 : Int) ∧ 0 < s.heap_size; omega)
      (by
        rw [setNodeVer_ver, if_neg (by omega)]
        exact hfree _ (by omega) (by omega))
    rw [hL0, Res.ok_bind]
    simp only [ne_eq, not_true_eq_false, false_and, if_false]
    have hsw : ∀ i : Int, 0 ≤ i → i < n - 1 →
        (Equiv.swap (n - 1) 0 i = if i = 0 then n - 1 else i) := by
      intro i h0 h1
      rw [Equiv.swap_apply_def]
      split_ifs <;> omega
    refine Res.bind_ok_of_exists
      (siftDown_spec T _ _ 0 (n - 1) rfl (by show n - 1 ≤ s.heap_size; omega) le_rfl (by omega)
        (by show n - 1 ≤ 0 + (((n - 1 : Int).toNat : Nat) : Int); omega) ?_ ?_ ?_) ?_
    · intro i h0 h1
      simp only [unlockNode_status, swap_status, vacate_status, hsw i h0 h1]
      by_cases hi0 : i = 0
      · rw [if_pos hi0, if_neg hne]
        simp only [setHeaplock_heap_, setNodeVer_status, setSize_heap_]
        exact hset _ (by omega) (by omega)
      · rw [if_neg hi0, if_neg hi0]
        simp only [setHeaplock_heap_, setNodeVer_status, setSize_heap_]
        exact hset _ (by omega) (by omega)
    · intro i h0 h1 hi0
      rw [unlockNode_ver, if_neg (by omega), swap_ver, vacate_ver]
      simp only [setHeaplock_heap_]
      rw [setNodeVer_ver, if_neg hi0, setNodeVer_ver, if_neg (by omega)]
      exact hfree _ (by omega) (by omega)
    · exact siftInv_after_swap s _ n
        (by
          intro i
          simp only [unlockNode_val, swap_val, vacate_val, setHeaplock_heap_, setNodeVer_val,
            setSize_heap_])
        rfl hord
    · intro a ⟨hpost, halm⟩
      refine ⟨_, rfl, ?_, ?_⟩
      · simp only [setNodeVer_val, setSize_heap_, setHeaplock_heap_]
      · have hrr := removed_root s _ a n hpost.frame hpost.rearranged (by omega) hsz
          (by
            intro i
            simp only [unlockNode_val, swap_val, vacate_val, setHeaplock_heap_, setNodeVer_val,
              setSize_heap_])
          rfl rfl
        exact
          { size_ := hpost.frame.size_.trans rfl
            heap_size := hpost.frame.heap_size.trans rfl
            heaplock_ := by
              rw [hpost.frame.heaplock_]
              exact is_locked_unlockWord T _
            poplock_ := hpost.frame.poplock_.trans rfl
            popversion_ := hpost.frame.popversion_.trans rfl
            mem := hpost.frame.mem.trans rfl
            mem_next := hpost.frame.mem_next.trans rfl
            txn := hpost.frame.txn.trans rfl
            settled := hpost.settled
            free := hpost.free
            almost := halm
            perm := hrr.1
            from_below := hrr.2 }

end PriorityQueue

namespace PriorityQueue

/-- Storing the tracked item again changes nothing. -/
theorem Sto_store_of_find {W : Type} (txn : List (Sto.TransItem W)) (k : Int)
    (it : Sto.TransItem W) (h : Sto.find txn k = some it) : Sto.store txn it = txn := by
  induction txn with
  | nil => simp [Sto.find] at h
  | cons x xs ih =>
    unfold Sto.find at h
    rw [List.find?_cons] at h
    by_cases hx : x.key = k
    · simp only [hx, decide_True, Option.some.injEq] at h
      subst h
      simp [Sto.store]
    · simp only [hx, decide_False] at h
      have hk : it.key = k := by
        have := List.find?_some h
        simpa using this
      have hne : ¬ x.key = it.key := by rw [hk]; exact hx
      simp only [Sto.store, hne, if_false]
      rw [ih h]

/-- `Sto::item` on a tracked key changes nothing. -/
theorem touch_of_find (s : State) (k : Int) (it : TransItem) (h : Sto.find s.txn k = some it) :
    touch s k = s := by
  unfold touch Sto.item
  rw [h, Option.getD_some, Sto_store_of_find _ _ _ h]
  rfl

/-- Ownership depends on the status and the owner of a node only. -/
theorem amOwner_congr (me : Int) (a b : HeapNode) (hs : a.status = b.status)
    (ho : a.owner = b.owner) : amOwner me a = amOwner me b := by
  simp [amOwner, hs, ho]

/-- One iteration of the sift-up loop of `add` once parent `p` and child `c`
are locked (state `s2`), on a prefix where `c` is the node being inserted. -/
theorem addLoop_step (T : TransactionTid) (me : Int) (fuel : Nat)
    (ih : ∀ (s : State) (c n : Int),
      s.size_ = n → n ≤ s.heap_size → 0 ≤ c → c < n → c ≤ fuel →
      amOwner me (s.heap_ c) = true →
      (∀ i : Int, 0 ≤ i → i < n → i ≠ c → (s.heap_ i).status = .AVAILABLE) →
      NodesFree T s n →
      AlmostHeap (pay s) c →
      (∀ i : Int, 0 ≤ i → i < n → i ≠ c → is_dirty T (version s (s.heap_ i).val) = true →
        ∃ it, Sto.find s.txn ((s.heap_ i).val : Int) = some it ∧ has_dirty it = true) →
      ∃ r, addLoop T me fuel s c = .ok r ∧ AddLoopPost T me n (pay s c) s r)
    (s s2 : State) (c p n : Int)
    (hsz : s.size_ = n) (hcap : n ≤ s.heap_size) (hc : 0 < c) (hcn : c < n)
    (hfuel : c ≤ ((fuel + 1 : Nat) : Int)) (hp : p = (c - 1) / 2)
    (hown : amOwner me (s.heap_ c) = true)
    (hav : ∀ i : Int, 0 ≤ i → i < n → i ≠ c → (s.heap_ i).status = .AVAILABLE)
    (halm : AlmostHeap (pay s) c)
    (hdirty : ∀ i : Int, 0 ≤ i → i < n → i ≠ c →
      is_dirty T (version s (s.heap_ i).val) = true →
      ∃ it, Sto.find s.txn ((s.heap_ i).val : Int) = some it ∧ has_dirty it = true)
    (hfr : Frame s s2)
    (hval : ∀ i, (s2.heap_ i).val = (s.heap_ i).val)
    (hst : ∀ i, (s2.heap_ i).status = (s.heap_ i).status)
    (how : ∀ i, (s2.heap_ i).owner = (s.heap_ i).owner)
    (hfree2 : ∀ i, 0 ≤ i → i < n → i ≠ p → i ≠ c → is_locked T (s2.heap_ i).ver = false) :
    ∃ r,
      (if (s2.heap_ p).status = .AVAILABLE ∧ amOwner me (s2.heap_ c) = true then
        if read_value s2 (s2.heap_ c).val > read_value s2 (s2.heap_ p).val then
          if is_dirty T (version (swap s2 c p) (s2.heap_ p).val) = true then
            if (!has_dirty (Sto.item (touch (swap s2 c p) (s2.heap_ p).val).txn
                ((s2.heap_ p).val : Int))) = true then
              Res.abort (unlockNode T (unlockNode T
                (settle (touch (swap s2 c p) (s2.heap_ p).val) p) c) p)
            else
              addLoop T me fuel (unlockNode T (unlockNode T
                (touch (swap s2 c p) (s2.heap_ p).val) c) p) p
          else addLoop T me fuel (unlockNode T (unlockNode T (swap s2 c p) c) p) p
        else Res.ok (unlockNode T (unlockNode T (settle s2 c) c) p, none)
      else if (!amOwner me (s2.heap_ c)) = true then
        addLoop T me fuel (unlockNode T (unlockNode T s2 c) p) p
      else Res.spin) = .ok r ∧ AddLoopPost T me n (pay s c) s r := by
  have hp0 : 0 ≤ p := by omega
  have hpc : p < c := by omega
  have hpn : p < n := by omega
  have hcp : c ≠ p := by omega
  have hstp : (s2.heap_ p).status = .AVAILABLE := by rw [hst]; exact hav p hp0 hpn (by omega)
  have hown2 : amOwner me (s2.heap_ c) = true := by
    rw [amOwner_congr me _ _ (hst c) (how c)]; exact hown
  rw [if_pos ⟨hstp, hown2⟩]
  have hp2 : ∀ i, pay s2 i = pay s i := fun i => pay_congr s s2 hfr.mem i i (hval i)
  have e1 : read_value s2 (s2.heap_ c).val = pay s c := hp2 c
  have e2 : read_value s2 (s2.heap_ p).val = pay s p := hp2 p
  rw [e1, e2]
  by_cases hgt : pay s c > pay s p
  · rw [if_pos hgt]
    -- both dirty branches continue with the same heap
    have hcont : ∀ s3 : State, Frame s s3 →
        (∀ i, (s3.heap_ i).val = (s.heap_ (Equiv.swap c p i)).val) →
        (∀ i, (s3.heap_ i).status = (s.heap_ (Equiv.swap c p i)).status) →
        (∀ i, (s3.heap_ i).owner = (s.heap_ (Equiv.swap c p i)).owner) →
        (∀ i, 0 ≤ i → i < n → i ≠ p → i ≠ c → is_locked T (s3.heap_ i).ver = false) →
        ∃ r, addLoop T me fuel (unlockNode T (unlockNode T s3 c) p) p = .ok r ∧
          AddLoopPost T me n (pay s c) s r := by
      intro s3 hfr3 hv3 hs3 ho3 hf3
      have hfr5 : Frame s (unlockNode T (unlockNode T s3 c) p) :=
        (hfr3.comp (unlockNode_frame T s3 c)).comp (unlockNode_frame T _ p)
      have hv5 : ∀ i, ((unlockNode T (unlockNode T s3 c) p).heap_ i).val
          = (s.heap_ (Equiv.swap c p i)).val := by
        intro i; simp [hv3]
      have hp5 : ∀ i, pay (unlockNode T (unlockNode T s3 c) p) i
          = pay s (Equiv.swap c p i) := fun i => pay_congr s _ hfr5.mem _ _ (hv5 i)
      have hsw : ∀ i, i ≠ p → i ≠ c → Equiv.swap c p i = i :=
        fun i h1 h2 => Equiv.swap_apply_of_ne_of_ne h2 h1
      obtain ⟨r, hrun, hpost⟩ := ih (unlockNode T (unlockNode T s3 c) p) p n
        (by rw [hfr5.size_, hsz]) (by rw [hfr5.heap_size]; exact hcap) hp0 hpn
        (by push_cast at hfuel; omega)
        (by
          rw [amOwner_congr me _ (s.heap_ c) (by simp [hs3]) (by simp [ho3])]
          exact hown)
        (by
          intro i h0 h1 hip
          simp only [unlockNode_status, hs3]
          by_cases hic : i = c
          · rw [hic, Equiv.swap_apply_left]
            exact hav p hp0 hpn (by omega)
          · rw [hsw i hip hic]
            exact hav i h0 h1 hic)
        (by
          intro i h0 h1
          rw [unlockNode_ver]
          split_ifs with hip
          · exact is_locked_unlockWord T _
          · rw [unlockNode_ver]
            split_ifs with hic
            · exact is_locked_unlockWord T _
            · exact hf3 i h0 h1 hip hic)
        (by
          intro i hi0 hi1
          rw [hp5, hp5, hsw i (by omega) (by omega), hsw _ (by omega) (by omega)]
          exact halm i hi0 (by omega))
        (by
          intro i h0 h1 hip hd
          have hvi : ((unlockNode T (unlockNode T s3 c) p).heap_ i).val
              = (s.heap_ (Equiv.swap c p i)).val := hv5 i
          rw [hvi] at hd ⊢
          rw [hfr5.txn]
          have hd' : is_dirty T (version s (s.heap_ (Equiv.swap c p i)).val) = true := by
            have : version (unlockNode T (unlockNode T s3 c) p)
                (s.heap_ (Equiv.swap c p i)).val
                = version s (s.heap_ (Equiv.swap c p i)).val := by
              simp [version, hfr5.mem]
            rw [← this]; exact hd
          by_cases hic : i = c
          · rw [hic, Equiv.swap_apply_left] at hd' ⊢
            exact hdirty p hp0 hpn (by omega) hd'
          · rw [hsw i hip hic] at hd' ⊢
            exact hdirty i h0 h1 hic hd')
      refine ⟨r, hrun, ?_⟩
      have hpc' : pay (unlockNode T (unlockNode T s3 c) p) p = pay s c := by
        rw [hp5, Equiv.swap_apply_right]
      rw [hpc'] at hpost
      exact
        { frame := hfr5.comp hpost.frame
          rearranged :=
            (Rearranged.of_swap n s _ c p ⟨by omega, hcn⟩ ⟨hp0, hpn⟩ hv5).chain hpost.rearranged
          free := hpost.free
          root_ge := hpost.root_ge
          returned := hpost.returned
          at_root := hpost.at_root }
    have hver : version (swap s2 c p) (s2.heap_ p).val = version s (s.heap_ p).val := by
      simp [version, hval, (hfr.comp (swap_frame s2 c p)).mem]
    rw [hver]
    by_cases hd : is_dirty T (version s (s.heap_ p).val) = true
    · rw [if_pos hd]
      obtain ⟨it, hfind, hhd⟩ := hdirty p hp0 hpn (by omega) hd
      have hfind' : Sto.find (swap s2 c p).txn ((s2.heap_ p).val : Int) = some it := by
        rw [(hfr.comp (swap_frame s2 c p)).txn, hval]; exact hfind
      have htouch := touch_of_find (swap s2 c p) _ it hfind'
      rw [htouch]
      have hitem : Sto.item (swap s2 c p).txn ((s2.heap_ p).val : Int) = it := by
        unfold Sto.item; rw [hfind']; rfl
      rw [hitem, hhd]
      simp only [Bool.not_true, Bool.false_eq_true, if_false]
      exact hcont (swap s2 c p) (hfr.comp (swap_frame s2 c p))
        (by intro i; simp [hval]) (by intro i; simp [hst]) (by intro i; simp [how])
        (by intro i h0 h1 hip hic; rw [swap_ver]; exact hfree2 i h0 h1 hip hic)
    · rw [if_neg hd]
      exact hcont (swap s2 c p) (hfr.comp (swap_frame s2 c p))
        (by intro i; simp [hval]) (by intro i; simp [hst]) (by intro i; simp [how])
        (by intro i h0 h1 hip hic; rw [swap_ver]; exact hfree2 i h0 h1 hip hic)
  · rw [if_neg hgt]
    have hfr' : Frame s (unlockNode T (unlockNode T (settle s2 c) c) p) :=
      ((hfr.comp (settle_frame s2 c)).comp (unlockNode_frame T _ c)).comp
        (unlockNode_frame T _ p)
    have hv' : ∀ i, ((unlockNode T (unlockNode T (settle s2 c) c) p).heap_ i).val
        = (s.heap_ i).val := by
      intro i; simp [hval]
    have hp' : pay (unlockNode T (unlockNode T (settle s2 c) c) p) = pay s :=
      funext fun i => pay_congr s _ hfr'.mem _ _ (hv' i)
    refine ⟨_, rfl, ?_⟩
    exact
      { frame := hfr'
        rearranged := Rearranged.of_same n s _ hv'
        free := by
          intro i h0 h1
          show is_locked T ((unlockNode T (unlockNode T (settle s2 c) c) p).heap_ i).ver = false
          rw [unlockNode_ver]
          split_ifs with hip
          · exact is_locked_unlockWord T _
          · rw [unlockNode_ver]
            split_ifs with hic
            · exact is_locked_unlockWord T _
            · rw [settle_ver]; exact hfree2 i h0 h1 hip hic
        root_ge := by
          show pay s c ≤ pay (unlockNode T (unlockNode T (settle s2 c) c) p) 0
          rw [hp']
          have h1 : pay s c ≤ pay s p := by omega
          have h2 := root_ge_of_almostHeap (pay s) c halm p.toNat p le_rfl hp0 (by omega)
          exact le_trans h1 h2
        returned := by
          intro _ i h0 h1
          show ((unlockNode T (unlockNode T (settle s2 c) c) p).heap_ i).status = .AVAILABLE
          simp only [unlockNode_status, settle_status]
          split_ifs with hic
          · rfl
          · rw [hst]; exact hav i h0 h1 hic
        at_root := by intro c' h; simp at h }

/-- The sift-up loop of `add`, started at an owned node `c` of a prefix whose
other nodes are settled and unlocked and whose dirty values are all dirtied by
the running transaction, returns with `AddLoopPost`. -/
theorem addLoop_spec (T : TransactionTid) (me : Int) : ∀ (fuel : Nat) (s : State) (c n : Int),
    s.size_ = n → n ≤ s.heap_size → 0 ≤ c → c < n → c ≤ fuel →
    amOwner me (s.heap_ c) = true →
    (∀ i : Int, 0 ≤ i → i < n → i ≠ c → (s.heap_ i).status = .AVAILABLE) →
    NodesFree T s n →
    AlmostHeap (pay s) c →
    (∀ i : Int, 0 ≤ i → i < n → i ≠ c → is_dirty T (version s (s.heap_ i).val) = true →
      ∃ it, Sto.find s.txn ((s.heap_ i).val : Int) = some it ∧ has_dirty it = true) →
    ∃ r, addLoop T me fuel s c = .ok r ∧ AddLoopPost T me n (pay s c) s r := by
  intro fuel
  induction fuel with
  | zero =>
    intro s c n hsz hcap hc0 hcn hfuel hown hav hfree halm hdirty
    have hc : c = 0 := by omega
    subst hc
    refine ⟨(s, some 0), by simp [addLoop], ?_⟩
    exact
      { frame := Frame.same s
        rearranged := Rearranged.of_same n s s (fun _ => rfl)
        free := hfree
        root_ge := le_rfl
        returned := by intro h; simp at h
        at_root := by
          intro c' h
          simp only [Option.some.injEq] at h
          subst h
          exact ⟨rfl, hown, fun i h0 h1 => hav i (by omega) h1 (by omega)⟩ }
  | succ fuel ih =>
    intro s c n hsz hcap hc0 hcn hfuel hown hav hfree halm hdirty
    by_cases hc : c > 0
    · have hp0 : 0 ≤ (c - 1) / 2 := by omega
      have hpc : (c - 1) / 2 < c := by omega
      have hLp := lockNode_ok T s ((c - 1) / 2) (by omega) (hfree _ hp0 (by omega))
      have hLc := lockNode_ok T
        (setNodeVer s ((c - 1) / 2) ((s.heap_ ((c - 1) / 2)).ver ||| T.lock_bit)) c
        (by show 0 ≤ c ∧ c < s.heap_size; omega)
        (by
          rw [setNodeVer_ver, if_neg (by omega)]
          exact hfree _ hc0 hcn)
      rw [addLoop, if_pos hc]
      simp only [hLp, hLc, Res.ok_bind_do]
      exact addLoop_step T me fuel ih s _ c ((c - 1) / 2) n hsz hcap hc hcn hfuel rfl hown hav
        halm hdirty ((setNodeVer_frame s _ _).comp (setNodeVer_frame _ _ _))
        (by intro i; simp) (by intro i; simp) (by intro i; simp)
        (by
          intro i h0 h1 hip hic
          rw [setNodeVer_ver, if_neg hic, setNodeVer_ver, if_neg hip]
          exact hfree i h0 h1)
    · have hc' : c = 0 := by omega
      subst hc'
      refine ⟨(s, some 0), by simp [addLoop], ?_⟩
      exact
        { frame := Frame.same s
          rearranged := Rearranged.of_same n s s (fun _ => rfl)
          free := hfree
          root_ge := le_rfl
          returned := by intro h; simp at h
          at_root := by
            intro c' h
            simp only [Option.some.injEq] at h
            subst h
            exact ⟨rfl, hown, fun i h0 h1 => hav i (by omega) h1 (by omega)⟩ }

end PriorityQueue

namespace PriorityQueue

/-- The part of `add` that follows the placement of the new node at index
`m` (state `sC`): the sift-up loop and the settling of the root. -/
theorem add_after_place (T : TransactionTid) (me : Int) (s sC : State) (m : Int) (v : Nat)
    (hsz : s.size_ = m) (hm0 : 0 ≤ m)
    (hset : Settled s m) (hfree : NodesFree T s m)
    (halm : AlmostHeap (pay s) m)
    (hdirty : ∀ i : Int, 0 ≤ i → i < m → is_dirty T (version s (s.heap_ i).val) = true →
      ∃ it, Sto.find s.txn ((s.heap_ i).val : Int) = some it ∧ has_dirty it = true)
    (hCsz : sC.size_ = m + 1) (hCcap : m + 1 ≤ sC.heap_size)
    (hChl : is_locked T sC.heaplock_ = false)
    (hCpl : sC.poplock_ = s.poplock_) (hCpv : sC.popversion_ = s.popversion_)
    (hCmem : sC.mem = s.mem) (hCnext : sC.mem_next = s.mem_next) (hCtxn : sC.txn = s.txn)
    (hCnew : sC.heap_ m = { val := v, ver := 0, status := .BUSY, owner := me })
    (hCold : ∀ i, i ≠ m → sC.heap_ i = s.heap_ i) :
    ∃ s', ((addLoop T me m.toNat sC m).bind fun r =>
        match r.2 with
        | none => Res.ok r.1
        | some child =>
          if child = 0 then
            (lockNode T r.1 0).bind fun s =>
            Res.ok (unlockNode T (if amOwner me (s.heap_ 0) = true then settle s 0 else s) 0)
          else Res.ok r.1) = .ok s' ∧ AddPost T m v s s' := by
  have hpayC : ∀ i, i ≠ m → pay sC i = pay s i := by
    intro i hi
    apply pay_congr s sC hCmem
    rw [hCold i hi]
  have hpaym : pay sC m = read_value s v := by
    simp [pay, read_value, hCnew, hCmem]
  have hliveC : livePayloads sC = livePayloads s ++ [read_value s v] := by
    unfold livePayloads
    rw [hCsz, hsz]
    have hnat : (m + 1).toNat = m.toNat + 1 := by omega
    rw [hnat, map_range_succ]
    congr 1
    · apply List.map_congr_left
      intro i hi
      rw [List.mem_range] at hi
      exact hpayC _ (by omega)
    · have : ((m.toNat : Nat) : Int) = m := by omega
      rw [this, hpaym]
  obtain ⟨r, hrun, hpost⟩ := addLoop_spec T me m.toNat sC m (m + 1) hCsz hCcap hm0 (by omega)
    (by omega)
    (by rw [hCnew]; simp [amOwner])
    (by
      intro i h0 h1 hi
      rw [hCold i hi]
      exact hset i h0 (by omega))
    (by
      intro i h0 h1
      by_cases hi : i = m
      · rw [hi, hCnew]; exact is_locked_zero T
      · rw [hCold i hi]; exact hfree i h0 (by omega))
    (by
      intro i hi0 hi1
      rw [hpayC i (by omega), hpayC _ (by omega)]
      exact halm i hi0 hi1)
    (by
      intro i h0 h1 hi hd
      rw [hCold i hi] at hd ⊢
      rw [hCtxn]
      have : version sC (s.heap_ i).val = version s (s.heap_ i).val := by
        simp [version, hCmem]
      rw [this] at hd
      exact hdirty i h0 (by omega) hd)
  rw [hrun, Res.ok_bind]
  rw [hpaym] at hpost
  have hbase : ∀ s' : State, Frame r.1 s' → (∀ i, (s'.heap_ i).val = (r.1.heap_ i).val) →
      Settled s' (m + 1) → NodesFree T s' (m + 1) → AddPost T m v s s' := by
    intro s' hfr hv hst hfl
    have hfr' : Frame sC s' := hpost.frame.comp hfr
    have hre : Rearranged (m + 1) sC s' :=
      hpost.rearranged.chain (Rearranged.of_same (m + 1) r.1 s' hv)
    exact
      { size_ := hfr'.size_.trans hCsz
        heap_size := by rw [hfr'.heap_size]; exact hCcap
        heaplock_ := by rw [hfr'.heaplock_]; exact hChl
        poplock_ := hfr'.poplock_.trans hCpl
        popversion_ := hfr'.popversion_.trans hCpv
        mem := hfr'.mem.trans hCmem
        mem_next := hfr'.mem_next.trans hCnext
        txn := hfr'.txn.trans hCtxn
        settled := hst
        free := hfl
        perm := by
          rw [← hliveC]
          exact hre.perm hCsz (hfr'.size_.trans hCsz) hfr'.mem
        root_ge := by
          have : pay s' 0 = pay r.1 0 := pay_congr r.1 s' hfr.mem 0 0 (hv 0)
          rw [this]
          exact hpost.root_ge }
  cases hr2 : r.2 with
  | none =>
    simp only []
    exact ⟨r.1, rfl, hbase r.1 (Frame.same _) (fun _ => rfl) (hpost.returned hr2) hpost.free⟩
  | some c' =>
    obtain ⟨hc0, hown, hothers⟩ := hpost.at_root c' hr2
    subst hc0
    simp only [if_true]
    have hL := lockNode_ok T r.1 0 (by rw [hpost.frame.heap_size]; omega)
      (hpost.free 0 le_rfl (by omega))
    rw [hL, Res.ok_bind]
    have hown' : amOwner me ((setNodeVer r.1 0 ((r.1.heap_ 0).ver ||| T.lock_bit)).heap_ 0)
        = true := by
      rw [amOwner_congr me _ (r.1.heap_ 0) (by simp) (by simp)]
      exact hown
    rw [if_pos hown']
    refine ⟨_, rfl, hbase _ ?_ ?_ ?_ ?_⟩
    · exact ((setNodeVer_frame _ _ _).comp (settle_frame _ _)).comp (unlockNode_frame T _ _)
    · intro i; simp
    · intro i h0 h1
      simp only [unlockNode_status, settle_status]
      split_ifs with hi
      · rfl
      · simp only [setNodeVer_status]
        exact hothers i (by omega) h1
    · intro i h0 h1
      rw [unlockNode_ver]
      split_ifs with hi
      · exact is_locked_unlockWord T _
      · rw [settle_ver, setNodeVer_ver, if_neg hi]
        exact hpost.free i h0 h1

/-- `add(v)` on a settled, unlocked prefix that is ordered except possibly at
its last index, where every dirty value is one the running transaction marked
dirty: it returns, with the new value in the heap and a root that holds at
least the new payload. -/
theorem add_spec (T : TransactionTid) (me : Int) (s : State) (m : Int) (v : Nat)
    (hsz : s.size_ = m) (hm0 : 0 ≤ m) (hcap : m ≤ s.heap_size)
    (hset : Settled s m) (hfree : NodesFree T s m) (hhl : is_locked T s.heaplock_ = false)
    (halm : AlmostHeap (pay s) m)
    (hdirty : ∀ i : Int, 0 ≤ i → i < m → is_dirty T (version s (s.heap_ i).val) = true →
      ∃ it, Sto.find s.txn ((s.heap_ i).val : Int) = some it ∧ has_dirty it = true) :
    ∃ s', add T me s v = .ok s' ∧ AddPost T m v s s' := by
  rw [add, lockWord_of_free T _ hhl]
  simp only [setHeaplock_size_, hsz, setSize_heap_size, setHeaplock_heap_size]
  by_cases hfull : m < 0 ∨ m ≥ s.heap_size
  · rw [if_pos hfull]
    have hmc : s.heap_size = m := by omega
    apply add_after_place T me s _ m v hsz hm0 hset hfree halm hdirty
    · rfl
    · show m + 1 ≤ s.heap_size + 1; omega
    · exact is_locked_unlockWord T _
    · rfl
    · rfl
    · rfl
    · rfl
    · rfl
    · show Function.update s.heap_ s.heap_size _ m = _
      rw [hmc, Function.update_same]
    · intro i hi
      show Function.update s.heap_ s.heap_size _ i = _
      rw [hmc, Function.update_noteq hi]
  · rw [if_neg hfull]
    apply add_after_place T me s _ m v hsz hm0 hset hfree halm hdirty
    · rfl
    · show m + 1 ≤ s.heap_size; omega
    · exact is_locked_unlockWord T _
    · rfl
    · rfl
    · rfl
    · rfl
    · rfl
    · show Function.update s.heap_ m _ m = _
      rw [Function.update_same]
    · intro i hi
      show Function.update s.heap_ m _ i = _
      rw [Function.update_noteq hi]

end PriorityQueue

namespace PriorityQueue

/-- `getMax()` on a non-empty heap whose root value is marked neither inserted
nor deleted returns the root value; the transaction tracks an item for it. -/
theorem getMax_plain (T : TransactionTid) (s : State) (h1 : 1 ≤ s.size_)
    (hcap : s.size_ ≤ s.heap_size)
    (hni : is_inserted T (version s (s.heap_ 0).val) = false)
    (hnd : is_deleted T (version s (s.heap_ 0).val) = false) :
    getMax T s = .ok (some (s.heap_ 0).val, touch s ((s.heap_ 0).val : Int)) := by
  have hb : inBounds s 0 = true := by simp [inBounds]; omega
  have hvt : version (touch s ((s.heap_ 0).val : Int)) (s.heap_ 0).val
      = version s (s.heap_ 0).val := rfl
  rw [getMax, if_neg (by omega)]
  show getMaxLoop T ((s.size_.toNat + 1) + 1) s = _
  rw [getMaxLoop, if_pos hb]
  simp only [hvt, hni, hnd, Bool.false_eq_true, if_false]

/-- The version of an address other than the one assigned is unchanged. -/
theorem version_setVersion_ne (s : State) (p q : Nat) (v : Nat) (h : q ≠ p) :
    version (setVersion s p v) q = version s q := by
  simp [version, setVersion, Function.update_noteq h]

/-- Reading the version word that was just written. -/
theorem version_setVersion_same (s : State) (p : Nat) (v : Nat) :
    version (setVersion s p v) p = v := by
  simp [version, setVersion]

/-- Assigning a version leaves every payload as it was. -/
theorem value_setVersion (s : State) (p q : Nat) (v : Nat) :
    ((setVersion s p v).mem q).value = (s.mem q).value := by
  by_cases h : q = p
  · subst h; simp [setVersion]
  · simp [setVersion, Function.update_noteq h]

/-- The end of `pop()` when `removeMax()` returned `p0` and `getMax()` returned
another value `p1`, tracked with a fresh item by the transaction. -/
theorem popFinish_some (T : TransactionTid) (s : State) (p0 p1 : Nat) (hne : p0 ≠ p1)
    (htxn : s.txn = [{ key := (p1 : Int), flags := 0, rdata := none, wdata := none }]) :
    popFinish T s (some p0) (some p1)
      = .ok (setTxn (setPoplock (setVersion s p1 (mark_dirty T (version s p1)))
          (unlockWord T s.poplock_))
          [dirtyItem p1, deleteItem p0 (version s p0) (some p1), popItem]) := by
  have h1 : ((p0 : Int) = (p1 : Int)) = False := by
    simp only [eq_iff_iff, iff_false]; omega
  have h2 : ((p1 : Int) = (p0 : Int)) = False := by
    simp only [eq_iff_iff, iff_false]; omega
  have h3 : ((p1 : Int) = pop_key) = False := by
    simp only [eq_iff_iff, iff_false, pop_key]; omega
  have h4 : ((p0 : Int) = pop_key) = False := by
    simp only [eq_iff_iff, iff_false, pop_key]; omega
  have hp : ¬ p0 = p1 := hne
  cases s with
  | mk heap_ heap_size heaplock_ poplock_ popversion_ size_ mem mem_next txn =>
    simp only at htxn
    subst htxn
    simp [popFinish, setItem, setTxn, setPoplock, Sto.item, Sto.find, Sto.store,
      Sto.TransItem.add_write, Sto.TransItem.add_flags, Sto.TransItem.add_read,
      Sto.TransItem.has_read, dirtyItem, deleteItem, popItem, h1, h2, h3, h4, setVersion,
      version, Function.update_noteq hp]

end PriorityQueue

namespace PriorityQueue

/-- The end of `pop()` when `removeMax()` returned `p0` and `getMax()` found the
heap empty, in a transaction without items. -/
theorem popFinish_none (T : TransactionTid) (s : State) (p0 : Nat) (htxn : s.txn = []) :
    popFinish T s (some p0) none
      = .ok (setTxn (setPoplock s (unlockWord T s.poplock_))
          [deleteItem p0 (version s p0) none, popItem]) := by
  have h4 : ((p0 : Int) = pop_key) = False := by
    simp only [eq_iff_iff, iff_false, pop_key]; omega
  cases s with
  | mk heap_ heap_size heaplock_ poplock_ popversion_ size_ mem mem_next txn =>
    simp only at htxn
    subst htxn
    simp [popFinish, setItem, setTxn, setPoplock, Sto.item, Sto.find, Sto.store,
      Sto.TransItem.add_write, Sto.TransItem.add_flags, Sto.TransItem.add_read,
      Sto.TransItem.has_read, deleteItem, popItem, h4, version]

/-- The payloads by index do not depend on version words, locks or items. -/
theorem pay_eq_of (s s' : State) (hh : s'.heap_ = s.heap_)
    (hv : ∀ q, (s'.mem q).value = (s.mem q).value) : pay s' = pay s := by
  funext i
  simp [pay, read_value, hh, hv]

/-- Equal sizes and payload maps give equal live payloads. -/
theorem livePayloads_eq_of (s s' : State) (hsz : s'.size_ = s.size_) (hp : pay s' = pay s) :
    livePayloads s' = livePayloads s := by
  simp [livePayloads, hsz, hp]

/-- `pop()` by a transaction without items on a committed queue with at least
one live node. -/
theorem pop_spec (T : TransactionTid) (s : State) (n : Int) (hs : Committed T s)
    (hsz : s.size_ = n) (hn : 1 ≤ n) (htxn : s.txn = []) :
    ∃ s1 new_head, pop T s = .ok s1 ∧ PopPost T n new_head s s1 := by
  have hpl := lockWord_of_free T _ hs.poplock_free
  rw [pop, if_neg (by omega), hpl]
  simp only []
  obtain ⟨r1, hr1, hv1, hp1⟩ := removeMax_spec T (setPoplock s (s.poplock_ ||| T.lock_bit)) n
    hsz (by omega) (by rw [← hsz]; exact hs.size_le) (by rw [← hsz]; exact hs.settled)
    (by rw [← hsz]; exact hs.free) hs.heaplock_free (by rw [← hsz]; exact hs.ordered)
  rw [hr1, Res.ok_bind, hv1]
  have hv1' : ((setPoplock s (s.poplock_ ||| T.lock_bit)).heap_ 0).val = (s.heap_ 0).val := rfl
  have hmem : r1.2.mem = s.mem := hp1.mem
  have htx : r1.2.txn = [] := hp1.txn.trans htxn
  have hfrom : ∀ i, 0 ≤ i → i < n - 1 →
      ∃ j, 1 ≤ j ∧ j < n ∧ (r1.2.heap_ i).val = (s.heap_ j).val := hp1.from_below
  have hperm : (livePayloads r1.2 ++ [pay s 0]).Perm (livePayloads s) := hp1.perm
  by_cases h1 : n = 1
  · -- the heap is empty after the removal
    have hg : getMax T r1.2 = .ok (none, r1.2) := by
      rw [getMax, if_pos (by rw [hp1.size_]; omega)]
    rw [hg, Res.ok_bind, hv1', popFinish_none T r1.2 _ htx]
    refine ⟨_, none, rfl, ?_⟩
    exact
      { size_ := hp1.size_
        heap_size := hp1.heap_size
        heaplock_ := hp1.heaplock_
        poplock_ := is_locked_unlockWord T _
        popversion_ := hp1.popversion_
        mem_next := hp1.mem_next
        settled := hp1.settled
        free := hp1.free
        almost := hp1.almost
        perm := hperm
        from_below := hfrom
        value := fun q => by show (r1.2.mem q).value = _; rw [hmem]
        version_other := fun q _ => by show (r1.2.mem q).version = _; rw [hmem]; rfl
        version_head := fun nh h => by simp at h
        head_from := fun nh h => by simp at h
        txn := by
          show [deleteItem _ (version r1.2 _) none, popItem] = _
          simp [popItems, version, hmem] }
  · obtain ⟨j, hj1, hjn, hj⟩ := hfrom 0 le_rfl (by omega)
    have hvj : version r1.2 (r1.2.heap_ 0).val = version s (s.heap_ j).val := by
      simp [version, hmem, hj]
    have hg := getMax_plain T r1.2 (by rw [hp1.size_]; omega)
      (by rw [hp1.size_, hp1.heap_size]; show n - 1 ≤ s.heap_size; have := hs.size_le; omega)
      (by rw [hvj]; exact hs.not_inserted j (by omega) (by omega))
      (by rw [hvj]; exact hs.not_deleted j (by omega) (by omega))
    have hne : (s.heap_ 0).val ≠ (r1.2.heap_ 0).val := by
      intro h
      rw [hj] at h
      have := hs.distinct 0 j (by omega) (by omega) (by omega) (by omega) h
      omega
    have htt : (touch r1.2 ((r1.2.heap_ 0).val : Int)).txn
        = [{ key := ((r1.2.heap_ 0).val : Int), flags := 0, rdata := none, wdata := none }] := by
      simp [touch, setTxn, htx, Sto.item, Sto.find, Sto.store]
    rw [hg, Res.ok_bind, hv1', popFinish_some T _ _ _ hne htt]
    refine ⟨_, some (r1.2.heap_ 0).val, rfl, ?_⟩
    exact
      { size_ := hp1.size_
        heap_size := hp1.heap_size
        heaplock_ := hp1.heaplock_
        poplock_ := is_locked_unlockWord T _
        popversion_ := hp1.popversion_
        mem_next := hp1.mem_next
        settled := hp1.settled
        free := hp1.free
        almost := by
          have : pay (setTxn (setPoplock (setVersion (touch r1.2 ((r1.2.heap_ 0).val : Int))
              (r1.2.heap_ 0).val (mark_dirty T (version (touch r1.2 ((r1.2.heap_ 0).val : Int))
                (r1.2.heap_ 0).val))) (unlockWord T (touch r1.2
                  ((r1.2.heap_ 0).val : Int)).poplock_))
              [dirtyItem (r1.2.heap_ 0).val,
                deleteItem (s.heap_ 0).val (version (touch r1.2 ((r1.2.heap_ 0).val : Int))
                  (s.heap_ 0).val) (some (r1.2.heap_ 0).val), popItem]) = pay r1.2 :=
            pay_eq_of _ _ rfl (fun q => value_setVersion _ _ _ _)
          rw [this]
          exact hp1.almost
        perm := by
          have : livePayloads (setTxn (setPoplock (setVersion
              (touch r1.2 ((r1.2.heap_ 0).val : Int))
              (r1.2.heap_ 0).val (mark_dirty T (version (touch r1.2 ((r1.2.heap_ 0).val : Int))
                (r1.2.heap_ 0).val))) (unlockWord T (touch r1.2
                  ((r1.2.heap_ 0).val : Int)).poplock_))
              [dirtyItem (r1.2.heap_ 0).val,
                deleteItem (s.heap_ 0).val (version (touch r1.2 ((r1.2.heap_ 0).val : Int))
                  (s.heap_ 0).val) (some (r1.2.heap_ 0).val), popItem]) = livePayloads r1.2 :=
            livePayloads_eq_of _ _ rfl (pay_eq_of _ _ rfl (fun q => value_setVersion _ _ _ _))
          rw [this]
          exact hperm
        from_below := hfrom
        value := fun q => by
          show ((setVersion (touch r1.2 _) _ _).mem q).value = _
          rw [value_setVersion]
          show (r1.2.mem q).value = _
          rw [hmem]
        version_other := fun q hq => by
          show version (setVersion (touch r1.2 _) _ _) q = _
          rw [version_setVersion_ne _ _ _ _ (by intro h; apply hq; rw [h])]
          show (r1.2.mem q).version = _
          rw [hmem]; rfl
        version_head := fun nh h => by
          simp only [Option.some.injEq] at h
          subst h
          show version (setVersion (touch r1.2 _) _ _) _ = _
          rw [version_setVersion_same]
          show mark_dirty T ((r1.2.mem _).version) = _
          rw [hmem]; rfl
        head_from := fun nh h => by
          simp only [Option.some.injEq] at h
          exact ⟨j, hj1, hjn, by rw [← h, hj]⟩
        txn := by
          show [dirtyItem _, deleteItem _ (version (touch r1.2 _) _) _, popItem] = _
          simp [popItems, version, touch, setTxn, hmem] }

end PriorityQueue

namespace PriorityQueue

/-- Marking a word dirty does not lock it when the dirty bit is not the lock bit. -/
theorem is_locked_mark_dirty (T : TransactionTid) (v : Nat)
    (hT : dirty_bit T &&& T.lock_bit = 0) (hv : is_locked T v = false) :
    is_locked T (mark_dirty T v) = false := by
  have hv' : v &&& T.lock_bit = 0 := by simpa [is_locked] using hv
  simp [is_locked, mark_dirty, or_and_of_disjoint v _ _ hv' hT]

/-- The dirty item carries no insert tag. -/
theorem has_insert_dirtyItem (nh : Nat) : has_insert (dirtyItem nh) = false := by
  simp [has_insert, has_delete, has_dirty, dirtyItem, deleteItem, dirty_tag, delete_tag,
    insert_tag, Sto.user0_bit]

/-- The dirty item carries no delete tag. -/
theorem has_delete_dirtyItem (nh : Nat) : has_delete (dirtyItem nh) = false := by
  simp [has_insert, has_delete, has_dirty, dirtyItem, deleteItem, dirty_tag, delete_tag,
    insert_tag, Sto.user0_bit]
  decide

/-- The dirty item carries the dirty tag. -/
theorem has_dirty_dirtyItem (nh : Nat) : has_dirty (dirtyItem nh) = true := by
  simp [has_insert, has_delete, has_dirty, dirtyItem, deleteItem, dirty_tag, delete_tag,
    insert_tag, Sto.user0_bit]

/-- The delete item carries no insert tag. -/
theorem has_insert_deleteItem (p v : Nat) (nh : Option Nat) :
    has_insert (deleteItem p v nh) = false := by
  simp [has_insert, has_delete, has_dirty, dirtyItem, deleteItem, dirty_tag, delete_tag,
    insert_tag, Sto.user0_bit]

/-- The delete item carries the delete tag. -/
theorem has_delete_deleteItem (p v : Nat) (nh : Option Nat) :
    has_delete (deleteItem p v nh) = true := by
  simp [has_insert, has_delete, has_dirty, dirtyItem, deleteItem, dirty_tag, delete_tag,
    insert_tag, Sto.user0_bit]

/-- The pop item carries no insert tag. -/
theorem has_insert_popItem : has_insert popItem = false := by decide

/-- The pop item carries no delete tag. -/
theorem has_delete_popItem : has_delete popItem = false := by decide

/-- `cleanup` of an aborted pop's bookkeeping items (the dirty-tagged item of
the new head, the pop-sequence item) does nothing. -/
theorem cleanup_untagged (T : TransactionTid) (me : Int) (s : State) (it : TransItem)
    (c : Bool) (h1 : has_insert it = false) (h2 : has_delete it = false) :
    cleanup T me s it c = .ok s := by
  unfold cleanup
  cases c <;> simp [h1, h2]

/-- The re-insertion of a copy by `cleanup`: `versioned_value::make` followed
by `add`, on a settled, unlocked prefix of allocated values that is ordered
except possibly at its last index. -/
theorem readd_spec (T : TransactionTid) (me : Int) (s1 : State) (m : Int) (v : Int)
    (hsz : s1.size_ = m) (hm0 : 0 ≤ m) (hcap : m ≤ s1.heap_size)
    (hset : Settled s1 m) (hfree : NodesFree T s1 m) (hhl : is_locked T s1.heaplock_ = false)
    (halm : AlmostHeap (pay s1) m)
    (halloc : ∀ i : Int, 0 ≤ i → i < m → (s1.heap_ i).val < s1.mem_next)
    (hdirty : ∀ i : Int, 0 ≤ i → i < m → is_dirty T (version s1 (s1.heap_ i).val) = true →
      ∃ it, Sto.find s1.txn ((s1.heap_ i).val : Int) = some it ∧ has_dirty it = true) :
    ∃ s', add T me (make s1 v T.increment_value).2 (make s1 v T.increment_value).1 = .ok s' ∧
      s'.size_ = m + 1 ∧ (livePayloads s').Perm (livePayloads s1 ++ [v]) ∧ v ≤ pay s' 0 ∧
      (∀ q, q < s1.mem_next → s'.mem q = s1.mem q) := by
  have hmemM : ∀ q, q ≠ s1.mem_next → (make s1 v T.increment_value).2.mem q = s1.mem q := by
    intro q hq
    simp [make, Function.update_noteq hq]
  have hnew : read_value (make s1 v T.increment_value).2 (make s1 v T.increment_value).1 = v := by
    simp [make, read_value]
  have hpayM : ∀ i : Int, 0 ≤ i → i < m → pay (make s1 v T.increment_value).2 i = pay s1 i := by
    intro i h0 h1
    have := halloc i h0 h1
    show ((make s1 v T.increment_value).2.mem (s1.heap_ i).val).value = _
    rw [hmemM _ (by omega)]
    rfl
  obtain ⟨s', hrun, hpost⟩ := add_spec T me (make s1 v T.increment_value).2 m
    (make s1 v T.increment_value).1 hsz hm0 hcap hset hfree hhl
    (by
      intro i hi0 hi1
      rw [hpayM i (by omega) (by omega), hpayM _ (by omega) (by omega)]
      exact halm i hi0 hi1)
    (by
      intro i h0 h1 hd
      have hq := halloc i h0 h1
      have hv : version (make s1 v T.increment_value).2 (s1.heap_ i).val
          = version s1 (s1.heap_ i).val := by
        show ((make s1 v T.increment_value).2.mem _).version = _
        rw [hmemM _ (by omega)]
        rfl
      have hd' : is_dirty T (version s1 (s1.heap_ i).val) = true := by
        rw [← hv]; exact hd
      exact hdirty i h0 h1 hd')
  refine ⟨s', hrun, hpost.size_, ?_, ?_, ?_⟩
  · have hl : livePayloads (make s1 v T.increment_value).2 = livePayloads s1 := by
      unfold livePayloads
      show (List.range s1.size_.toNat).map _ = _
      apply List.map_congr_left
      intro i hi
      rw [List.mem_range] at hi
      exact hpayM _ (by omega) (by omega)
    have := hpost.perm
    rw [hl, hnew] at this
    exact this
  · have := hpost.root_ge
    rw [hnew] at this
    exact this
  · intro q hq
    rw [hpost.mem]
    exact hmemM q (by omega)

/-- `undirty` on an unlocked version word returns and changes version words
only. -/
theorem undirty_spec (T : TransactionTid) (s : State) (nh : Nat)
    (h : is_locked T (version s nh) = false) :
    ∃ s', undirty T s nh = .ok s' ∧ s'.size_ = s.size_ ∧ pay s' = pay s := by
  rw [undirty, lockWord_of_free T _ h]
  refine ⟨_, rfl, rfl, ?_⟩
  exact pay_eq_of s _ rfl (fun q => by simp only [value_setVersion])

/-- After a `pop()` by a transaction without items on a committed queue, the
abort of the transaction returns and puts the popped payload back. -/
theorem abort_after_pop (T : TransactionTid) (me : Int) (s s1 : State) (n : Int)
    (new_head : Option Nat) (hT : dirty_bit T &&& T.lock_bit = 0) (hs : Committed T s)
    (hsz : s.size_ = n) (hn : 1 ≤ n) (hp : PopPost T n new_head s s1) :
    ∃ s2, abortTxn T me s1 = .ok s2 ∧ s2.size_ = n ∧
      (livePayloads s2).Perm (livePayloads s) ∧ pay s 0 ≤ pay s2 0 := by
  have hv0 : read_value s1 (s.heap_ 0).val = pay s 0 := hp.value _
  obtain ⟨s', hadd, hsz', hperm', hroot', hmem'⟩ := readd_spec T me s1 (n - 1) (pay s 0)
    hp.size_ (by omega) (by rw [hp.heap_size]; have := hs.size_le; omega)
    hp.settled hp.free hp.heaplock_ hp.almost
    (by
      intro i h0 h1
      obtain ⟨j, hj1, hjn, hj⟩ := hp.from_below i h0 h1
      rw [hj, hp.mem_next]
      exact hs.allocated j (by omega) (by omega))
    (by
      intro i h0 h1 hd
      obtain ⟨j, hj1, hjn, hj⟩ := hp.from_below i h0 h1
      by_cases hnh : new_head = some (s1.heap_ i).val
      · refine ⟨dirtyItem (s1.heap_ i).val, ?_, has_dirty_dirtyItem _⟩
        rw [hp.txn, hnh]
        simp [popItems, Sto.find, dirtyItem]
      · rw [hp.version_other _ hnh, hj] at hd
        rw [hs.not_dirty j (by omega) (by omega)] at hd
        exact absurd hd (by simp))
  have hperm : (livePayloads s').Perm (livePayloads s) := hperm'.trans hp.perm
  have hk : (((s.heap_ 0).val : Nat) : Int).toNat = (s.heap_ 0).val := Int.toNat_ofNat _
  have hclean : ∃ s'', cleanup T me s1
      (deleteItem (s.heap_ 0).val (version s (s.heap_ 0).val) new_head) false = .ok s'' ∧
      s''.size_ = n ∧ pay s'' = pay s' := by
    have e : (deleteItem (s.heap_ 0).val (version s (s.heap_ 0).val) new_head).key.toNat
        = (s.heap_ 0).val := hk
    unfold cleanup
    simp only [Bool.not_false, if_true, has_insert_deleteItem, has_delete_deleteItem,
      Bool.false_eq_true, if_false, e, hv0, hadd, Res.ok_bind]
    cases hnh : new_head with
    | none =>
      refine ⟨s', ?_, by omega, rfl⟩
      simp [write_value_ptr, deleteItem]
    | some nh =>
      obtain ⟨j, hj1, hjn, hj⟩ := hp.head_from nh hnh
      have hlt : nh < s1.mem_next := by
        rw [hj, hp.mem_next]; exact hs.allocated j (by omega) (by omega)
      have hfree : is_locked T (version s' nh) = false := by
        show is_locked T ((s'.mem nh).version) = false
        rw [hmem' nh hlt]
        show is_locked T (version s1 nh) = false
        rw [hp.version_head nh hnh]
        apply is_locked_mark_dirty T _ hT
        rw [hj]
        exact hs.val_unlocked j (by omega) (by omega)
      obtain ⟨s'', hrun, hsz'', hpay''⟩ := undirty_spec T s' nh hfree
      refine ⟨s'', ?_, by omega, hpay''⟩
      simp [write_value_ptr, deleteItem, hrun]
  obtain ⟨s'', hrun, hsz'', hpay''⟩ := hclean
  have hlive : livePayloads s'' = livePayloads s' :=
    livePayloads_eq_of _ _ (by omega) hpay''
  refine ⟨setTxn s'' [], ?_, hsz'', ?_, ?_⟩
  · unfold abortTxn
    rw [hp.txn]
    cases hnh : new_head with
    | none =>
      rw [hnh] at hrun
      simp only [popItems, List.nil_append, forEach, hrun, Res.ok_bind,
        cleanup_untagged T me _ popItem false has_insert_popItem has_delete_popItem]
    | some nh =>
      rw [hnh] at hrun
      simp only [popItems, List.cons_append, List.nil_append, forEach,
        cleanup_untagged T me _ (dirtyItem nh) false (has_insert_dirtyItem nh)
          (has_delete_dirtyItem nh), hrun, Res.ok_bind,
        cleanup_untagged T me _ popItem false has_insert_popItem has_delete_popItem]
  · show (livePayloads s'').Perm _
    rw [hlive]; exact hperm
  · show pay s 0 ≤ pay s'' 0
    rw [hpay'']; exact hroot'

end PriorityQueue

namespace PriorityQueue

/-- The live payloads are the payloads at the indexes of the live prefix. -/
theorem mem_livePayloads (s : State) (x : Int) :
    x ∈ livePayloads s ↔ ∃ i : Int, 0 ≤ i ∧ i < s.size_ ∧ pay s i = x := by
  unfold livePayloads
  rw [List.mem_map]
  constructor
  · rintro ⟨i, hi, rfl⟩
    rw [List.mem_range] at hi
    exact ⟨i, by omega, by omega, rfl⟩
  · rintro ⟨i, h0, h1, rfl⟩
    refine ⟨i.toNat, ?_, ?_⟩
    · rw [List.mem_range]; omega
    · have : ((i.toNat : Nat) : Int) = i := by omega
      rw [this]

/-- The sample queue is a committed queue. -/
theorem committed_sample : Committed TransactionTid.sample State.sample := by
  have hcase : ∀ i : Int, 0 ≤ i → i < State.sample.size_ → i = 0 ∨ i = 1 := by
    intro i h0 h1
    have : State.sample.size_ = 2 := rfl
    omega
  refine
    { size_nonneg := by decide
      size_le := by decide
      settled := ?_
      free := ?_
      heaplock_free := by decide
      poplock_free := by decide
      ordered := ?_
      allocated := ?_
      distinct := ?_
      val_unlocked := ?_
      not_inserted := ?_
      not_deleted := ?_
      not_dirty := ?_ }
  · intro i h0 h1
    rcases hcase i h0 h1 with h | h <;> subst h <;> rfl
  · intro i h0 h1
    rcases hcase i h0 h1 with h | h <;> subst h <;> decide
  · intro i h0 h1
    have : i = 1 := by
      have : State.sample.size_ = 2 := rfl
      omega
    subst this
    decide
  · intro i h0 h1
    rcases hcase i h0 h1 with h | h <;> subst h <;> decide
  · intro i j hi0 hi1 hj0 hj1 h
    rcases hcase i hi0 hi1 with hi | hi <;> rcases hcase j hj0 hj1 with hj | hj <;>
      subst hi <;> subst hj <;> first | rfl | exact absurd h (by decide)
  · intro i h0 h1
    rcases hcase i h0 h1 with h | h <;> subst h <;> decide
  · intro i h0 h1
    rcases hcase i h0 h1 with h | h <;> subst h <;> decide
  · intro i h0 h1
    rcases hcase i h0 h1 with h | h <;> subst h <;> decide
  · intro i h0 h1
    rcases hcase i h0 h1 with h | h <;> subst h <;> decide

/-- C7. Undo of a pop on abort: on a committed queue (a valid max-heap of
committed values, nothing locked), under a layout whose dirty bit is not the
lock bit, when a transaction without items calls `pop()` and then aborts
(`cleanup` with `committed = false` on each of its items), both calls return,
the live prefix has its size back, the multiset of its payloads equals the
multiset before the pop, and, when the queue was not empty, the root payload
is the one before the pop and is the maximum of the live payloads. -/
theorem pop_abort_restores (T : TransactionTid) (me : Int) (s : State)
    (hT : dirty_bit T &&& T.lock_bit = 0) (hs : Committed T s) (htxn : s.txn = []) :
    ∃ s1 s2, pop T s = .ok s1 ∧ abortTxn T me s1 = .ok s2 ∧
      s2.size_ = s.size_ ∧
      (↑(livePayloads s2) : Multiset Int) = ↑(livePayloads s) ∧
      (0 < s.size_ → pay s2 0 = pay s 0 ∧ ∀ x ∈ livePayloads s2, x ≤ pay s2 0) := by
  by_cases hz : s.size_ = 0
  · refine ⟨s, setTxn s [], ?_, ?_, rfl, rfl, ?_⟩
    · rw [pop, if_pos hz]
    · simp [abortTxn, htxn, forEach]
    · intro h; omega
  · have hn : 1 ≤ s.size_ := by have := hs.size_nonneg; omega
    obtain ⟨s1, new_head, hpop, hpost⟩ := pop_spec T s s.size_ hs rfl hn htxn
    obtain ⟨s2, habort, hsz2, hperm, hroot⟩ :=
      abort_after_pop T me s s1 s.size_ new_head hT hs rfl hn hpost
    have hmax : ∀ x ∈ livePayloads s2, x ≤ pay s 0 := by
      intro x hx
      have hx' : x ∈ livePayloads s := hperm.mem_iff.mp hx
      obtain ⟨i, h0, h1, rfl⟩ := (mem_livePayloads s x).mp hx'
      exact root_ge_of_heapOrdered (pay s) s.size_ hs.ordered i h0 h1
    have hin : pay s2 0 ∈ livePayloads s2 :=
      (mem_livePayloads s2 _).mpr ⟨0, le_rfl, by omega, rfl⟩
    have heq : pay s2 0 = pay s 0 := le_antisymm (hmax _ hin) hroot
    refine ⟨s1, s2, hpop, habort, hsz2, Multiset.coe_eq_coe.mpr hperm, fun _ => ⟨heq, ?_⟩⟩
    intro x hx
    rw [heq]
    exact hmax x hx

/-- C7 on the sample queue holding 5 and 3. -/
theorem pop_abort_restores_witness :
    ∃ s1 s2, pop TransactionTid.sample State.sample = .ok s1 ∧
      abortTxn TransactionTid.sample 0 s1 = .ok s2 ∧
      s2.size_ = State.sample.size_ ∧
      (↑(livePayloads s2) : Multiset Int) = ↑(livePayloads State.sample) ∧
      (0 < State.sample.size_ →
        pay s2 0 = pay State.sample 0 ∧ ∀ x ∈ livePayloads s2, x ≤ pay s2 0) :=
  pop_abort_restores TransactionTid.sample 0 State.sample (by decide) committed_sample rfl

end PriorityQueue

/-! ### PriorityQueue: runs that leave the specified behaviour -/

namespace PriorityQueue

/-- C1, failing run. Pushes of 5, 4 and 3, each committed, into the empty
queue, followed by three committed pops: the pops remove 5, then 3, then 4.
After the first pop the live prefix is `[3, 4]`: the sift-down loop of
`removeMax` never compares a node with a left child that is the last live
node. -/
theorem pops_leave_heap_order :
    (runCommitted TransactionTid.sample 0
        [.push 5, .push 4, .push 3, .pop, .pop, .pop] State.init).val?.map Prod.fst
      = some [5, 3, 4] ∧
    (runCommitted TransactionTid.sample 0
        [.push 5, .push 4, .push 3, .pop] State.init).val?.map (fun r => livePayloads r.2)
      = some [3, 4] := by
  decide!

/-- On queues of committed values a push followed by a pop in the same
transaction returns and records a value at least as large as the pushed one:
the pushed 7 on the empty queue, the resident 5 after a push of 4 onto the
sample queue, the pushed 9 after a push of 9 onto it. -/
theorem push_pop_on_committed_samples :
    ((push TransactionTid.sample 0 State.init 7).bind
        (pop TransactionTid.sample)).val?.map poppedPayloads = some [7] ∧
    ((push TransactionTid.sample 0 State.sample 4).bind
        (pop TransactionTid.sample)).val?.map poppedPayloads = some [5] ∧
    ((push TransactionTid.sample 0 State.sample 9).bind
        (pop TransactionTid.sample)).val?.map poppedPayloads = some [9] := by
  decide!

/-- C5, failing run. A first transaction pushes 7 and aborts, which leaves the
value in the heap marked deleted (one settled node, nothing locked, no items).
A second transaction then pushes 8 and pops: `removeMax` returns the pushed
value, and the loop of `getMax` removes the deleted root, finds the same root
again with `size_ = 0`, and `removeMax` indexes `heap_[-1]`: the pop ends in an
out-of-range access before it records anything. -/
theorem push_pop_over_deleted_faults :
    (((push TransactionTid.sample 0 State.init 7).bind
        (abortTxn TransactionTid.sample 0)).val?.map
      (fun s => (s.size_, (s.heap_ 0).status, is_locked TransactionTid.sample (s.heap_ 0).ver,
        is_deleted TransactionTid.sample (version s (s.heap_ 0).val), pay s 0, s.txn.length)))
      = some (1, Status.AVAILABLE, false, true, 7, 0) ∧
    (((push TransactionTid.sample 0 State.init 7).bind
        (abortTxn TransactionTid.sample 0)).bind fun s =>
      (push TransactionTid.sample 0 s 8).bind fun s => pop TransactionTid.sample s).isFault
      = true := by
  decide!

end PriorityQueue

/-! ### Item tracking -/

namespace Sto

/-- The item that `Sto::item(this, k)` gives has the key `k`. -/
theorem item_key {W : Type} (txn : List (TransItem W)) (k : Int) : (item txn k).key = k := by
  unfold item find
  cases h : txn.find? (fun it => decide (it.key = k)) with
  | none => rfl
  | some it =>
    have := List.find?_some h
    simpa using this

/-- After storing an item the transaction tracks it under its key. -/
theorem find_store_same {W : Type} (txn : List (TransItem W)) (it : TransItem W) :
    find (store txn it) it.key = some it := by
  induction txn with
  | nil => simp [store, find]
  | cons x xs ih =>
    unfold store
    by_cases hx : x.key = it.key
    · simp [hx, find]
    · simp only [hx, if_false]
      unfold find at ih ⊢
      rw [List.find?_cons]
      simp only [hx, decide_False]
      exact ih

/-- Storing an item leaves the items with other keys as they are. -/
theorem find_store_ne {W : Type} (txn : List (TransItem W)) (it : TransItem W) (k : Int)
    (h : it.key ≠ k) : find (store txn it) k = find txn k := by
  induction txn with
  | nil => simp [store, find, h]
  | cons x xs ih =>
    unfold store
    by_cases hx : x.key = it.key
    · have hxk : x.key ≠ k := by rw [hx]; exact h
      simp [hx, find, h, hxk]
    · simp only [hx, if_false]
      unfold find at ih ⊢
      rw [List.find?_cons, List.find?_cons, ih]

/-- Reading back the item that was just stored. -/
theorem item_store_same {W : Type} (txn : List (TransItem W)) (it : TransItem W) :
    item (store txn it) it.key = it := by
  unfold item
  rw [find_store_same]
  rfl

end Sto

/-! ### FCQueue: the pending pushes of a transaction -/

namespace FCQueue

/-- Setting the bits of `d` leaves the bits of `l` as they are when the two
are disjoint. -/
theorem or_and_keep (v d l : Nat) (hd : d &&& l = 0) : (v ||| d) &&& l = v &&& l := by
  apply Nat.eq_of_testBit_eq
  intro i
  have h2 := congrArg (fun x => x.testBit i) hd
  simp only [Nat.testBit_and, Nat.zero_testBit] at h2
  simp only [Nat.testBit_and, Nat.testBit_or]
  cases hvi : v.testBit i <;> cases hli : l.testBit i <;> cases hdi : d.testBit i <;>
    simp_all

/-- After `add_flags(list_bit)` the list flag is set. -/
theorem or_and_self_list (f : Nat) : (f ||| list_bit) &&& list_bit ≠ 0 := by
  have h : (f ||| list_bit) &&& list_bit = list_bit := by
    apply Nat.eq_of_testBit_eq
    intro i
    simp only [Nat.testBit_and, Nat.testBit_or]
    cases f.testBit i <;> cases list_bit.testBit i <;> rfl
  rw [h]
  decide

/-- After `add_flags(empty_bit)` the empty flag is set. -/
theorem or_and_self_empty (f : Nat) : (f ||| empty_bit) &&& empty_bit ≠ 0 := by
  have h : (f ||| empty_bit) &&& empty_bit = empty_bit := by
    apply Nat.eq_of_testBit_eq
    intro i
    simp only [Nat.testBit_and, Nat.testBit_or]
    cases f.testBit i <;> cases empty_bit.testBit i <;> rfl
  rw [h]
  decide

/-- A recorded write is a pending write. -/
@[simp]
theorem fc_has_write_add_write (it : TransItem) (w : WriteValue) :
    (it.add_write w).has_write = true := rfl

/-- Recording a write leaves the flags alone: the list flag. -/
@[simp]
theorem fc_is_list_add_write (it : TransItem) (w : WriteValue) :
    is_list (it.add_write w) = is_list it := rfl

/-- Recording a write leaves the flags alone: the empty flag. -/
@[simp]
theorem fc_is_empty_add_write (it : TransItem) (w : WriteValue) :
    is_empty (it.add_write w) = is_empty it := rfl

/-- Reading back a recorded list. -/
@[simp]
theorem fc_write_list_add_write (it : TransItem) (l : List Int) :
    write_list (it.add_write (.list l)) = l := rfl

/-- Reading back a recorded value. -/
@[simp]
theorem fc_write_value_add_write (it : TransItem) (v : Int) :
    write_value (it.add_write (.value v)) = v := rfl

/-- Recording a write leaves the recorded read alone. -/
@[simp]
theorem fc_rdata_add_write (it : TransItem) (w : WriteValue) :
    (it.add_write w).rdata = it.rdata := rfl

/-- After `add_flags(list_bit)` the item is a list item. -/
@[simp]
theorem fc_is_list_add_flags_list (it : TransItem) : is_list (it.add_flags list_bit) = true := by
  simp [is_list, Sto.TransItem.add_flags, or_and_self_list]

/-- After `add_flags(empty_bit)` the item is flagged empty. -/
@[simp]
theorem fc_is_empty_add_flags_empty (it : TransItem) :
    is_empty (it.add_flags empty_bit) = true := by
  simp [is_empty, Sto.TransItem.add_flags, or_and_self_empty]

/-- The empty flag does not touch the list flag. -/
@[simp]
theorem fc_is_list_add_flags_empty (it : TransItem) :
    is_list (it.add_flags empty_bit) = is_list it := by
  simp only [is_list, Sto.TransItem.add_flags]
  rw [or_and_keep _ _ _ (by decide)]

/-- Flags do not touch the pending write. -/
@[simp]
theorem fc_has_write_add_flags (it : TransItem) (f : Nat) :
    (it.add_flags f).has_write = it.has_write := rfl

/-- Flags do not touch the written value. -/
@[simp]
theorem fc_write_value_add_flags (it : TransItem) (f : Nat) :
    write_value (it.add_flags f) = write_value it := rfl

/-- Flags do not touch the written list. -/
@[simp]
theorem fc_write_list_add_flags (it : TransItem) (f : Nat) :
    write_list (it.add_flags f) = write_list it := rfl

/-- Flags do not touch the recorded read. -/
@[simp]
theorem fc_rdata_add_flags (it : TransItem) (f : Nat) : (it.add_flags f).rdata = it.rdata := rfl

/-- Recording a read leaves the pending write alone. -/
@[simp]
theorem fc_has_write_add_read (it : TransItem) (v : Nat) :
    (it.add_read v).has_write = it.has_write := by
  unfold Sto.TransItem.add_read
  split_ifs <;> rfl

/-- Recording a read leaves the list flag alone. -/
@[simp]
theorem fc_is_list_add_read (it : TransItem) (v : Nat) : is_list (it.add_read v) = is_list it := by
  unfold Sto.TransItem.add_read
  split_ifs <;> rfl

/-- Recording a read leaves the empty flag alone. -/
@[simp]
theorem fc_is_empty_add_read (it : TransItem) (v : Nat) :
    is_empty (it.add_read v) = is_empty it := by
  unfold Sto.TransItem.add_read
  split_ifs <;> rfl

/-- Recording a read leaves the written list alone. -/
@[simp]
theorem fc_write_list_add_read (it : TransItem) (v : Nat) :
    write_list (it.add_read v) = write_list it := by
  unfold Sto.TransItem.add_read
  split_ifs <;> rfl

/-- Recording a read leaves the written value alone. -/
@[simp]
theorem fc_write_value_add_read (it : TransItem) (v : Nat) :
    write_value (it.add_read v) = write_value it := by
  unfold Sto.TransItem.add_read
  split_ifs <;> rfl

/-- Recording a read leaves the key alone. -/
@[simp]
theorem fc_key_add_read (it : TransItem) (v : Nat) : (it.add_read v).key = it.key := by
  unfold Sto.TransItem.add_read
  split_ifs <;> rfl

/-- Recording a read leaves the pending pushes alone. -/
@[simp]
theorem pending_add_read (it : TransItem) (v : Nat) : pending (it.add_read v) = pending it := by
  simp [pending]

/-- What `push(v)` does to the push item of the transaction: the stored item
stands for the former pending pushes followed by `v`. -/
theorem push_item (txn : List TransItem) (v : Int)
    (hc : Clean (Sto.item txn (-1)) = true) :
    ∃ it : TransItem, push txn v = (true, Sto.store txn it) ∧ it.key = -1 ∧
      pending it = pending (Sto.item txn (-1)) ++ [v] ∧ it.has_write = true ∧
      it.rdata = (Sto.item txn (-1)).rdata := by
  have hk := Sto.item_key txn (-1)
  unfold push
  simp only []
  generalize Sto.item txn (-1) = it0 at hk hc ⊢
  by_cases hw : it0.has_write = true
  · by_cases hl : is_list it0 = true
    · refine ⟨it0.add_write (.list (write_list it0 ++ [v])), ?_, hk, ?_, rfl, rfl⟩
      · simp [hw, hl]
      · simp [pending, hw, hl]
    · simp only [Bool.not_eq_true] at hl
      by_cases he : is_empty it0 = true
      · refine ⟨((it0.clear_write).add_write (.list ([] ++ [v]))).add_flags list_bit, ?_, hk, ?_,
          rfl, rfl⟩
        · simp [hw, hl, he]
        · simp [pending, hw, hl, he]
      · simp only [Bool.not_eq_true] at he
        refine ⟨(((it0.clear_flags empty_bit).clear_write).add_write
          (.list ([write_value it0] ++ [v]))).add_flags list_bit, ?_, hk, ?_, rfl, rfl⟩
        · simp [hw, hl, he]
        · simp [pending, hw, hl, he]
  · simp only [Bool.not_eq_true] at hw
    have hc2 : is_list it0 = false ∧ is_empty it0 = false := by
      simpa [Clean, hw] using hc
    refine ⟨it0.add_write (.value v), ?_, hk, ?_, rfl, rfl⟩
    · simp [hw]
    · simp [pending, hw, hc2.1, hc2.2]

/-- The combiner's answer to `op_mark_deleted` on an empty container, in every
configuration: the container is left alone and the record says empty. -/
theorem combine_mark_deleted_nil (cfg : Config) (q : Queue) (pRec : fc_record) (h : q.q_ = []) :
    combine cfg .op_mark_deleted q pRec = (q, { pRec with is_empty := true }) := by
  unfold combine fc_apply
  cases hI : cfg.ITER <;> simp [h, markFirst]

/-- The read that `pop` records on the push item when it finds the queue
empty: the queue version, unless a read was recorded before. -/
theorem rdata_observe (it : TransItem) (ver : Nat) :
    (if (!it.has_read) = true then it.add_read ver else it).rdata = some (it.rdata.getD ver) := by
  unfold Sto.TransItem.add_read Sto.TransItem.has_read
  cases h : it.rdata <;> simp [h]

/-- What `pop` does when the shared container is empty: it succeeds exactly
when the push item stands for a pending push, consumes the oldest one, leaves
the out parameter and the queue alone, and the stored push item carries a read
of the queue version. -/
theorem pop_empty_item (cfg : Config) (tid : Int) (q : Queue) (txn : List TransItem) (val : Int)
    (h : q.q_ = []) :
    ∃ it : TransItem, pop cfg tid q txn val
        = (!(pending (Sto.item txn (-1))).isEmpty, val, q, Sto.store txn it) ∧ it.key = -1 ∧
      pending it = (pending (Sto.item txn (-1))).tail ∧
      it.has_write = (Sto.item txn (-1)).has_write ∧
      Clean it = Clean (Sto.item txn (-1)) ∧
      it.rdata = some ((Sto.item txn (-1)).rdata.getD q.queueversion_.value) := by
  have hk := Sto.item_key txn (-1)
  unfold pop
  simp only [combine_mark_deleted_nil cfg q _ h, Bool.not_true, Bool.false_eq_true, if_false]
  generalize Sto.item txn (-1) = it0 at hk ⊢
  have hrd := rdata_observe it0 q.queueversion_.value
  generalize hp : (if (!it0.has_read) = true then it0.add_read q.queueversion_.value else it0)
    = it1 at hrd ⊢
  have hk1 : it1.key = -1 := by rw [← hp]; split_ifs <;> simp [hk]
  have hw1 : it1.has_write = it0.has_write := by rw [← hp]; split_ifs <;> simp
  have hl1 : is_list it1 = is_list it0 := by rw [← hp]; split_ifs <;> simp
  have he1 : is_empty it1 = is_empty it0 := by rw [← hp]; split_ifs <;> simp
  have hwl1 : write_list it1 = write_list it0 := by rw [← hp]; split_ifs <;> simp
  have hwv1 : write_value it1 = write_value it0 := by rw [← hp]; split_ifs <;> simp
  by_cases hw : it0.has_write = true
  · by_cases hl : is_list it0 = true
    · cases hwl : write_list it0 with
      | nil =>
        refine ⟨it1, ?_, hk1, ?_, hw1, ?_, hrd⟩
        · simp [hw1, hl1, hwl1, hw, hl, hwl, pending]
        · simp [pending, hw1, hl1, hwl1, hw, hl, hwl]
        · simp [Clean, hw1, hw]
      | cons x rest =>
        refine ⟨it1.add_write (.list rest), ?_, hk1, ?_, ?_, ?_, hrd⟩
        · simp [hw1, hl1, hwl1, hw, hl, hwl, pending]
        · simp [pending, hl1, hw, hl, hwl]
        · simp [hw]
        · simp [Clean, hw]
    · simp only [Bool.not_eq_true] at hl
      by_cases he : is_empty it0 = true
      · refine ⟨it1, ?_, hk1, ?_, hw1, ?_, hrd⟩
        · simp [hw1, hl1, he1, hw, hl, he, pending]
        · simp [pending, hw1, hl1, he1, hw, hl, he]
        · simp [Clean, hw1, hw]
      · simp only [Bool.not_eq_true] at he
        refine ⟨it1.add_flags empty_bit, ?_, hk1, ?_, ?_, ?_, hrd⟩
        · simp [hw1, hl1, he1, hw, hl, he, pending]
        · simp [pending, hw1, hl1, hw, hl, he]
        · simp [hw1, hw]
        · simp [Clean, hw1, hw]
  · simp only [Bool.not_eq_true] at hw
    refine ⟨it1, ?_, hk1, ?_, hw1, ?_, hrd⟩
    · simp [hw1, hw, pending]
    · simp [pending, hw1, hw]
    · simp [Clean, hw1, hl1, he1]

/-- What `install` does for a push item with a pending write, in every
configuration: it appends the item's pending pushes, in order, to the back of
the shared container. -/
theorem install_pending_q (cfg : Config) (tid : Int) (ct : Nat) (q : Queue) (it : TransItem)
    (hk : it.key = -1) (hw : it.has_write = true) :
    (install cfg tid ct q it).1.q_ = q.q_ ++ (pending it).map pushed := by
  have hdec : ((cfg.INSTALL || cfg.ITER) && decide (it.key = 0)) = false := by
    rw [hk]; simp
  unfold install
  simp only [hdec, Bool.false_eq_true, if_false]
  simp only [hk, if_true]
  by_cases hl : is_list it = true
  · simp only [hl, if_true]
    split_ifs <;> simp [installList_q, pending, hw, hl]
  · simp only [Bool.not_eq_true] at hl
    by_cases he : is_empty it = true
    · simp only [hl, he, Bool.false_eq_true, if_false, Bool.not_true]
      split_ifs <;> simp [pending, hw, hl, he]
    · simp only [Bool.not_eq_true] at he
      simp only [hl, he, Bool.false_eq_true, if_false, Bool.not_false, if_true]
      split_ifs <;> simp [pending, hw, hl, he, combine, fc_apply, pushed]

/-- The operations of one transaction on an empty shared container follow the
pending-push list of the specification: the pops have the specified results,
the queue is left alone, and the push item stands for the specified list. -/
theorem runOps_spec (cfg : Config) (tid : Int) (ops : List TxOp) :
    ∀ (q : Queue) (txn : List TransItem) (val : Int), q.q_ = [] →
      Clean (Sto.item txn (-1)) = true →
      (runOps cfg tid ops q txn val).1 = (specOps ops (pending (Sto.item txn (-1)))).1 ∧
      (runOps cfg tid ops q txn val).2.1 = q ∧
      pending (Sto.item (runOps cfg tid ops q txn val).2.2 (-1))
        = (specOps ops (pending (Sto.item txn (-1)))).2 := by
  induction ops with
  | nil => intro q txn val _ _; exact ⟨rfl, rfl, rfl⟩
  | cons op ops ih =>
    intro q txn val hq hc
    cases op with
    | push v =>
      obtain ⟨it, hpush, hk, hpend, hw, -⟩ := push_item txn v hc
      have hit : Sto.item (push txn v).2 (-1) = it := by
        rw [hpush, ← hk]; exact Sto.item_store_same txn it
      have hc2 : Clean (Sto.item (push txn v).2 (-1)) = true := by
        rw [hit]; simp [Clean, hw]
      have := ih q (push txn v).2 val hq hc2
      rw [hit, hpend] at this
      simpa [runOps, specOps] using this
    | pop =>
      obtain ⟨it, hpop, hk, hpend, -, hcl, -⟩ := pop_empty_item cfg tid q txn val hq
      have hit : Sto.item (Sto.store txn it) (-1) = it := by
        rw [← hk]; exact Sto.item_store_same txn it
      have hc2 : Clean (Sto.item (Sto.store txn it) (-1)) = true := by
        rw [hit, hcl]; exact hc
      have := ih q (Sto.store txn it) val hq hc2
      rw [hit, hpend] at this
      simp only [runOps, hpop]
      cases hp : pending (Sto.item txn (-1)) with
      | nil =>
        rw [hp] at this
        simpa [specOps] using this
      | cons x rest =>
        rw [hp] at this
        simpa [specOps] using this

/-- C13, failing run. On the empty queue a transaction pushes 5 and calls
`pop(val)` with `val = 0`: the call returns true and consumes the pending
push, and the out parameter is still 0, not 5; the same with two pending
pushes kept as a list. -/
theorem pop_own_push_leaves_out_param :
    (pop Config.asBuilt 1 Queue.init (push [] 5).2 0).1 = true ∧
    (pop Config.asBuilt 1 Queue.init (push [] 5).2 0).2.1 = 0 ∧
    pending (Sto.item (push [] 5).2 (-1)) = [5] ∧
    pending (Sto.item (pop Config.asBuilt 1 Queue.init (push [] 5).2 0).2.2.2 (-1)) = [] ∧
    (pop Config.asBuilt 1 Queue.init (pushAll [] [5, 6]) 0).1 = true ∧
    (pop Config.asBuilt 1 Queue.init (pushAll [] [5, 6]) 0).2.1 = 0 := by
  decide

/-- C14. Pending-push list: for every sequence of `push` and `pop` calls that
one transaction makes on a queue whose shared container is empty, in every
configuration, each pop succeeds exactly when the specified pending list is
not empty and consumes its oldest entry, the queue is left as it was, a push
item without a pending write stands for the empty list, and `install` of the
push item appends to the back of any shared container exactly the pushes that
were not consumed, in push order. -/
theorem pending_push_list (cfg : Config) (tid : Int) (ct : Nat) (q : Queue) (hq : q.q_ = [])
    (ops : List TxOp) (val : Int) :
    (runOps cfg tid ops q [] val).1 = (specOps ops []).1 ∧
    (runOps cfg tid ops q [] val).2.1 = q ∧
    ((Sto.item (runOps cfg tid ops q [] val).2.2 (-1)).has_write = false →
      (specOps ops []).2 = []) ∧
    ((Sto.item (runOps cfg tid ops q [] val).2.2 (-1)).has_write = true →
      ∀ q1 : Queue,
        (install cfg tid ct q1 (Sto.item (runOps cfg tid ops q [] val).2.2 (-1))).1.q_
          = q1.q_ ++ ((specOps ops []).2).map pushed) := by
  obtain ⟨h1, h2, h3⟩ := runOps_spec cfg tid ops q [] val hq (by decide)
  have h0 : pending (Sto.item ([] : List TransItem) (-1)) = [] := by decide
  rw [h0] at h1 h3
  refine ⟨h1, h2, ?_, ?_⟩
  · intro hw
    rw [← h3]
    simp [pending, hw]
  · intro hw q1
    rw [install_pending_q cfg tid ct q1 _ (Sto.item_key _ _) hw, h3]

/-- C14 on the calls push 1, pop, push 2, push 3, pop, pop, pop, push 4,
push 5: the pops give true, true, true, false and `install` appends 4, 5. -/
theorem pending_push_list_witness :
    (runOps Config.asBuilt 1 [.push 1, .pop, .push 2, .push 3, .pop, .pop, .pop, .push 4, .push 5]
        Queue.init [] 0).1 = [true, true, true, false] ∧
    (install Config.asBuilt 1 9 Queue.init
        (Sto.item (runOps Config.asBuilt 1
          [.push 1, .pop, .push 2, .push 3, .pop, .pop, .pop, .push 4, .push 5]
          Queue.init [] 0).2.2 (-1))).1.q_ = [pushed 4, pushed 5] :=
  have h := pending_push_list Config.asBuilt 1 9 Queue.init rfl
    [.push 1, .pop, .push 2, .push 3, .pop, .pop, .pop, .push 4, .push 5] 0
  ⟨h.1, h.2.2.2 (by decide) Queue.init⟩

/-- C15. Pop from a non-empty shared container, as built: `pop` returns true,
sets the out parameter to the value of the front element, removes exactly the
front element, and stores a write on the item with key 0; the push item of the
transaction is as it was. -/
theorem pop_nonempty (q : Queue) (front : val_wrapper) (rest : List val_wrapper) (tid : Int)
    (txn : List TransItem) (val : Int) (h : q.q_ = front :: rest) :
    pop Config.asBuilt tid q txn val
      = (true, front.val, { q with q_ := rest },
          Sto.store txn ((Sto.item txn 0).add_write .zero)) ∧
    (Sto.item (pop Config.asBuilt tid q txn val).2.2.2 0).has_write = true ∧
    Sto.find (pop Config.asBuilt tid q txn val).2.2.2 (-1) = Sto.find txn (-1) := by
  have hp : pop Config.asBuilt tid q txn val
      = (true, front.val, { q with q_ := rest },
          Sto.store txn ((Sto.item txn 0).add_write .zero)) := by
    simp [pop, combine, fc_apply, Config.asBuilt, h]
  have hk : ((Sto.item txn 0).add_write WriteValue.zero).key = 0 := Sto.item_key txn 0
  refine ⟨hp, ?_, ?_⟩
  · rw [hp]
    have := Sto.item_store_same txn ((Sto.item txn 0).add_write .zero)
    rw [hk] at this
    simp only [this]
    rfl
  · rw [hp]
    exact Sto.find_store_ne txn _ (-1) (by rw [hk]; decide)

/-- C15 on the container 10, 20, 30 and a transaction that pushed 7 before. -/
theorem pop_nonempty_witness :
    pop Config.asBuilt 1 { Queue.init with q_ := [pushed 10, pushed 20, pushed 30] }
        (push [] 7).2 0
      = (true, 10, { Queue.init with q_ := [pushed 20, pushed 30] },
          Sto.store (push [] 7).2 ((Sto.item (push [] 7).2 0).add_write .zero)) ∧
    Sto.find (pop Config.asBuilt 1 { Queue.init with q_ := [pushed 10, pushed 20, pushed 30] }
        (push [] 7).2 0).2.2.2 (-1) = Sto.find (push [] 7).2 (-1) :=
  have h := pop_nonempty { Queue.init with q_ := [pushed 10, pushed 20, pushed 30] }
    (pushed 10) [pushed 20, pushed 30] 1 (push [] 7).2 0 rfl
  ⟨h.1, h.2.2⟩

/-- C16. Pop on empty: when the shared container is empty and the push item
stands for no pending push, in every configuration, `pop` returns false and
leaves the queue and the out parameter as they were; afterwards the push item
carries a read, the one recorded before or else the queue version, and a read
recorded by this pop passes `check` against the unchanged queue. -/
theorem pop_empty_fails (cfg : Config) (tid : Int) (q : Queue) (txn : List TransItem)
    (val : Int) (h : q.q_ = []) (hp : pending (Sto.item txn (-1)) = []) :
    (pop cfg tid q txn val).1 = false ∧
    (pop cfg tid q txn val).2.2.1 = q ∧
    (pop cfg tid q txn val).2.1 = val ∧
    (Sto.item (pop cfg tid q txn val).2.2.2 (-1)).rdata
      = some ((Sto.item txn (-1)).rdata.getD q.queueversion_.value) ∧
    ((Sto.item txn (-1)).has_read = false →
      check q (Sto.item (pop cfg tid q txn val).2.2.2 (-1)) = true) := by
  obtain ⟨it, hpop, hk, -, -, -, hrd⟩ := pop_empty_item cfg tid q txn val h
  have hit : Sto.item (Sto.store txn it) (-1) = it := by
    rw [← hk]; exact Sto.item_store_same txn it
  rw [hpop]
  simp only [hp, List.isEmpty_nil, Bool.not_true, hit, hrd, true_and]
  intro hr
  have hnone : (Sto.item txn (-1)).rdata = none := by
    simpa [Sto.TransItem.has_read] using hr
  simp [check, hk, hrd, hnone]

/-- C16 on the fresh queue and a transaction without items, and on a
transaction whose single push was consumed before. -/
theorem pop_empty_fails_witness :
    (pop Config.asBuilt 1 Queue.init [] 0).1 = false ∧
    (Sto.item (pop Config.asBuilt 1 Queue.init [] 0).2.2.2 (-1)).rdata = some 0 ∧
    (pop Config.asBuilt 1 Queue.init
      (pop Config.asBuilt 1 Queue.init (push [] 5).2 0).2.2.2 0).1 = false :=
  ⟨(pop_empty_fails Config.asBuilt 1 Queue.init [] 0 rfl (by decide)).1,
   (pop_empty_fails Config.asBuilt 1 Queue.init [] 0 rfl (by decide)).2.2.2.1,
   (pop_empty_fails Config.asBuilt 1 Queue.init
      (pop Config.asBuilt 1 Queue.init (push [] 5).2 0).2.2.2 0 rfl (by decide)).1⟩

/-- C17. Push frame: `push(v)` returns true; the push item of the transaction
afterwards stands for the former pending pushes followed by `v` and keeps its
recorded read, the items with other keys are as they were, and the queue (the
shared container and the queue version) is not touched. -/
theorem push_frame (cfg : Config) (tid : Int) (q : Queue) (txn : List TransItem) (v val : Int)
    (hc : Clean (Sto.item txn (-1)) = true) :
    (push txn v).1 = true ∧
    pending (Sto.item (push txn v).2 (-1)) = pending (Sto.item txn (-1)) ++ [v] ∧
    (Sto.item (push txn v).2 (-1)).rdata = (Sto.item txn (-1)).rdata ∧
    (∀ k : Int, k ≠ -1 → Sto.find (push txn v).2 k = Sto.find txn k) ∧
    (runOps cfg tid [.push v] q txn val).2.1 = q := by
  obtain ⟨it, hpush, hk, hpend, -, hrd⟩ := push_item txn v hc
  have hit : Sto.item (Sto.store txn it) (-1) = it := by
    rw [← hk]; exact Sto.item_store_same txn it
  rw [hpush]
  refine ⟨rfl, ?_, ?_, ?_, rfl⟩
  · simp only [hit, hpend]
  · simp only [hit, hrd]
  · intro k hkne
    exact Sto.find_store_ne txn it k (by rw [hk]; exact fun h => hkne h.symm)

/-- C17 on a transaction that pushed 1 and 2 before and now pushes 3. -/
theorem push_frame_witness :
    pending (Sto.item (push (pushAll [] [1, 2]) 3).2 (-1)) = [1, 2] ++ [3] :=
  have h := push_frame Config.asBuilt 1 Queue.init (pushAll [] [1, 2]) 3 0 (by decide)
  h.2.1.trans (by decide)

end FCQueue

/-! ### PriorityQueue: `removeMax` with an expected value, `getMax` on an inserted root, `check` -/

namespace PriorityQueue

/-- After `Sto::item(this, k)` the item tracked under `k` is the one the call
gave. -/
theorem item_touch (s : State) (k : Int) :
    Sto.item (touch s k).txn k = Sto.item s.txn k := by
  have h := Sto.item_store_same s.txn (Sto.item s.txn k)
  rw [Sto.item_key] at h
  exact h

/-- C18, failing runs. On the sample heap (values at addresses 0 and 1, root
value at address 0) `removeMax` called with the expected value at address 1
returns `NULL`, and `size_` has gone from 2 to 1 and the lock words of the
nodes 0 and 1 are left locked.  On the one-node heap left by a committed push
of 7 (root value at address 0) `removeMax` called with the expected value at
address 99 returns the root value, not `NULL`, and `size_` has gone to 0. -/
theorem removeMax_stale_expected :
    State.sample.size_ = 2 ∧ (State.sample.heap_ 0).val = 0 ∧
    (removeMax TransactionTid.sample State.sample (some 1)).val?.map
        (fun r => (r.1, r.2.size_,
          is_locked TransactionTid.sample (r.2.heap_ 0).ver,
          is_locked TransactionTid.sample (r.2.heap_ 1).ver))
      = some (none, 1, true, true) ∧
    (runCommitted TransactionTid.sample 0 [.push 7] State.init).val?.map
        (fun r => (r.2.size_, (r.2.heap_ 0).val)) = some (1, 0) ∧
    ((runCommitted TransactionTid.sample 0 [.push 7] State.init).bind fun r =>
        removeMax TransactionTid.sample r.2 (some 99)).val?.map (fun r => (r.1, r.2.size_))
      = some (some 0, 0) := by
  decide!

/-- C19. `getMax` on an inserted root: on a non-empty heap whose root value
carries the inserted bit, `getMax` returns the root value when the running
transaction holds an insert-tagged item for it, and otherwise ends in
`Sto::abort()` with the pop lock released; in both cases the only change to
the state is that the transaction tracks an item for the root value (and the
pop lock word in the abort case): the heap, its size and the values are as
they were. -/
theorem getMax_inserted_root (T : TransactionTid) (s : State) (h1 : 1 ≤ s.size_)
    (hcap : s.size_ ≤ s.heap_size)
    (hins : is_inserted T (version s (s.heap_ 0).val) = true) :
    (has_insert (Sto.item s.txn ((s.heap_ 0).val : Int)) = true →
      getMax T s = .ok (some (s.heap_ 0).val, touch s ((s.heap_ 0).val : Int))) ∧
    (has_insert (Sto.item s.txn ((s.heap_ 0).val : Int)) = false →
      getMax T s
        = .abort (setPoplock (touch s ((s.heap_ 0).val : Int)) (unlockWord T s.poplock_))) ∧
    is_locked T
      (setPoplock (touch s ((s.heap_ 0).val : Int)) (unlockWord T s.poplock_)).poplock_ = false ∧
    (touch s ((s.heap_ 0).val : Int)).heap_ = s.heap_ ∧
    (touch s ((s.heap_ 0).val : Int)).size_ = s.size_ ∧
    (touch s ((s.heap_ 0).val : Int)).heap_size = s.heap_size ∧
    (touch s ((s.heap_ 0).val : Int)).mem = s.mem ∧
    (setPoplock (touch s ((s.heap_ 0).val : Int)) (unlockWord T s.poplock_)).heap_ = s.heap_ ∧
    (setPoplock (touch s ((s.heap_ 0).val : Int)) (unlockWord T s.poplock_)).size_ = s.size_ ∧
    (setPoplock (touch s ((s.heap_ 0).val : Int)) (unlockWord T s.poplock_)).mem = s.mem := by
  have hb : inBounds s 0 = true := by simp [inBounds]; omega
  have hvt : version (touch s ((s.heap_ 0).val : Int)) (s.heap_ 0).val
      = version s (s.heap_ 0).val := rfl
  have hit := item_touch s ((s.heap_ 0).val : Int)
  have hpl : (touch s ((s.heap_ 0).val : Int)).poplock_ = s.poplock_ := rfl
  refine ⟨?_, ?_, is_locked_unlockWord T _, rfl, rfl, rfl, rfl, rfl, rfl, rfl⟩
  · intro hown
    rw [getMax, if_neg (by omega)]
    show getMaxLoop T ((s.size_.toNat + 1) + 1) s = _
    rw [getMaxLoop, if_pos hb]
    simp only [hvt, hins, hit, hown, if_true]
  · intro hown
    rw [getMax, if_neg (by omega)]
    show getMaxLoop T ((s.size_.toNat + 1) + 1) s = _
    rw [getMaxLoop, if_pos hb]
    simp only [hvt, hins, hit, hown, hpl, if_true, Bool.false_eq_true, if_false]

/-- C19 on the queue of a transaction that pushed 7: the transaction itself
gets the value at address 0 back, and a transaction without items ends in an
abort. -/
theorem getMax_inserted_root_witness :
    getMax TransactionTid.sample State.inserted = .ok (some 0, touch State.inserted 0) ∧
    getMax TransactionTid.sample (setTxn State.inserted [])
      = .abort (setPoplock (touch (setTxn State.inserted []) 0)
          (unlockWord TransactionTid.sample 1)) :=
  ⟨(getMax_inserted_root TransactionTid.sample State.inserted (by decide) (by decide)
      (by decide)).1 (by decide),
   (getMax_inserted_root TransactionTid.sample (setTxn State.inserted []) (by decide)
      (by decide) (by decide)).2.1 (by decide)⟩

/-- The bits of `b`, set in a word that had none of them, are the difference
to that word. -/
theorem or_xor_self_of_disjoint (v b : Nat) (h : v &&& b = 0) : (v ||| b) ^^^ v = b := by
  apply Nat.eq_of_testBit_eq
  intro i
  have h1 := congrArg (fun x => x.testBit i) h
  simp only [Nat.testBit_and, Nat.zero_testBit] at h1
  simp only [Nat.testBit_or, Nat.testBit_xor]
  cases hvi : v.testBit i <;> cases hbi : b.testBit i <;> simp_all

/-- In every layout with a non-zero first user bit, `check` on an element item
returns true although the recorded read version carries the inserted bit and
the element's current version does not: the difference `insert_bit` is below
`dirty_bit + lock_bit`. -/
theorem check_passes_inserted_mismatch (T : TransactionTid) (s : State) (e v : Nat)
    (has_lock : Bool) (hT : T.user_bit1 ≠ 0) (hv : v &&& insert_bit T = 0)
    (hl : is_locked T v = false) (hd : is_dirty T v = false) :
    check T (setVersion s e v)
        { key := (e : Int), flags := 0, rdata := some (v ||| insert_bit T), wdata := none }
        has_lock = true ∧
    is_inserted T (v ||| insert_bit T) = true ∧ is_inserted T v = false := by
  have hk : ¬ ((e : Int) = pop_key) := by unfold pop_key; omega
  have hver : version (setVersion s e v) e = v := version_setVersion_same s e v
  have hx := or_xor_self_of_disjoint v (insert_bit T) hv
  have hle : insert_bit T ≤ dirty_bit T + T.lock_bit := by
    unfold insert_bit dirty_bit
    rw [Nat.shiftLeft_eq]
    omega
  refine ⟨?_, ?_, ?_⟩
  · unfold check
    simp only [hk, if_false, Int.toNat_ofNat, Option.getD_some, hver, hx, hl, hd]
    simp [hle]
  · have : (v ||| insert_bit T) &&& insert_bit T = insert_bit T := or_and_self v _
    simp only [is_inserted, this]
    simpa [insert_bit] using hT
  · simp [is_inserted, hv]

/-- What a true answer of `check` on an element item does give: the recorded
read version and the current version differ by at most `dirty_bit + lock_bit`
as numbers, and the element is unlocked or locked by the committing
transaction. -/
theorem check_true_elim (T : TransactionTid) (s : State) (item : TransItem) (has_lock : Bool)
    (hk : item.key ≠ pop_key) (h : check T s item has_lock = true) :
    (item.rdata.getD 0 ^^^ version s item.key.toNat) ≤ dirty_bit T + T.lock_bit ∧
    (is_locked T (version s item.key.toNat) = false ∨ has_lock = true) := by
  unfold check at h
  simp only [hk, if_false, Bool.and_eq_true, decide_eq_true_eq, Bool.or_eq_true,
    Bool.not_eq_true'] at h
  exact ⟨h.1.1, h.1.2⟩

/-- C20, failing inputs. Under the sample layout (lock bit 1, inserted bit 4,
deleted bit 8, dirty bit 16) `check` returns true on an unlocked element whose
current version is 32 for an item whose recorded read version is 36 (inserted
bit set) and for one whose recorded read version is 40 (deleted bit set): the
versions differ in a bit other than the dirty bit and the lock bit. -/
theorem check_ignores_inserted_deleted :
    check TransactionTid.sample (setVersion State.init 5 32)
        { key := 5, flags := 0, rdata := some 36, wdata := none } false = true ∧
    is_inserted TransactionTid.sample 36 = true ∧
    is_inserted TransactionTid.sample 32 = false ∧
    check TransactionTid.sample (setVersion State.init 5 32)
        { key := 5, flags := 0, rdata := some 40, wdata := none } false = true ∧
    is_deleted TransactionTid.sample 40 = true ∧
    is_deleted TransactionTid.sample 32 = false ∧
    is_locked TransactionTid.sample 32 = false := by
  decide

end PriorityQueue

/-! ### ContentionManager: priorities against an owner -/

namespace ContentionManager

/-- C25. Owner already lost: when the caller's slot is not flagged aborted and
holds an assigned timestamp, and the timestamp of the lock's owner is strictly
smaller, `should_abort` returns true exactly when the owner's aborted flag is
0 (so false when the owner is flagged aborted), leaves `aborted_by_others` as
passed, and changes nothing in the state. -/
theorem should_abort_owner_older (mask : Nat) (s : State) (tid wlock : Nat) (abo : Bool)
    (hab : s.aborted (tid * 4) ≠ 1) (hts : s.timestamp (tid * 4) ≠ MAX_TS)
    (hlt : s.timestamp ((wlock &&& mask) * 4) < s.timestamp (tid * 4)) :
    (should_abort mask s tid wlock abo).1 = decide (s.aborted ((wlock &&& mask) * 4) = 0) ∧
    (s.aborted ((wlock &&& mask) * 4) = 1 → (should_abort mask s tid wlock abo).1 = false) ∧
    (should_abort mask s tid wlock abo).2.1 = abo ∧
    (should_abort mask s tid wlock abo).2.2 = s := by
  unfold should_abort
  simp only [hab, hts, hlt, if_true, if_false]
  by_cases ho : s.aborted ((wlock &&& mask) * 4) = 0
  · simp [ho]
  · simp [ho]

/-- C25 on thread 2 (timestamp 9) against a lock of thread 1 (timestamp 5):
true while thread 1 is not flagged aborted, false once it is. -/
theorem should_abort_owner_older_witness :
    (should_abort 31
      { State.init with
        timestamp := Function.update (Function.update State.init.timestamp 4 5) 8 9 }
      2 1 false).1 = true ∧
    (should_abort 31
      { State.init with
        timestamp := Function.update (Function.update State.init.timestamp 4 5) 8 9
        aborted := Function.update State.init.aborted 4 1 }
      2 1 false).1 = false :=
  ⟨(should_abort_owner_older 31
      { State.init with
        timestamp := Function.update (Function.update State.init.timestamp 4 5) 8 9 }
      2 1 false (by decide) (by decide) (by decide)).1.trans (by decide),
   (should_abort_owner_older 31
      { State.init with
        timestamp := Function.update (Function.update State.init.timestamp 4 5) 8 9
        aborted := Function.update State.init.aborted 4 1 }
      2 1 false (by decide) (by decide) (by decide)).2.1 (by decide)⟩

/-- Against a timid owner a caller that is not flagged aborted and holds a
timestamp below `MAX_TS` proceeds and flags the owner. -/
theorem should_abort_beats_timid_below (mask : Nat) (s : State) (tid wlock : Nat) (abo : Bool)
    (hab : s.aborted (tid * 4) ≠ 1) (hts : s.timestamp (tid * 4) < MAX_TS)
    (ho : s.timestamp ((wlock &&& mask) * 4) = MAX_TS) :
    (should_abort mask s tid wlock abo).1 = false ∧
    (should_abort mask s tid wlock abo).2.2.aborted ((wlock &&& mask) * 4) = 1 := by
  have h1 : s.timestamp (tid * 4) ≠ MAX_TS := by omega
  have h2 : ¬ s.timestamp ((wlock &&& mask) * 4) < s.timestamp (tid * 4) := by omega
  unfold should_abort
  simp only [hab, h1, h2, if_false]
  simp

/-- C26, failing inputs. The caller, thread 1, is not flagged aborted and
holds the timestamp 4294967296, a value of the 64-bit counter; the owner,
thread 2, is timid (timestamp `MAX_TS = UINT_MAX`): `should_abort` returns
true and leaves the owner's aborted flag clear, because `MAX_TS` compares
below the caller's timestamp.  With the counter value 4294967295 as the
caller's timestamp the caller itself counts as timid and the result is true
as well. -/
theorem should_abort_timid_owner_wins :
    (should_abort 31
        { State.init with
          timestamp := Function.update (Function.update State.init.timestamp 4 4294967296)
            8 MAX_TS }
        1 2 false).1 = true ∧
    (should_abort 31
        { State.init with
          timestamp := Function.update (Function.update State.init.timestamp 4 4294967296)
            8 MAX_TS }
        1 2 false).2.2.aborted 8 = 0 ∧
    (4294967296 : Nat) < U64 ∧
    (should_abort 31
        { State.init with
          timestamp := Function.update (Function.update State.init.timestamp 4 4294967295)
            8 MAX_TS }
        1 2 false).1 = true ∧
    (should_abort 31
        { State.init with
          timestamp := Function.update (Function.update State.init.timestamp 4 4294967295)
            8 MAX_TS }
        1 2 false).2.2.aborted 8 = 0 := by
  decide

/-- After a fresh start and `k ≤ 9` writes the slot is still timid, its
write-set size is `k`, and the counter and the other slots are as before the
start. -/
theorem writes_below_threshold (s : State) (tid : Nat) (k : Nat) (hk : k ≤ 9) :
    ((fun s => on_write s tid)^[k] (start s tid false)).write_set_size (tid * 4) = k ∧
    ((fun s => on_write s tid)^[k] (start s tid false)).timestamp (tid * 4) = MAX_TS ∧
    ((fun s => on_write s tid)^[k] (start s tid false)).ts = s.ts ∧
    ((fun s => on_write s tid)^[k] (start s tid false)).aborted (tid * 4) = 0 ∧
    (∀ i, i ≠ tid * 4 →
      ((fun s => on_write s tid)^[k] (start s tid false)).timestamp i = s.timestamp i ∧
      ((fun s => on_write s tid)^[k] (start s tid false)).aborted i = s.aborted i) := by
  induction k with
  | zero =>
    simp only [Function.iterate_zero, id_eq]
    refine ⟨by simp [start], by simp [start], rfl, by simp [start], ?_⟩
    intro i hi
    simp [start, Function.update_noteq hi]
  | succ k ih =>
    obtain ⟨h1, h2, h3, h4, h5⟩ := ih (by omega)
    rw [Function.iterate_succ_apply']
    generalize (fun s => on_write s tid)^[k] (start s tid false) = sk at h1 h2 h3 h4 h5
    have hmod : (k + 1) % U128 = k + 1 := Nat.mod_eq_of_lt (by unfold U128; omega)
    have hne : ¬ (k + 1 = TS_THRESHOLD) := by unfold TS_THRESHOLD; omega
    unfold on_write
    simp only [Function.update_same, h1, hmod, hne, and_false, if_false]
    refine ⟨trivial, h2, h3, h4, ?_⟩
    intro i hi
    exact h5 i hi

/-- The tenth write after a fresh start takes the counter value as the slot's
timestamp and advances the counter. -/
theorem tenth_write (s : State) (tid : Nat) :
    ((fun s => on_write s tid)^[10] (start s tid false)).timestamp (tid * 4) = s.ts ∧
    ((fun s => on_write s tid)^[10] (start s tid false)).ts = (s.ts + 1) % U64 ∧
    ((fun s => on_write s tid)^[10] (start s tid false)).aborted (tid * 4) = 0 ∧
    (∀ i, i ≠ tid * 4 →
      ((fun s => on_write s tid)^[10] (start s tid false)).timestamp i = s.timestamp i ∧
      ((fun s => on_write s tid)^[10] (start s tid false)).aborted i = s.aborted i) := by
  obtain ⟨h1, h2, h3, h4, h5⟩ := writes_below_threshold s tid 9 le_rfl
  rw [Function.iterate_succ_apply']
  generalize (fun s => on_write s tid)^[9] (start s tid false) = sk at h1 h2 h3 h4 h5
  have hmod : (9 + 1) % U128 = 10 := by unfold U128; norm_num
  unfold on_write
  simp only [Function.update_same, h1, h2, hmod, TS_THRESHOLD, and_self, if_true, h3]
  refine ⟨trivial, trivial, h4, ?_⟩
  intro i hi
  rw [Function.update_noteq hi]
  exact h5 i hi

/-- A fresh start followed by writes of the same thread keeps the state
reachable. -/
theorem writes_reachable (mask : Nat) (s : State) (h : Reachable mask s) (tid k : Nat) :
    Reachable mask ((fun s => on_write s tid)^[k] (start s tid false)) := by
  induction k with
  | zero => exact Reachable.start _ tid false h
  | succ k ih =>
    rw [Function.iterate_succ_apply']
    exact Reachable.on_write _ tid ih

/-- Every value of the 64-bit counter is reached. -/
theorem counter_reachable (mask : Nat) (n : Nat) (hn : n < U64) :
    ∃ s, Reachable mask s ∧ s.ts = n := by
  induction n with
  | zero => exact ⟨State.init, Reachable.init, rfl⟩
  | succ n ih =>
    obtain ⟨s, hr, hts⟩ := ih (by omega)
    refine ⟨_, writes_reachable mask s hr 0 10, ?_⟩
    rw [(tenth_write s 0).2.1, hts]
    exact Nat.mod_eq_of_lt hn

/-- The failing input of the timid-owner comparison is reachable: in some
state reached from the initial one by calls of the operations, thread 1 is not
flagged aborted and holds the timestamp 4294967296 assigned by `on_write`,
thread 2 is timid, and `should_abort` called by thread 1 against a lock of
thread 2 returns true and leaves the flag of thread 2 clear. -/
theorem timid_owner_wins_reachable :
    ∃ s, Reachable 31 s ∧ s.aborted (1 * 4) = 0 ∧ s.timestamp (1 * 4) = 4294967296 ∧
      s.timestamp (2 * 4) = MAX_TS ∧ s.aborted (2 * 4) = 0 ∧
      (should_abort 31 s 1 2 false).1 = true ∧
      (should_abort 31 s 1 2 false).2.2.aborted (2 * 4) = 0 := by
  obtain ⟨s0, hr0, hts0⟩ := counter_reachable 31 4294967296 (by unfold U64; norm_num)
  obtain ⟨h1, -, h3, h4⟩ := tenth_write s0 1
  have hr1 := writes_reachable 31 s0 hr0 1 10
  generalize (fun s => on_write s 1)^[10] (start s0 1 false) = s1 at h1 h3 h4 hr1
  have ha : (start s1 2 false).aborted (1 * 4) = 0 := by
    show Function.update s1.aborted (2 * 4) 0 (1 * 4) = 0
    rw [Function.update_noteq (by decide)]
    exact h3
  have ht1 : (start s1 2 false).timestamp (1 * 4) = 4294967296 := by
    show Function.update s1.timestamp (2 * 4) MAX_TS (1 * 4) = 4294967296
    rw [Function.update_noteq (by decide), h1, hts0]
  have ht2 : (start s1 2 false).timestamp (2 * 4) = MAX_TS := by
    show Function.update s1.timestamp (2 * 4) MAX_TS (2 * 4) = MAX_TS
    rw [Function.update_same]
  have ha2 : (start s1 2 false).aborted (2 * 4) = 0 := by
    show Function.update s1.aborted (2 * 4) 0 (2 * 4) = 0
    rw [Function.update_same]
  have hm : (2 &&& 31) * 4 = 2 * 4 := by decide
  have hne1 : ¬ ((0 : Nat) = 1) := by decide
  have hne2 : ¬ ((4294967296 : Nat) = MAX_TS) := by unfold MAX_TS; omega
  have hlt : MAX_TS < 4294967296 := by unfold MAX_TS; omega
  have hres : should_abort 31 (start s1 2 false) 1 2 false
      = (true, false, start s1 2 false) := by
    unfold should_abort
    simp only [ha, ht1, hm, ht2, ha2, hne1, hne2, hlt, if_true, if_false]
  refine ⟨start s1 2 false, Reachable.start s1 2 false hr1, ha, ht1, ht2, ha2, ?_, ?_⟩
  · rw [hres]
  · rw [hres]
    exact ha2

end ContentionManager

/-! ### Item tracking: recorded reads -/

namespace Sto

/-- Recording a read leaves the key alone. -/
theorem key_add_read {W : Type} (it : TransItem W) (v : Nat) : (it.add_read v).key = it.key := by
  unfold TransItem.add_read
  split_ifs <;> rfl

/-- After `add_read(v)` the item carries the read recorded before, or else
`v`. -/
theorem rdata_add_read {W : Type} (it : TransItem W) (v : Nat) :
    (it.add_read v).rdata = some (it.rdata.getD v) := by
  unfold TransItem.add_read TransItem.has_read
  cases h : it.rdata <;> simp [h]

/-- Storing an item leaves the items under other keys as `Sto::item` gives
them. -/
theorem item_store_ne {W : Type} (txn : List (TransItem W)) (it : TransItem W) (k : Int)
    (h : it.key ≠ k) : item (store txn it) k = item txn k := by
  unfold item
  rw [find_store_ne txn it k h]

/-- Storing the item that `Sto::item` gives leaves it as the item of its key. -/
theorem item_store_item {W : Type} (txn : List (TransItem W)) (k : Int) :
    item (store txn (item txn k)) k = item txn k := by
  have h := item_store_same txn (item txn k)
  rw [item_key] at h
  exact h

/-- Storing the item of `k` with a read recorded makes it the item of `k`. -/
theorem item_store_add_read {W : Type} (txn : List (TransItem W)) (k : Int) (v : Nat) :
    item (store txn ((item txn k).add_read v)) k = (item txn k).add_read v := by
  have h := item_store_same txn ((item txn k).add_read v)
  rw [key_add_read, item_key] at h
  exact h

end Sto

/-! ### PriorityQueue: `install`, `cleanup` of an insert, `top` -/

namespace PriorityQueue

/-- The version words after an assignment to the one at `p`. -/
theorem version_setVersion (s : State) (p q : Nat) (v : Nat) :
    version (setVersion s p v) q = if q = p then v else version s q := by
  by_cases h : q = p
  · subst h; rw [if_pos rfl]; exact version_setVersion_same s q v
  · rw [if_neg h]; exact version_setVersion_ne s p q v h

/-- Clearing the bits of `b` in `v` keeps exactly the bits of `v` outside
`b`. -/
theorem testBit_clear (v b : Nat) (i : Nat) :
    (v ^^^ (v &&& b)).testBit i = (v.testBit i && !b.testBit i) := by
  simp only [Nat.testBit_xor, Nat.testBit_and]
  cases v.testBit i <;> cases b.testBit i <;> rfl

/-- Clearing bits that are not set changes nothing. -/
theorem clear_of_and_eq_zero (v b : Nat) (h : v &&& b = 0) : v ^^^ (v &&& b) = v := by
  rw [h, Nat.xor_zero]

/-- The version word at `q` after the delete part of `install` run on the
state `s1`. -/
theorem version_install_delete (T : TransactionTid) (s1 : State) (item : TransItem) (q : Nat) :
    version
      (if has_delete item = true then
        match write_value_ptr item with
        | some new_head =>
          if is_dirty T (version s1 new_head) = true then
            setVersion s1 new_head (erase_dirty T (version s1 new_head))
          else s1
        | none => s1
      else s1) q
      = if has_delete item = true ∧ write_value_ptr item = some q then
          erase_dirty T (version s1 q)
        else version s1 q := by
  have hclean : ∀ v, is_dirty T v = false → erase_dirty T v = v := by
    intro v hv
    have : v &&& dirty_bit T = 0 := by simpa [is_dirty] using hv
    rw [erase_dirty, clear_of_and_eq_zero _ _ this]
  cases hd : has_delete item with
  | false => simp
  | true =>
    simp only [if_true, true_and]
    cases hw : write_value_ptr item with
    | none => simp
    | some nh =>
      simp only [Option.some.injEq]
      by_cases hq : nh = q
      · subst hq
        rw [if_pos rfl]
        by_cases hdirty : is_dirty T (version s1 nh) = true
        · rw [if_pos hdirty, version_setVersion_same]
        · rw [if_neg hdirty]
          simp only [Bool.not_eq_true] at hdirty
          rw [hclean _ hdirty]
      · rw [if_neg hq]
        by_cases hdirty : is_dirty T (version s1 nh) = true
        · rw [if_pos hdirty, version_setVersion_ne _ _ _ _ (fun h => hq h.symm)]
        · rw [if_neg hdirty]

/-- The version word at `q` after `install` on an element item: the inserted
bit is erased at the element of an insert-tagged item, then the dirty bit at
the recorded new head of a delete-tagged item. -/
theorem version_install (T : TransactionTid) (Opacity : Bool) (ct : Nat) (s : State)
    (item : TransItem) (hk : item.key ≠ pop_key) (q : Nat) :
    version (install T Opacity ct s item) q
      = if has_delete item = true ∧ write_value_ptr item = some q then
          erase_dirty T
            (if has_insert item = true ∧ q = item.key.toNat then
              erase_inserted T (version s q) else version s q)
        else
          (if has_insert item = true ∧ q = item.key.toNat then
            erase_inserted T (version s q) else version s q) := by
  have h1 : version (if has_insert item = true then
        setVersion s item.key.toNat (erase_inserted T (version s item.key.toNat)) else s) q
      = if has_insert item = true ∧ q = item.key.toNat then
          erase_inserted T (version s q) else version s q := by
    cases hi : has_insert item with
    | false => simp
    | true =>
      simp only [if_true, true_and, version_setVersion]
      split_ifs with hq
      · rw [hq]
      · rfl
  unfold install
  simp only [hk, if_false]
  rw [version_install_delete, h1]

/-- C21. `install` on an element item (any key but `pop_key`) leaves the heap
array, its size and every payload as they were.  For an insert-tagged item the
version word of the element becomes `erase_inserted` of itself (unless the
item is also delete-tagged with the element itself as new head); for a
delete-tagged item with a recorded new head the version word of the new head
becomes `erase_dirty` of itself (unless the item is also insert-tagged with
the new head as its element); every other version word is unchanged.  Here
`erase_inserted` and `erase_dirty` keep each bit of the word that is outside
the inserted bit, respectively the dirty bit, and clear that bit. -/
theorem install_effect (T : TransactionTid) (Opacity : Bool) (ct : Nat) (s : State)
    (item : TransItem) (hk : item.key ≠ pop_key) :
    (install T Opacity ct s item).heap_ = s.heap_ ∧
    (install T Opacity ct s item).size_ = s.size_ ∧
    (install T Opacity ct s item).heap_size = s.heap_size ∧
    (∀ q, ((install T Opacity ct s item).mem q).value = (s.mem q).value) ∧
    (has_insert item = true →
      (has_delete item = false ∨ write_value_ptr item ≠ some item.key.toNat) →
      version (install T Opacity ct s item) item.key.toNat
        = erase_inserted T (version s item.key.toNat)) ∧
    (has_delete item = true → ∀ nh, write_value_ptr item = some nh →
      (has_insert item = false ∨ nh ≠ item.key.toNat) →
      version (install T Opacity ct s item) nh = erase_dirty T (version s nh)) ∧
    (∀ q, (has_insert item = false ∨ q ≠ item.key.toNat) →
      (has_delete item = false ∨ write_value_ptr item ≠ some q) →
      version (install T Opacity ct s item) q = version s q) ∧
    (∀ v i, (erase_inserted T v).testBit i = (v.testBit i && !(insert_bit T).testBit i)) ∧
    (∀ v i, (erase_dirty T v).testBit i = (v.testBit i && !(dirty_bit T).testBit i)) := by
  refine ⟨?_, ?_, ?_, ?_, ?_, ?_, ?_, fun v i => testBit_clear v _ i,
    fun v i => testBit_clear v _ i⟩
  · unfold install
    simp only [hk, if_false]
    split_ifs <;> (try split) <;> (try split_ifs) <;> rfl
  · unfold install
    simp only [hk, if_false]
    split_ifs <;> (try split) <;> (try split_ifs) <;> rfl
  · unfold install
    simp only [hk, if_false]
    split_ifs <;> (try split) <;> (try split_ifs) <;> rfl
  · intro q
    unfold install
    simp only [hk, if_false]
    split_ifs <;> (try split) <;> (try split_ifs) <;> simp only [value_setVersion]
  · intro hi hor
    have hnd : ¬ (has_delete item = true ∧ write_value_ptr item = some item.key.toNat) := by
      rintro ⟨h1, h2⟩
      rcases hor with h | h
      · rw [h1] at h; exact absurd h (by decide)
      · exact h h2
    rw [version_install T Opacity ct s item hk, if_neg hnd, if_pos ⟨hi, rfl⟩]
  · intro hd nh hw hor
    have hni : ¬ (has_insert item = true ∧ nh = item.key.toNat) := by
      rintro ⟨h1, h2⟩
      rcases hor with h | h
      · rw [h1] at h; exact absurd h (by decide)
      · exact h h2
    rw [version_install T Opacity ct s item hk, if_pos ⟨hd, hw⟩, if_neg hni]
  · intro q h1 h2
    have hni : ¬ (has_insert item = true ∧ q = item.key.toNat) := by
      rintro ⟨h3, h4⟩
      rcases h1 with h | h
      · rw [h3] at h; exact absurd h (by decide)
      · exact h h4
    have hnd : ¬ (has_delete item = true ∧ write_value_ptr item = some q) := by
      rintro ⟨h3, h4⟩
      rcases h2 with h | h
      · rw [h3] at h; exact absurd h (by decide)
      · exact h h4
    rw [version_install T Opacity ct s item hk, if_neg hnd, if_neg hni]

/-- C21 under the sample layout: installing the insert item of the value at
address 0 of the queue that holds it with version 36 leaves version 32, and
installing a delete item whose new head is the dirty value at address 5
(version 48) leaves version 32 there. -/
theorem install_effect_witness :
    version (install TransactionTid.sample false 0 State.inserted
      { key := 0, flags := insert_tag, rdata := none, wdata := some (.payload 7) }) 0 = 32 ∧
    version (install TransactionTid.sample false 0 (setVersion State.sample 5 48)
      { key := 0, flags := delete_tag, rdata := some 32, wdata := some (.ptr (some 5)) }) 5
      = 32 :=
  ⟨((install_effect TransactionTid.sample false 0 State.inserted
      { key := 0, flags := insert_tag, rdata := none, wdata := some (.payload 7) }
      (by decide)).2.2.2.2.1 (by decide) (Or.inl (by decide))).trans (by decide),
   ((install_effect TransactionTid.sample false 0 (setVersion State.sample 5 48)
      { key := 0, flags := delete_tag, rdata := some 32, wdata := some (.ptr (some 5)) }
      (by decide)).2.2.2.2.2.1 (by decide) 5 rfl (Or.inl (by decide))).trans (by decide)⟩

/-- The deleted bit, set in a word whose inserted bit is then cleared, stays
set when the two bits are disjoint. -/
theorem and_clear_or (v d b : Nat) (h : b &&& d = 0) :
    ((v ||| d) ^^^ ((v ||| d) &&& b)) &&& d = d := by
  apply Nat.eq_of_testBit_eq
  intro i
  have h1 := congrArg (fun x => x.testBit i) h
  simp only [Nat.testBit_and, Nat.zero_testBit] at h1
  simp only [Nat.testBit_and, Nat.testBit_xor, Nat.testBit_or]
  cases hvi : v.testBit i <;> cases hdi : d.testBit i <;> cases hbi : b.testBit i <;> simp_all

/-- C22. Aborted insert: `cleanup` with `committed = false` on an insert-tagged
item returns; the heap array (so every node and its position), its size and
every payload are as they were; the version word of the item's value has the
deleted bit set and the inserted bit clear, every bit of it outside these two
is as it was, and no other version word changes.  Stated for layouts whose
first user bit is not zero and whose inserted and deleted bits are disjoint. -/
theorem cleanup_aborted_insert (T : TransactionTid) (me : Int) (s : State) (item : TransItem)
    (hi : has_insert item = true) (h0 : T.user_bit1 ≠ 0)
    (hT : insert_bit T &&& delete_bit T = 0) :
    ∃ s', cleanup T me s item false = .ok s' ∧
      s'.heap_ = s.heap_ ∧ s'.size_ = s.size_ ∧ s'.heap_size = s.heap_size ∧
      (∀ q, (s'.mem q).value = (s.mem q).value) ∧
      is_deleted T (version s' item.key.toNat) = true ∧
      is_inserted T (version s' item.key.toNat) = false ∧
      (∀ i, (insert_bit T).testBit i = false → (delete_bit T).testBit i = false →
        (version s' item.key.toNat).testBit i = (version s item.key.toNat).testBit i) ∧
      (∀ q, q ≠ item.key.toNat → version s' q = version s q) := by
  have hres : cleanup T me s item false
      = .ok (setVersion (setVersion s item.key.toNat (mark_deleted T (version s item.key.toNat)))
          item.key.toNat
          (erase_inserted T (mark_deleted T (version s item.key.toNat)))) := by
    unfold cleanup
    simp only [Bool.not_false, if_true, hi, version_setVersion_same]
  have hv : version (setVersion (setVersion s item.key.toNat
        (mark_deleted T (version s item.key.toNat))) item.key.toNat
        (erase_inserted T (mark_deleted T (version s item.key.toNat)))) item.key.toNat
      = erase_inserted T (mark_deleted T (version s item.key.toNat)) :=
    version_setVersion_same _ _ _
  refine ⟨_, hres, rfl, rfl, rfl, ?_, ?_, ?_, ?_, ?_⟩
  · intro q
    rw [value_setVersion, value_setVersion]
  · rw [hv]
    have hd : delete_bit T ≠ 0 := by
      unfold delete_bit
      rw [Nat.shiftLeft_eq]
      omega
    simp only [is_deleted, erase_inserted, mark_deleted, and_clear_or _ _ _ hT]
    simpa using hd
  · rw [hv]
    simp [is_inserted, erase_inserted, xor_and_self_and]
  · intro i hib hdb
    rw [hv]
    simp only [erase_inserted, mark_deleted, testBit_clear, Nat.testBit_or, hib, hdb]
    simp
  · intro q hq
    rw [version_setVersion_ne _ _ _ _ hq, version_setVersion_ne _ _ _ _ hq]

/-- C22 on the queue of a transaction that pushed 7, under the sample layout:
after the cleanup the value at address 0 is still in the heap, marked deleted
and no longer inserted. -/
theorem cleanup_aborted_insert_witness :
    ∃ s', cleanup TransactionTid.sample 0 State.inserted
        { key := 0, flags := insert_tag, rdata := none, wdata := some (.payload 7) } false
        = .ok s' ∧
      s'.heap_ = State.inserted.heap_ ∧ s'.size_ = 1 ∧
      is_deleted TransactionTid.sample (version s' 0) = true ∧
      is_inserted TransactionTid.sample (version s' 0) = false := by
  obtain ⟨s', h1, h2, h3, -, -, h6, h7, -, -⟩ := cleanup_aborted_insert TransactionTid.sample 0
    State.inserted { key := 0, flags := insert_tag, rdata := none, wdata := some (.payload 7) }
    (by decide) (by decide) (by decide)
  exact ⟨s', h1, h2, h3, h6, h7⟩

/-- Locking a free word and unlocking it gives the word back. -/
theorem unlockWord_lock (T : TransactionTid) (v : Nat) (h : is_locked T v = false) :
    unlockWord T (v ||| T.lock_bit) = v := by
  have hv : v &&& T.lock_bit = 0 := by simpa [is_locked] using h
  unfold unlockWord
  apply Nat.eq_of_testBit_eq
  intro i
  have h1 := congrArg (fun x => x.testBit i) hv
  simp only [Nat.testBit_and, Nat.zero_testBit] at h1
  simp only [Nat.testBit_and, Nat.testBit_xor, Nat.testBit_or]
  cases hvi : v.testBit i <;> cases hli : T.lock_bit.testBit i <;> simp_all

/-- C23. `top()` on a non-empty heap whose root value is marked neither
inserted nor deleted, with the pop lock free, returns the payload of the root;
the heap array, its size, the value store (all payloads and version words),
the pop-sequence version and the two global locks are as they were; the item
of `pop_key` carries a read, the one recorded before or else the pop-sequence
version, and the item of the root value carries a read, the one recorded
before or else the version of the root value. -/
theorem top_plain (T : TransactionTid) (s : State) (h1 : 1 ≤ s.size_)
    (hcap : s.size_ ≤ s.heap_size) (hpl : is_locked T s.poplock_ = false)
    (hni : is_inserted T (version s (s.heap_ 0).val) = false)
    (hnd : is_deleted T (version s (s.heap_ 0).val) = false) :
    ∃ s', top T s = .ok (pay s 0, s') ∧
      s'.heap_ = s.heap_ ∧ s'.size_ = s.size_ ∧ s'.heap_size = s.heap_size ∧
      s'.mem = s.mem ∧ s'.popversion_ = s.popversion_ ∧ s'.heaplock_ = s.heaplock_ ∧
      s'.poplock_ = s.poplock_ ∧
      (Sto.item s'.txn pop_key).rdata
        = some ((Sto.item s.txn pop_key).rdata.getD s.popversion_) ∧
      (Sto.item s'.txn ((s.heap_ 0).val : Int)).rdata
        = some ((Sto.item s.txn ((s.heap_ 0).val : Int)).rdata.getD
            (version s (s.heap_ 0).val)) := by
  have hkne : ((s.heap_ 0).val : Int) ≠ pop_key := by unfold pop_key; omega
  have hkp : ((Sto.item s.txn pop_key).add_read s.popversion_).key = pop_key := by
    rw [Sto.key_add_read, Sto.item_key]
  have hg := getMax_plain T
    (setPoplock (setItem s ((Sto.item s.txn pop_key).add_read s.popversion_))
      (s.poplock_ ||| T.lock_bit)) h1 hcap hni hnd
  unfold top
  simp only []
  rw [show (setItem s ((Sto.item s.txn pop_key).add_read s.popversion_)).poplock_ = s.poplock_
    from rfl, lockWord_of_free T _ hpl]
  simp only []
  rw [hg, Res.ok_bind]
  refine ⟨_, rfl, rfl, rfl, rfl, rfl, rfl, rfl, ?_, ?_, ?_⟩
  · exact unlockWord_lock T _ hpl
  · show (Sto.item (Sto.store (Sto.store (Sto.store s.txn _) _) _) pop_key).rdata = _
    rw [Sto.item_store_ne _ _ _ (by rw [Sto.key_add_read, Sto.item_key]; exact hkne),
      Sto.item_store_ne _ _ _ (by rw [Sto.item_key]; exact hkne),
      Sto.item_store_add_read, Sto.rdata_add_read]
  · show (Sto.item
        (Sto.store
          (Sto.store (Sto.store s.txn ((Sto.item s.txn pop_key).add_read s.popversion_))
            (Sto.item (Sto.store s.txn ((Sto.item s.txn pop_key).add_read s.popversion_))
              ((s.heap_ 0).val : Int)))
          ((Sto.item
            (Sto.store (Sto.store s.txn ((Sto.item s.txn pop_key).add_read s.popversion_))
              (Sto.item (Sto.store s.txn ((Sto.item s.txn pop_key).add_read s.popversion_))
                ((s.heap_ 0).val : Int)))
            ((s.heap_ 0).val : Int)).add_read (version s (s.heap_ 0).val)))
        ((s.heap_ 0).val : Int)).rdata = _
    rw [Sto.item_store_add_read, Sto.rdata_add_read, Sto.item_store_item,
      Sto.item_store_ne _ _ _ (by rw [hkp]; exact hkne.symm)]

/-- C23 on the sample queue: `top()` returns 5 and the heap is as it was. -/
theorem top_plain_witness :
    ∃ s', top TransactionTid.sample State.sample = .ok (5, s') ∧
      s'.heap_ = State.sample.heap_ ∧ s'.size_ = 2 ∧ s'.mem = State.sample.mem ∧
      (Sto.item s'.txn pop_key).rdata = some 0 ∧ (Sto.item s'.txn 0).rdata = some 32 := by
  obtain ⟨s', h1, h2, h3, -, h5, -, -, -, h9, h10⟩ := top_plain TransactionTid.sample
    State.sample (by decide) (by decide) (by decide) (by decide) (by decide)
  exact ⟨s', h1, h2, h3, h5, h9, h10⟩

/-- On an empty queue with the pop lock free `top()` dereferences the `NULL`
that `getMax()` returns. -/
theorem top_of_empty (T : TransactionTid) (s : State) (h0 : s.size_ = 0)
    (hpl : is_locked T s.poplock_ = false) : top T s = .fault := by
  unfold top
  simp only []
  rw [show (setItem s ((Sto.item s.txn pop_key).add_read s.popversion_)).poplock_ = s.poplock_
    from rfl, lockWord_of_free T _ hpl]
  simp only []
  rw [getMax, if_pos (by exact h0), Res.ok_bind]

/-- C24, failing run. On the empty queue `top()` does not end in
`Sto::abort()`: `getMax()` returns `NULL` and `top()` calls `read_value()` on
it, a null dereference. -/
theorem top_empty_faults :
    State.init.size_ = 0 ∧
    (top TransactionTid.sample State.init).isFault = true ∧
    (top TransactionTid.sample State.init).isAbort = false := by
  decide!

/-- C28, failing run. After committed pushes of 5, 4 and 3 the live prefix
holds 5, 4, 3, in max-heap order with every node settled; `removeMax()`
returns the root value and leaves the live prefix 3, 4: the node at index 1
holds more than its parent.  The sift-down loop does not run, since
`2*0 < size_ - 2` is false for `size_ = 2`. -/
theorem removeMax_leaves_left_child :
    (runCommitted TransactionTid.sample 0 [.push 5, .push 4, .push 3] State.init).val?.map
        (fun r => (livePayloads r.2, (r.2.heap_ 0).status, (r.2.heap_ 1).status,
          (r.2.heap_ 2).status))
      = some ([5, 4, 3], Status.AVAILABLE, Status.AVAILABLE, Status.AVAILABLE) ∧
    ((runCommitted TransactionTid.sample 0 [.push 5, .push 4, .push 3] State.init).bind
        fun r => removeMax TransactionTid.sample r.2 none).val?.map
        (fun r => (r.1.map (read_value r.2), r.2.size_, livePayloads r.2))
      = some (some 5, 2, [3, 4]) := by
  decide!

/-- C30, failing and passing runs. After an aborted push of 7 into the empty
queue the only live value is marked deleted, and `getMax()` ends in an
out-of-range access: it removes the value (`size_` becomes 0), reads the same
root again and calls `removeMax` once more, which makes `size_` negative and
indexes `heap_[-1]`.  The same with two deleted values.  After a committed push
of 5 and an aborted push of 9 the deleted 9 sits above 5, and `getMax()`
removes it and returns the value holding 5. -/
theorem getMax_over_deleted :
    (((push TransactionTid.sample 0 State.init 7).bind
        (abortTxn TransactionTid.sample 0)).val?.map
      (fun s => (s.size_, is_deleted TransactionTid.sample (version s (s.heap_ 0).val),
        is_inserted TransactionTid.sample (version s (s.heap_ 0).val))))
      = some (1, true, false) ∧
    (((push TransactionTid.sample 0 State.init 7).bind
        (abortTxn TransactionTid.sample 0)).bind (getMax TransactionTid.sample)).isFault
      = true ∧
    ((((push TransactionTid.sample 0 State.init 7).bind
        (abortTxn TransactionTid.sample 0)).bind fun s =>
      (push TransactionTid.sample 0 s 8).bind (abortTxn TransactionTid.sample 0)).bind
        (getMax TransactionTid.sample)).isFault = true ∧
    (((runCommitted TransactionTid.sample 0 [.push 5] State.init).bind fun r =>
      (push TransactionTid.sample 0 (setTxn r.2 []) 9).bind
        (abortTxn TransactionTid.sample 0)).val?.map
      (fun s => (livePayloads s, is_deleted TransactionTid.sample (version s (s.heap_ 0).val))))
      = some ([9, 5], true) ∧
    ((((runCommitted TransactionTid.sample 0 [.push 5] State.init).bind fun r =>
      (push TransactionTid.sample 0 (setTxn r.2 []) 9).bind
        (abortTxn TransactionTid.sample 0)).bind (getMax TransactionTid.sample)).val?.map
      (fun r => (r.1.map (read_value r.2), r.2.size_)))
      = some (some 5, 1) := by
  decide!

end PriorityQueue

/-! ### PriorityQueue: `removeMax` on a heap in any order -/

namespace PriorityQueue

/-- The continuation of one sift-down iteration once the child `c` is chosen
and the other child is unlocked, whatever the payloads are. -/
theorem siftDown_plain_step (T : TransactionTid) (fuel : Nat)
    (ih : ∀ (s : State) (k n : Int),
      s.size_ = n → n ≤ s.heap_size → 0 ≤ k → k < n → n ≤ k + fuel →
      Settled s n → FreeExcept T s n k →
      ∃ s', siftDown T fuel s k = .ok s' ∧ LoopPost T n s s')
    (s s3 : State) (k n c : Int)
    (hsz : s.size_ = n) (hcap : n ≤ s.heap_size) (hk0 : 0 ≤ k)
    (hfuel : n ≤ k + (fuel + 1)) (hcond : 2 * k < n - 2)
    (hset : Settled s n)
    (hco : c = k * 2 + 1 ∨ c = k * 2 + 2)
    (hfr : Frame s s3)
    (hval : ∀ i, (s3.heap_ i).val = (s.heap_ i).val)
    (hst : ∀ i, (s3.heap_ i).status = (s.heap_ i).status)
    (hfree3 : ∀ i, 0 ≤ i → i < n → i ≠ k → i ≠ c → is_locked T (s3.heap_ i).ver = false) :
    ∃ s', (if read_value s3 (s3.heap_ c).val > read_value s3 (s3.heap_ k).val then
            siftDown T fuel (unlockNode T (swap s3 k c) k) c
          else Res.ok (unlockNode T (unlockNode T s3 c) k)) = .ok s' ∧
      LoopPost T n s s' := by
  have hc0 : 0 ≤ c := by omega
  have hcn : c < n := by omega
  have hck : c ≠ k := by omega
  by_cases hgt : read_value s3 (s3.heap_ c).val > read_value s3 (s3.heap_ k).val
  · rw [if_pos hgt]
    have hswapr : ∀ i, 0 ≤ i → i < n → (0 ≤ Equiv.swap k c i ∧ Equiv.swap k c i < n) := by
      intro i h0 h1
      rw [Equiv.swap_apply_def]
      split_ifs <;> omega
    have hv5 : ∀ i, ((unlockNode T (swap s3 k c) k).heap_ i).val
        = (s.heap_ (Equiv.swap k c i)).val := by
      intro i; simp [hval]
    have hfr5 : Frame s (unlockNode T (swap s3 k c) k) :=
      (hfr.comp (swap_frame s3 k c)).comp (unlockNode_frame T _ k)
    obtain ⟨s', hrun, hpost⟩ := ih (unlockNode T (swap s3 k c) k) c n
      (by rw [hfr5.size_, hsz]) (by rw [hfr5.heap_size]; exact hcap) hc0 hcn (by omega)
      (by
        intro i h0 h1
        have := hswapr i h0 h1
        simp only [unlockNode_status, swap_status, hst]
        exact hset _ this.1 this.2)
      (by
        intro i h0 h1 hic
        rw [unlockNode_ver]
        split_ifs with hik
        · exact is_locked_unlockWord T _
        · rw [swap_ver]; exact hfree3 i h0 h1 hik hic)
    refine ⟨s', hrun, ⟨hfr5.comp hpost.frame, hpost.settled, hpost.free, ?_⟩⟩
    exact (Rearranged.of_swap n s _ k c ⟨hk0, by omega⟩ ⟨hc0, hcn⟩ hv5).chain hpost.rearranged
  · rw [if_neg hgt]
    have hfr' : Frame s (unlockNode T (unlockNode T s3 c) k) :=
      (hfr.comp (unlockNode_frame T s3 c)).comp (unlockNode_frame T _ k)
    have hv' : ∀ i, ((unlockNode T (unlockNode T s3 c) k).heap_ i).val = (s.heap_ i).val := by
      intro i; simp [hval]
    refine ⟨_, rfl, ⟨hfr', ?_, ?_, Rearranged.of_same n s _ hv'⟩⟩
    · intro i h0 h1
      simp only [unlockNode_status, hst]
      exact hset i h0 h1
    · intro i h0 h1
      rw [unlockNode_ver]
      split_ifs with hik
      · exact is_locked_unlockWord T _
      · rw [unlockNode_ver]
        split_ifs with hic
        · exact is_locked_unlockWord T _
        · exact hfree3 i h0 h1 hik hic

/-- The sift-down loop of `removeMax`, started at `k` with the lock of `k`
held on a settled prefix whose other locks are free, in whatever order the
payloads are: it returns, leaves every node settled and unlocked, and only
rearranges the values. -/
theorem siftDown_plain (T : TransactionTid) : ∀ (fuel : Nat) (s : State) (k n : Int),
    s.size_ = n → n ≤ s.heap_size → 0 ≤ k → k < n → n ≤ k + fuel →
    Settled s n → FreeExcept T s n k →
    ∃ s', siftDown T fuel s k = .ok s' ∧ LoopPost T n s s' := by
  intro fuel
  induction fuel with
  | zero =>
    intro s k n _ _ _ hkn hfuel
    omega
  | succ fuel ih =>
    intro s k n hsz hcap hk0 hkn hfuel hset hfree
    by_cases hcond : 2 * k < n - 2
    · have hL : lockNode T s (k * 2 + 1)
          = .ok (setNodeVer s (k * 2 + 1) ((s.heap_ (k * 2 + 1)).ver ||| T.lock_bit)) :=
        lockNode_ok T s _ (by omega) (hfree _ (by omega) (by omega) (by omega))
      have hR : lockNode T (setNodeVer s (k * 2 + 1) ((s.heap_ (k * 2 + 1)).ver ||| T.lock_bit))
            (k * 2 + 2)
          = .ok (setNodeVer (setNodeVer s (k * 2 + 1) ((s.heap_ (k * 2 + 1)).ver ||| T.lock_bit))
              (k * 2 + 2) ((s.heap_ (k * 2 + 2)).ver ||| T.lock_bit)) := by
        have := lockNode_ok T
          (setNodeVer s (k * 2 + 1) ((s.heap_ (k * 2 + 1)).ver ||| T.lock_bit)) (k * 2 + 2)
          (by show 0 ≤ k * 2 + 2 ∧ k * 2 + 2 < s.heap_size; omega)
          (by
            rw [setNodeVer_ver, if_neg (by omega)]
            exact hfree _ (by omega) (by omega) (by omega))
        rw [this, setNodeVer_ver, if_neg (by omega)]
      have hsL : (s.heap_ (k * 2 + 1)).status = .AVAILABLE := hset _ (by omega) (by omega)
      have hsR : (s.heap_ (k * 2 + 2)).status = .AVAILABLE := hset _ (by omega) (by omega)
      rw [siftDown, if_pos (by rw [hsz]; exact hcond)]
      simp only [hL, hR, Res.ok_bind_do, setNodeVer_status, hsL, hsR, setNodeVer_val,
        read_value_setNodeVer, reduceCtorEq, if_false, false_or]
      by_cases hlr : read_value s (s.heap_ (k * 2 + 1)).val > read_value s (s.heap_ (k * 2 + 2)).val
      · rw [if_pos hlr]
        apply siftDown_plain_step T fuel ih s _ k n (k * 2 + 1) hsz hcap hk0 hfuel hcond
          hset (Or.inl rfl)
        · exact ((setNodeVer_frame s _ _).comp (setNodeVer_frame _ _ _)).comp
            (unlockNode_frame T _ _)
        · intro i; simp
        · intro i; simp
        · intro i h0 h1 hik hic
          rw [unlockNode_ver]
          split_ifs with hiR
          · exact is_locked_unlockWord T _
          · rw [setNodeVer_ver, if_neg hiR, setNodeVer_ver, if_neg hic]
            exact hfree i h0 h1 hik
      · rw [if_neg hlr]
        apply siftDown_plain_step T fuel ih s _ k n (k * 2 + 2) hsz hcap hk0 hfuel hcond
          hset (Or.inr rfl)
        · exact ((setNodeVer_frame s _ _).comp (setNodeVer_frame _ _ _)).comp
            (unlockNode_frame T _ _)
        · intro i; simp
        · intro i; simp
        · intro i h0 h1 hik hic
          rw [unlockNode_ver]
          split_ifs with hiL
          · exact is_locked_unlockWord T _
          · rw [setNodeVer_ver, if_neg hic, setNodeVer_ver, if_neg hiL]
            exact hfree i h0 h1 hik
    · refine ⟨unlockNode T s k, ?_, ⟨unlockNode_frame T s k, ?_, ?_, ?_⟩⟩
      · cases fuel <;> simp [siftDown, hsz, hcond]
      · intro i h0 h1
        simp only [unlockNode_status]
        exact hset i h0 h1
      · intro i h0 h1
        rw [unlockNode_ver]
        split_ifs with hik
        · exact is_locked_unlockWord T _
        · exact hfree i h0 h1 hik
      · exact Rearranged.of_same n s _ (fun i => by simp)

/-- C29. `removeMax()` removes exactly the root: on a heap of `n ≥ 1` live
nodes inside the vector, all `AVAILABLE`, with the node locks and the heap
lock free, in whatever order the payloads are, `removeMax()` with no expected
value returns the value stored at index 0 and sets `size_` to `n - 1`; the
multiset of the payloads of the new live prefix is the old multiset without
the payload of the old root, and each node of the new live prefix holds a
value that a node below the root held before; the nodes stay settled and
unlocked and the value store is untouched. -/
theorem removeMax_removes_root (T : TransactionTid) (s : State) (n : Int)
    (hsz : s.size_ = n) (hn : 1 ≤ n) (hcap : n ≤ s.heap_size)
    (hset : Settled s n) (hfree : NodesFree T s n) (hhl : is_locked T s.heaplock_ = false) :
    ∃ r, removeMax T s none = .ok r ∧ r.1 = some (s.heap_ 0).val ∧ r.2.size_ = n - 1 ∧
      (↑(livePayloads r.2) : Multiset Int)
        = (↑(livePayloads s) : Multiset Int).erase (pay s 0) ∧
      (∀ i, 0 ≤ i → i < n - 1 →
        ∃ j, 1 ≤ j ∧ j < n ∧ (r.2.heap_ i).val = (s.heap_ j).val) ∧
      Settled r.2 (n - 1) ∧ NodesFree T r.2 (n - 1) ∧
      is_locked T r.2.heaplock_ = false ∧ r.2.mem = s.mem := by
  have hmul : ∀ a : State, (livePayloads a ++ [pay s 0]).Perm (livePayloads s) →
      (↑(livePayloads a) : Multiset Int)
        = (↑(livePayloads s) : Multiset Int).erase (pay s 0) := by
    intro a hp
    have h1 : (↑(livePayloads s) : Multiset Int) = pay s 0 ::ₘ ↑(livePayloads a) := by
      rw [Multiset.cons_coe]
      exact Multiset.coe_eq_coe.mpr (hp.symm.trans (List.perm_append_singleton _ _))
    rw [h1, Multiset.erase_cons_head]
  rw [removeMax, lockWord_of_free T _ hhl]
  simp only [setHeaplock_size_, hsz, setSize_heap_, setHeaplock_heap_, setSize_heaplock_,
    setHeaplock_heaplock_]
  by_cases hne : n - 1 = 0
  · rw [if_pos hne]
    have hb : inBounds (setSize (setHeaplock s (s.heaplock_ ||| T.lock_bit)) (n - 1)) 0 = true := by
      simp [inBounds]; omega
    rw [if_pos hb]
    have hn1 : n = 1 := by omega
    subst hn1
    refine ⟨_, rfl, rfl, rfl, ?_, ?_, ?_, ?_, is_locked_unlockWord T _, rfl⟩
    · apply hmul
      simp [livePayloads, hsz]
      rfl
    · intro i h0 h1; omega
    · intro i h0 h1; omega
    · intro i h0 h1; omega
  · rw [if_neg hne]
    have hLb := lockNode_ok T (setSize (setHeaplock s (s.heaplock_ ||| T.lock_bit)) (n - 1))
      (n - 1) (by show 0 ≤ n - 1 ∧ n - 1 < s.heap_size; omega)
      (by show is_locked T (s.heap_ (n - 1)).ver = false; exact hfree _ (by omega) (by omega))
    rw [hLb, Res.ok_bind]
    have hL0 := lockNode_ok T
      (setNodeVer (setSize (setHeaplock s (s.heaplock_ ||| T.lock_bit)) (n - 1)) (n - 1)
        (((setSize (setHeaplock s (s.heaplock_ ||| T.lock_bit)) (n - 1)).heap_ (n - 1)).ver
          ||| T.lock_bit)) 0
      (by show 0 ≤ (0 : Int) ∧ 0 < s.heap_size; omega)
      (by
        rw [setNodeVer_ver, if_neg (by omega)]
        exact hfree _ (by omega) (by omega))
    rw [hL0, Res.ok_bind]
    simp only [ne_eq, not_true_eq_false, false_and, if_false]
    have hsw : ∀ i : Int, 0 ≤ i → i < n - 1 →
        (Equiv.swap (n - 1) 0 i = if i = 0 then n - 1 else i) := by
      intro i h0 h1
      rw [Equiv.swap_apply_def]
      split_ifs <;> omega
    refine Res.bind_ok_of_exists
      (siftDown_plain T _ _ 0 (n - 1) rfl (by show n - 1 ≤ s.heap_size; omega) le_rfl (by omega)
        (by show n - 1 ≤ 0 + (((n - 1 : Int).toNat : Nat) : Int); omega) ?_ ?_) ?_
    · intro i h0 h1
      simp only [unlockNode_status, swap_status, vacate_status, hsw i h0 h1]
      by_cases hi0 : i = 0
      · rw [if_pos hi0, if_neg hne]
        simp only [setHeaplock_heap_, setNodeVer_status, setSize_heap_]
        exact hset _ (by omega) (by omega)
      · rw [if_neg hi0, if_neg hi0]
        simp only [setHeaplock_heap_, setNodeVer_status, setSize_heap_]
        exact hset _ (by omega) (by omega)
    · intro i h0 h1 hi0
      rw [unlockNode_ver, if_neg (by omega), swap_ver, vacate_ver]
      simp only [setHeaplock_heap_]
      rw [setNodeVer_ver, if_neg hi0, setNodeVer_ver, if_neg (by omega)]
      exact hfree _ (by omega) (by omega)
    · intro a hpost
      have hrr := removed_root s _ a n hpost.frame hpost.rearranged (by omega) hsz
        (by
          intro i
          simp only [unlockNode_val, swap_val, vacate_val, setHeaplock_heap_, setNodeVer_val,
            setSize_heap_])
        rfl rfl
      refine ⟨_, rfl, ?_, hpost.frame.size_.trans rfl, hmul a hrr.1, hrr.2, hpost.settled,
        hpost.free, ?_, hpost.frame.mem.trans rfl⟩
      · simp only [setNodeVer_val, setSize_heap_, setHeaplock_heap_]
      · rw [hpost.frame.heaplock_]
        exact is_locked_unlockWord T _

/-- C29 on the sample queue holding 5 and 3: `removeMax()` returns the value
at address 0 and leaves one live node. -/
theorem removeMax_removes_root_witness :
    ∃ r, removeMax TransactionTid.sample State.sample none = .ok r ∧ r.1 = some 0 ∧
      r.2.size_ = 2 - 1 ∧
      (↑(livePayloads r.2) : Multiset Int)
        = (↑(livePayloads State.sample) : Multiset Int).erase (pay State.sample 0) := by
  obtain ⟨r, h1, h2, h3, h4, -⟩ := removeMax_removes_root TransactionTid.sample State.sample 2
    rfl (by decide) (by decide) committed_sample.settled committed_sample.free (by decide)
  exact ⟨r, h1, h2, h3, h4⟩

end PriorityQueue

/-! ### PriorityQueue: sift-up and heap order -/

namespace PriorityQueue

/-- Swapping the node `c` above its smaller parent `q` moves the sift-up
invariant from `c` to `q`. -/
theorem siftUpInv_swap (p p' : Int → Int) (n c q : Int) (hc : 0 < c) (hcn : c < n)
    (hq : q = (c - 1) / 2) (hp' : ∀ i, p' i = p (Equiv.swap c q i)) (hgt : p c > p q)
    (hinv : SiftUpInv p n c) : SiftUpInv p' n q := by
  have hqc : q < c := by omega
  have hq0 : 0 ≤ q := by omega
  have e_c : p' c = p q := by rw [hp', Equiv.swap_apply_left]
  have e_q : p' q = p c := by rw [hp', Equiv.swap_apply_right]
  have e_o : ∀ i, i ≠ c → i ≠ q → p' i = p i := by
    intro i h1 h2
    rw [hp', Equiv.swap_apply_of_ne_of_ne h1 h2]
  constructor
  · intro i hi0 hin hiq
    by_cases hic : i = c
    · rw [hic, ← hq, e_c, e_q]; omega
    · rw [e_o i hic hiq]
      by_cases h1 : (i - 1) / 2 = c
      · rw [h1, e_c]
        have := hinv.2 hc i hi0 hin h1
        rw [← hq] at this
        exact this
      · by_cases h2 : (i - 1) / 2 = q
        · rw [h2, e_q]
          have := hinv.1 i hi0 hin hic
          rw [h2] at this
          omega
        · rw [e_o _ h1 h2]
          exact hinv.1 i hi0 hin hic
  · intro hq1 d hd0 hdn hdq
    have hpar : p' ((q - 1) / 2) = p ((q - 1) / 2) := e_o _ (by omega) (by omega)
    rw [hpar]
    have hqle : p q ≤ p ((q - 1) / 2) := hinv.1 q hq1 (by omega) (by omega)
    by_cases hdc : d = c
    · rw [hdc, e_c]; exact hqle
    · rw [e_o d hdc (by omega)]
      have := hinv.1 d hd0 hdn hdc
      rw [hdq] at this
      omega

/-- When the node `c` is the root or holds at most what its parent holds, the
sift-up invariant at `c` is max-heap order. -/
theorem heapOrdered_of_siftUpInv_stop (p : Int → Int) (n c : Int) (hinv : SiftUpInv p n c)
    (hstop : 0 < c → p c ≤ p ((c - 1) / 2)) : HeapOrdered p n := by
  intro i hi0 hin
  by_cases hic : i = c
  · rw [hic]; exact hstop (by omega)
  · exact hinv.1 i hi0 hin hic

/-- One iteration of the sift-up loop of `add` once parent `p` and child `c`
are locked (state `s2`), carrying the sift-up invariant: the result is in
max-heap order, and nothing moves when the child holds at most what its parent
holds. -/
theorem addLoop_order_step (T : TransactionTid) (me : Int) (fuel : Nat)
    (ih : ∀ (s : State) (c n : Int),
      s.size_ = n → n ≤ s.heap_size → 0 ≤ c → c < n → c ≤ fuel →
      amOwner me (s.heap_ c) = true →
      (∀ i : Int, 0 ≤ i → i < n → i ≠ c → (s.heap_ i).status = .AVAILABLE) →
      NodesFree T s n →
      AlmostHeap (pay s) c →
      SiftUpInv (pay s) n c →
      (∀ i : Int, 0 ≤ i → i < n → i ≠ c → is_dirty T (version s (s.heap_ i).val) = true →
        ∃ it, Sto.find s.txn ((s.heap_ i).val : Int) = some it ∧ has_dirty it = true) →
      ∃ r, addLoop T me fuel s c = .ok r ∧ AddLoopPost T me n (pay s c) s r ∧ HeapOrdered (pay r.1) n ∧
        (0 < c → pay s c ≤ pay s ((c - 1) / 2) → ∀ i, (r.1.heap_ i).val = (s.heap_ i).val))
    (s s2 : State) (c p n : Int)
    (hsz : s.size_ = n) (hcap : n ≤ s.heap_size) (hc : 0 < c) (hcn : c < n)
    (hfuel : c ≤ ((fuel + 1 : Nat) : Int)) (hp : p = (c - 1) / 2)
    (hown : amOwner me (s.heap_ c) = true)
    (hav : ∀ i : Int, 0 ≤ i → i < n → i ≠ c → (s.heap_ i).status = .AVAILABLE)
    (halm : AlmostHeap (pay s) c)
    (hinv : SiftUpInv (pay s) n c)
    (hdirty : ∀ i : Int, 0 ≤ i → i < n → i ≠ c →
      is_dirty T (version s (s.heap_ i).val) = true →
      ∃ it, Sto.find s.txn ((s.heap_ i).val : Int) = some it ∧ has_dirty it = true)
    (hfr : Frame s s2)
    (hval : ∀ i, (s2.heap_ i).val = (s.heap_ i).val)
    (hst : ∀ i, (s2.heap_ i).status = (s.heap_ i).status)
    (how : ∀ i, (s2.heap_ i).owner = (s.heap_ i).owner)
    (hfree2 : ∀ i, 0 ≤ i → i < n → i ≠ p → i ≠ c → is_locked T (s2.heap_ i).ver = false) :
    ∃ r,
      (if (s2.heap_ p).status = .AVAILABLE ∧ amOwner me (s2.heap_ c) = true then
        if read_value s2 (s2.heap_ c).val > read_value s2 (s2.heap_ p).val then
          if is_dirty T (version (swap s2 c p) (s2.heap_ p).val) = true then
            if (!has_dirty (Sto.item (touch (swap s2 c p) (s2.heap_ p).val).txn
                ((s2.heap_ p).val : Int))) = true then
              Res.abort (unlockNode T (unlockNode T
                (settle (touch (swap s2 c p) (s2.heap_ p).val) p) c) p)
            else
              addLoop T me fuel (unlockNode T (unlockNode T
                (touch (swap s2 c p) (s2.heap_ p).val) c) p) p
          else addLoop T me fuel (unlockNode T (unlockNode T (swap s2 c p) c) p) p
        else Res.ok (unlockNode T (unlockNode T (settle s2 c) c) p, none)
      else if (!amOwner me (s2.heap_ c)) = true then
        addLoop T me fuel (unlockNode T (unlockNode T s2 c) p) p
      else Res.spin) = .ok r ∧ AddLoopPost T me n (pay s c) s r ∧ HeapOrdered (pay r.1) n ∧
        (0 < c → pay s c ≤ pay s ((c - 1) / 2) → ∀ i, (r.1.heap_ i).val = (s.heap_ i).val) := by
  have hp0 : 0 ≤ p := by omega
  have hpc : p < c := by omega
  have hpn : p < n := by omega
  have hcp : c ≠ p := by omega
  have hstp : (s2.heap_ p).status = .AVAILABLE := by rw [hst]; exact hav p hp0 hpn (by omega)
  have hown2 : amOwner me (s2.heap_ c) = true := by
    rw [amOwner_congr me _ _ (hst c) (how c)]; exact hown
  rw [if_pos ⟨hstp, hown2⟩]
  have hp2 : ∀ i, pay s2 i = pay s i := fun i => pay_congr s s2 hfr.mem i i (hval i)
  have e1 : read_value s2 (s2.heap_ c).val = pay s c := hp2 c
  have e2 : read_value s2 (s2.heap_ p).val = pay s p := hp2 p
  rw [e1, e2]
  by_cases hgt : pay s c > pay s p
  · rw [if_pos hgt]
    -- both dirty branches continue with the same heap
    have hcont : ∀ s3 : State, Frame s s3 →
        (∀ i, (s3.heap_ i).val = (s.heap_ (Equiv.swap c p i)).val) →
        (∀ i, (s3.heap_ i).status = (s.heap_ (Equiv.swap c p i)).status) →
        (∀ i, (s3.heap_ i).owner = (s.heap_ (Equiv.swap c p i)).owner) →
        (∀ i, 0 ≤ i → i < n → i ≠ p → i ≠ c → is_locked T (s3.heap_ i).ver = false) →
        ∃ r, addLoop T me fuel (unlockNode T (unlockNode T s3 c) p) p = .ok r ∧
          AddLoopPost T me n (pay s c) s r ∧ HeapOrdered (pay r.1) n := by
      intro s3 hfr3 hv3 hs3 ho3 hf3
      have hfr5 : Frame s (unlockNode T (unlockNode T s3 c) p) :=
        (hfr3.comp (unlockNode_frame T s3 c)).comp (unlockNode_frame T _ p)
      have hv5 : ∀ i, ((unlockNode T (unlockNode T s3 c) p).heap_ i).val
          = (s.heap_ (Equiv.swap c p i)).val := by
        intro i; simp [hv3]
      have hp5 : ∀ i, pay (unlockNode T (unlockNode T s3 c) p) i
          = pay s (Equiv.swap c p i) := fun i => pay_congr s _ hfr5.mem _ _ (hv5 i)
      have hsw : ∀ i, i ≠ p → i ≠ c → Equiv.swap c p i = i :=
        fun i h1 h2 => Equiv.swap_apply_of_ne_of_ne h2 h1
      obtain ⟨r, hrun, hpost, hord, -⟩ := ih (unlockNode T (unlockNode T s3 c) p) p n
        (by rw [hfr5.size_, hsz]) (by rw [hfr5.heap_size]; exact hcap) hp0 hpn
        (by push_cast at hfuel; omega)
        (by
          rw [amOwner_congr me _ (s.heap_ c) (by simp [hs3]) (by simp [ho3])]
          exact hown)
        (by
          intro i h0 h1 hip
          simp only [unlockNode_status, hs3]
          by_cases hic : i = c
          · rw [hic, Equiv.swap_apply_left]
            exact hav p hp0 hpn (by omega)
          · rw [hsw i hip hic]
            exact hav i h0 h1 hic)
        (by
          intro i h0 h1
          rw [unlockNode_ver]
          split_ifs with hip
          · exact is_locked_unlockWord T _
          · rw [unlockNode_ver]
            split_ifs with hic
            · exact is_locked_unlockWord T _
            · exact hf3 i h0 h1 hip hic)
        (by
          intro i hi0 hi1
          rw [hp5, hp5, hsw i (by omega) (by omega), hsw _ (by omega) (by omega)]
          exact halm i hi0 (by omega))
        (siftUpInv_swap (pay s) _ n c p hc hcn hp hp5 hgt hinv)
        (by
          intro i h0 h1 hip hd
          have hvi : ((unlockNode T (unlockNode T s3 c) p).heap_ i).val
              = (s.heap_ (Equiv.swap c p i)).val := hv5 i
          rw [hvi] at hd ⊢
          rw [hfr5.txn]
          have hd' : is_dirty T (version s (s.heap_ (Equiv.swap c p i)).val) = true := by
            have : version (unlockNode T (unlockNode T s3 c) p)
                (s.heap_ (Equiv.swap c p i)).val
                = version s (s.heap_ (Equiv.swap c p i)).val := by
              simp [version, hfr5.mem]
            rw [← this]; exact hd
          by_cases hic : i = c
          · rw [hic, Equiv.swap_apply_left] at hd' ⊢
            exact hdirty p hp0 hpn (by omega) hd'
          · rw [hsw i hip hic] at hd' ⊢
            exact hdirty i h0 h1 hic hd')
      refine ⟨r, hrun, ?_, hord⟩
      have hpc' : pay (unlockNode T (unlockNode T s3 c) p) p = pay s c := by
        rw [hp5, Equiv.swap_apply_right]
      rw [hpc'] at hpost
      exact
        { frame := hfr5.comp hpost.frame
          rearranged :=
            (Rearranged.of_swap n s _ c p ⟨by omega, hcn⟩ ⟨hp0, hpn⟩ hv5).chain hpost.rearranged
          free := hpost.free
          root_ge := hpost.root_ge
          returned := hpost.returned
          at_root := hpost.at_root }
    have hver : version (swap s2 c p) (s2.heap_ p).val = version s (s.heap_ p).val := by
      simp [version, hval, (hfr.comp (swap_frame s2 c p)).mem]
    rw [hver]
    by_cases hd : is_dirty T (version s (s.heap_ p).val) = true
    · rw [if_pos hd]
      obtain ⟨it, hfind, hhd⟩ := hdirty p hp0 hpn (by omega) hd
      have hfind' : Sto.find (swap s2 c p).txn ((s2.heap_ p).val : Int) = some it := by
        rw [(hfr.comp (swap_frame s2 c p)).txn, hval]; exact hfind
      have htouch := touch_of_find (swap s2 c p) _ it hfind'
      rw [htouch]
      have hitem : Sto.item (swap s2 c p).txn ((s2.heap_ p).val : Int) = it := by
        unfold Sto.item; rw [hfind']; rfl
      rw [hitem, hhd]
      simp only [Bool.not_true, Bool.false_eq_true, if_false]
      obtain ⟨r, hr1, hr2, hr3⟩ := hcont (swap s2 c p) (hfr.comp (swap_frame s2 c p))
        (by intro i; simp [hval]) (by intro i; simp [hst]) (by intro i; simp [how])
        (by intro i h0 h1 hip hic; rw [swap_ver]; exact hfree2 i h0 h1 hip hic)
      exact ⟨r, hr1, hr2, hr3, fun _ hle => by rw [← hp] at hle; omega⟩
    · rw [if_neg hd]
      obtain ⟨r, hr1, hr2, hr3⟩ := hcont (swap s2 c p) (hfr.comp (swap_frame s2 c p))
        (by intro i; simp [hval]) (by intro i; simp [hst]) (by intro i; simp [how])
        (by intro i h0 h1 hip hic; rw [swap_ver]; exact hfree2 i h0 h1 hip hic)
      exact ⟨r, hr1, hr2, hr3, fun _ hle => by rw [← hp] at hle; omega⟩
  · rw [if_neg hgt]
    have hfr' : Frame s (unlockNode T (unlockNode T (settle s2 c) c) p) :=
      ((hfr.comp (settle_frame s2 c)).comp (unlockNode_frame T _ c)).comp
        (unlockNode_frame T _ p)
    have hv' : ∀ i, ((unlockNode T (unlockNode T (settle s2 c) c) p).heap_ i).val
        = (s.heap_ i).val := by
      intro i; simp [hval]
    have hp' : pay (unlockNode T (unlockNode T (settle s2 c) c) p) = pay s :=
      funext fun i => pay_congr s _ hfr'.mem _ _ (hv' i)
    refine ⟨_, rfl, ?_, ?_, fun _ _ => hv'⟩
    rotate_left
    · rw [hp']
      exact heapOrdered_of_siftUpInv_stop (pay s) n c hinv (fun _ => by rw [← hp]; omega)
    exact
      { frame := hfr'
        rearranged := Rearranged.of_same n s _ hv'
        free := by
          intro i h0 h1
          show is_locked T ((unlockNode T (unlockNode T (settle s2 c) c) p).heap_ i).ver = false
          rw [unlockNode_ver]
          split_ifs with hip
          · exact is_locked_unlockWord T _
          · rw [unlockNode_ver]
            split_ifs with hic
            · exact is_locked_unlockWord T _
            · rw [settle_ver]; exact hfree2 i h0 h1 hip hic
        root_ge := by
          show pay s c ≤ pay (unlockNode T (unlockNode T (settle s2 c) c) p) 0
          rw [hp']
          have h1 : pay s c ≤ pay s p := by omega
          have h2 := root_ge_of_almostHeap (pay s) c halm p.toNat p le_rfl hp0 (by omega)
          exact le_trans h1 h2
        returned := by
          intro _ i h0 h1
          show ((unlockNode T (unlockNode T (settle s2 c) c) p).heap_ i).status = .AVAILABLE
          simp only [unlockNode_status, settle_status]
          split_ifs with hic
          · rfl
          · rw [hst]; exact hav i h0 h1 hic
        at_root := by intro c' h; simp at h }

/-- The sift-up loop of `add`, started at an owned node `c` of a prefix that
satisfies the sift-up invariant at `c`: it returns with `AddLoopPost` and the
prefix in max-heap order; when `c` holds at most what its parent holds no
value has moved. -/
theorem addLoop_order (T : TransactionTid) (me : Int) : ∀ (fuel : Nat) (s : State) (c n : Int),
    s.size_ = n → n ≤ s.heap_size → 0 ≤ c → c < n → c ≤ fuel →
    amOwner me (s.heap_ c) = true →
    (∀ i : Int, 0 ≤ i → i < n → i ≠ c → (s.heap_ i).status = .AVAILABLE) →
    NodesFree T s n →
    AlmostHeap (pay s) c →
    SiftUpInv (pay s) n c →
    (∀ i : Int, 0 ≤ i → i < n → i ≠ c → is_dirty T (version s (s.heap_ i).val) = true →
      ∃ it, Sto.find s.txn ((s.heap_ i).val : Int) = some it ∧ has_dirty it = true) →
    ∃ r, addLoop T me fuel s c = .ok r ∧ AddLoopPost T me n (pay s c) s r ∧ HeapOrdered (pay r.1) n ∧
        (0 < c → pay s c ≤ pay s ((c - 1) / 2) → ∀ i, (r.1.heap_ i).val = (s.heap_ i).val) := by
  intro fuel
  induction fuel with
  | zero =>
    intro s c n hsz hcap hc0 hcn hfuel hown hav hfree halm hinv hdirty
    have hc : c = 0 := by omega
    subst hc
    refine ⟨(s, some 0), by simp [addLoop], ?_,
      heapOrdered_of_siftUpInv_stop (pay s) n 0 hinv (fun h => absurd h (lt_irrefl 0)),
      fun h => absurd h (lt_irrefl 0)⟩
    exact
      { frame := Frame.same s
        rearranged := Rearranged.of_same n s s (fun _ => rfl)
        free := hfree
        root_ge := le_rfl
        returned := by intro h; simp at h
        at_root := by
          intro c' h
          simp only [Option.some.injEq] at h
          subst h
          exact ⟨rfl, hown, fun i h0 h1 => hav i (by omega) h1 (by omega)⟩ }
  | succ fuel ih =>
    intro s c n hsz hcap hc0 hcn hfuel hown hav hfree halm hinv hdirty
    by_cases hc : c > 0
    · have hp0 : 0 ≤ (c - 1) / 2 := by omega
      have hpc : (c - 1) / 2 < c := by omega
      have hLp := lockNode_ok T s ((c - 1) / 2) (by omega) (hfree _ hp0 (by omega))
      have hLc := lockNode_ok T
        (setNodeVer s ((c - 1) / 2) ((s.heap_ ((c - 1) / 2)).ver ||| T.lock_bit)) c
        (by show 0 ≤ c ∧ c < s.heap_size; omega)
        (by
          rw [setNodeVer_ver, if_neg (by omega)]
          exact hfree _ hc0 hcn)
      rw [addLoop, if_pos hc]
      simp only [hLp, hLc, Res.ok_bind_do]
      exact addLoop_order_step T me fuel ih s _ c ((c - 1) / 2) n hsz hcap hc hcn hfuel rfl hown hav
        halm hinv hdirty ((setNodeVer_frame s _ _).comp (setNodeVer_frame _ _ _))
        (by intro i; simp) (by intro i; simp) (by intro i; simp)
        (by
          intro i h0 h1 hip hic
          rw [setNodeVer_ver, if_neg hic, setNodeVer_ver, if_neg hip]
          exact hfree i h0 h1)
    · have hc' : c = 0 := by omega
      subst hc'
      refine ⟨(s, some 0), by simp [addLoop], ?_,
        heapOrdered_of_siftUpInv_stop (pay s) n 0 hinv (fun h => absurd h (lt_irrefl 0)),
        fun h => absurd h (lt_irrefl 0)⟩
      exact
        { frame := Frame.same s
          rearranged := Rearranged.of_same n s s (fun _ => rfl)
          free := hfree
          root_ge := le_rfl
          returned := by intro h; simp at h
          at_root := by
            intro c' h
            simp only [Option.some.injEq] at h
            subst h
            exact ⟨rfl, hown, fun i h0 h1 => hav i (by omega) h1 (by omega)⟩ }


end PriorityQueue

namespace PriorityQueue

/-- The part of `add` that follows the placement of the new node at index
`m` (state `sC`) on a prefix in max-heap order: the result is in max-heap
order, and the new node stays at `m` when it holds at most what its parent
holds. -/
theorem add_after_place_order (T : TransactionTid) (me : Int) (s sC : State) (m : Int) (v : Nat)
    (hsz : s.size_ = m) (hm0 : 0 ≤ m)
    (hset : Settled s m) (hfree : NodesFree T s m)
    (hord : HeapOrdered (pay s) m)
    (hdirty : ∀ i : Int, 0 ≤ i → i < m → is_dirty T (version s (s.heap_ i).val) = true →
      ∃ it, Sto.find s.txn ((s.heap_ i).val : Int) = some it ∧ has_dirty it = true)
    (hCsz : sC.size_ = m + 1) (hCcap : m + 1 ≤ sC.heap_size)
    (hChl : is_locked T sC.heaplock_ = false)
    (hCpl : sC.poplock_ = s.poplock_) (hCpv : sC.popversion_ = s.popversion_)
    (hCmem : sC.mem = s.mem) (hCnext : sC.mem_next = s.mem_next) (hCtxn : sC.txn = s.txn)
    (hCnew : sC.heap_ m = { val := v, ver := 0, status := .BUSY, owner := me })
    (hCold : ∀ i, i ≠ m → sC.heap_ i = s.heap_ i) :
    ∃ s', ((addLoop T me m.toNat sC m).bind fun r =>
        match r.2 with
        | none => Res.ok r.1
        | some child =>
          if child = 0 then
            (lockNode T r.1 0).bind fun s =>
            Res.ok (unlockNode T (if amOwner me (s.heap_ 0) = true then settle s 0 else s) 0)
          else Res.ok r.1) = .ok s' ∧ AddPost T m v s s' ∧ HeapOrdered (pay s') (m + 1) ∧
      (0 < m → read_value s v ≤ pay s ((m - 1) / 2) →
        (s'.heap_ m).val = v ∧ ∀ i, i ≠ m → (s'.heap_ i).val = (s.heap_ i).val) := by
  have halm : AlmostHeap (pay s) m := AlmostHeap.of_heapOrdered (pay s) m hord
  have hpayC : ∀ i, i ≠ m → pay sC i = pay s i := by
    intro i hi
    apply pay_congr s sC hCmem
    rw [hCold i hi]
  have hpaym : pay sC m = read_value s v := by
    simp [pay, read_value, hCnew, hCmem]
  have hliveC : livePayloads sC = livePayloads s ++ [read_value s v] := by
    unfold livePayloads
    rw [hCsz, hsz]
    have hnat : (m + 1).toNat = m.toNat + 1 := by omega
    rw [hnat, map_range_succ]
    congr 1
    · apply List.map_congr_left
      intro i hi
      rw [List.mem_range] at hi
      exact hpayC _ (by omega)
    · have : ((m.toNat : Nat) : Int) = m := by omega
      rw [this, hpaym]
  obtain ⟨r, hrun, hpost, hordr, hstay⟩ := addLoop_order T me m.toNat sC m (m + 1) hCsz hCcap hm0 (by omega)
    (by omega)
    (by rw [hCnew]; simp [amOwner])
    (by
      intro i h0 h1 hi
      rw [hCold i hi]
      exact hset i h0 (by omega))
    (by
      intro i h0 h1
      by_cases hi : i = m
      · rw [hi, hCnew]; exact is_locked_zero T
      · rw [hCold i hi]; exact hfree i h0 (by omega))
    (by
      intro i hi0 hi1
      rw [hpayC i (by omega), hpayC _ (by omega)]
      exact halm i hi0 hi1)
    (by
      constructor
      · intro i hi0 hi1 him
        rw [hpayC i him, hpayC _ (by omega)]
        exact hord i hi0 (by omega)
      · intro hm1 d hd0 hd1 hdm
        omega)
    (by
      intro i h0 h1 hi hd
      rw [hCold i hi] at hd ⊢
      rw [hCtxn]
      have : version sC (s.heap_ i).val = version s (s.heap_ i).val := by
        simp [version, hCmem]
      rw [this] at hd
      exact hdirty i h0 (by omega) hd)
  rw [hrun, Res.ok_bind]
  rw [hpaym] at hpost
  have hbase : ∀ s' : State, Frame r.1 s' → (∀ i, (s'.heap_ i).val = (r.1.heap_ i).val) →
      Settled s' (m + 1) → NodesFree T s' (m + 1) → AddPost T m v s s' ∧
      HeapOrdered (pay s') (m + 1) ∧
      (0 < m → read_value s v ≤ pay s ((m - 1) / 2) →
        (s'.heap_ m).val = v ∧ ∀ i, i ≠ m → (s'.heap_ i).val = (s.heap_ i).val) := by
    intro s' hfr hv hst hfl
    have hfr' : Frame sC s' := hpost.frame.comp hfr
    have hre : Rearranged (m + 1) sC s' :=
      hpost.rearranged.chain (Rearranged.of_same (m + 1) r.1 s' hv)
    have hpeq : pay s' = pay r.1 := funext fun i => pay_congr r.1 s' hfr.mem i i (hv i)
    refine ⟨?_, by rw [hpeq]; exact hordr, ?_⟩
    rotate_left
    · intro hm1 hle
      have hall := hstay hm1 (by rw [hpaym, hpayC _ (by omega)]; exact hle)
      constructor
      · rw [hv, hall, hCnew]
      · intro i hi
        rw [hv, hall, hCold i hi]
    exact
      { size_ := hfr'.size_.trans hCsz
        heap_size := by rw [hfr'.heap_size]; exact hCcap
        heaplock_ := by rw [hfr'.heaplock_]; exact hChl
        poplock_ := hfr'.poplock_.trans hCpl
        popversion_ := hfr'.popversion_.trans hCpv
        mem := hfr'.mem.trans hCmem
        mem_next := hfr'.mem_next.trans hCnext
        txn := hfr'.txn.trans hCtxn
        settled := hst
        free := hfl
        perm := by
          rw [← hliveC]
          exact hre.perm hCsz (hfr'.size_.trans hCsz) hfr'.mem
        root_ge := by
          have : pay s' 0 = pay r.1 0 := pay_congr r.1 s' hfr.mem 0 0 (hv 0)
          rw [this]
          exact hpost.root_ge }
  cases hr2 : r.2 with
  | none =>
    simp only []
    exact ⟨r.1, rfl, hbase r.1 (Frame.same _) (fun _ => rfl) (hpost.returned hr2) hpost.free⟩
  | some c' =>
    obtain ⟨hc0, hown, hothers⟩ := hpost.at_root c' hr2
    subst hc0
    simp only [if_true]
    have hL := lockNode_ok T r.1 0 (by rw [hpost.frame.heap_size]; omega)
      (hpost.free 0 le_rfl (by omega))
    rw [hL, Res.ok_bind]
    have hown' : amOwner me ((setNodeVer r.1 0 ((r.1.heap_ 0).ver ||| T.lock_bit)).heap_ 0)
        = true := by
      rw [amOwner_congr me _ (r.1.heap_ 0) (by simp) (by simp)]
      exact hown
    rw [if_pos hown']
    refine ⟨_, rfl, hbase _ ?_ ?_ ?_ ?_⟩
    · exact ((setNodeVer_frame _ _ _).comp (settle_frame _ _)).comp (unlockNode_frame T _ _)
    · intro i; simp
    · intro i h0 h1
      simp only [unlockNode_status, settle_status]
      split_ifs with hi
      · rfl
      · simp only [setNodeVer_status]
        exact hothers i (by omega) h1
    · intro i h0 h1
      rw [unlockNode_ver]
      split_ifs with hi
      · exact is_locked_unlockWord T _
      · rw [settle_ver, setNodeVer_ver, if_neg hi]
        exact hpost.free i h0 h1

/-- `add(v)` on a settled, unlocked prefix in max-heap order, where every
dirty value is one the running transaction marked dirty: it returns with
`AddPost` and the longer prefix in max-heap order, and the new value stays at
the last index when it holds at most what its parent holds. -/
theorem add_order (T : TransactionTid) (me : Int) (s : State) (m : Int) (v : Nat)
    (hsz : s.size_ = m) (hm0 : 0 ≤ m) (hcap : m ≤ s.heap_size)
    (hset : Settled s m) (hfree : NodesFree T s m) (hhl : is_locked T s.heaplock_ = false)
    (hord : HeapOrdered (pay s) m)
    (hdirty : ∀ i : Int, 0 ≤ i → i < m → is_dirty T (version s (s.heap_ i).val) = true →
      ∃ it, Sto.find s.txn ((s.heap_ i).val : Int) = some it ∧ has_dirty it = true) :
    ∃ s', add T me s v = .ok s' ∧ AddPost T m v s s' ∧ HeapOrdered (pay s') (m + 1) ∧
      (0 < m → read_value s v ≤ pay s ((m - 1) / 2) →
        (s'.heap_ m).val = v ∧ ∀ i, i ≠ m → (s'.heap_ i).val = (s.heap_ i).val) := by
  rw [add, lockWord_of_free T _ hhl]
  simp only [setHeaplock_size_, hsz, setSize_heap_size, setHeaplock_heap_size]
  by_cases hfull : m < 0 ∨ m ≥ s.heap_size
  · rw [if_pos hfull]
    have hmc : s.heap_size = m := by omega
    apply add_after_place_order T me s _ m v hsz hm0 hset hfree hord hdirty
    · rfl
    · show m + 1 ≤ s.heap_size + 1; omega
    · exact is_locked_unlockWord T _
    · rfl
    · rfl
    · rfl
    · rfl
    · rfl
    · show Function.update s.heap_ s.heap_size _ m = _
      rw [hmc, Function.update_same]
    · intro i hi
      show Function.update s.heap_ s.heap_size _ i = _
      rw [hmc, Function.update_noteq hi]
  · rw [if_neg hfull]
    apply add_after_place_order T me s _ m v hsz hm0 hset hfree hord hdirty
    · rfl
    · show m + 1 ≤ s.heap_size; omega
    · exact is_locked_unlockWord T _
    · rfl
    · rfl
    · rfl
    · rfl
    · rfl
    · show Function.update s.heap_ m _ m = _
      rw [Function.update_same]
    · intro i hi
      show Function.update s.heap_ m _ i = _
      rw [Function.update_noteq hi]


end PriorityQueue

namespace PriorityQueue

/-- C27. Sift-up correctness: on a heap whose live prefix of `m` nodes lies
inside the vector, is in max-heap order, has every node `AVAILABLE` and
unlocked and the heap lock free, and in which every dirty value was dirtied by
the running transaction, `add(v)` returns with `size_ = m + 1`, the multiset
of live payloads equal to the old one plus the payload of `v`, the live prefix
in max-heap order and every node settled and unlocked; when the payload of `v`
is at most (in particular equal to) the payload of the parent of the last
index, `v` stays at the last index and no other node changes its value. -/
theorem add_sift_up (T : TransactionTid) (me : Int) (s : State) (m : Int) (v : Nat)
    (hsz : s.size_ = m) (hm0 : 0 ≤ m) (hcap : m ≤ s.heap_size)
    (hset : Settled s m) (hfree : NodesFree T s m) (hhl : is_locked T s.heaplock_ = false)
    (hord : HeapOrdered (pay s) m)
    (hdirty : ∀ i : Int, 0 ≤ i → i < m → is_dirty T (version s (s.heap_ i).val) = true →
      ∃ it, Sto.find s.txn ((s.heap_ i).val : Int) = some it ∧ has_dirty it = true) :
    ∃ s', add T me s v = .ok s' ∧ s'.size_ = m + 1 ∧
      (↑(livePayloads s') : Multiset Int) = read_value s v ::ₘ ↑(livePayloads s) ∧
      HeapOrdered (pay s') (m + 1) ∧ Settled s' (m + 1) ∧ NodesFree T s' (m + 1) ∧
      (0 < m → read_value s v ≤ pay s ((m - 1) / 2) →
        (s'.heap_ m).val = v ∧ ∀ i, i ≠ m → (s'.heap_ i).val = (s.heap_ i).val) := by
  obtain ⟨s', hadd, hpost, hord', hstay⟩ :=
    add_order T me s m v hsz hm0 hcap hset hfree hhl hord hdirty
  refine ⟨s', hadd, hpost.size_, ?_, hord', hpost.settled, hpost.free, hstay⟩
  rw [Multiset.cons_coe]
  exact Multiset.coe_eq_coe.mpr (hpost.perm.trans (List.perm_append_singleton _ _))

/-- C27 on the sample queue holding 5 and 3 and the value at address 2, whose
payload is 0: `add` returns with three live nodes in max-heap order and the
new value at index 2. -/
theorem add_sift_up_witness :
    ∃ s', add TransactionTid.sample 0 State.sample 2 = .ok s' ∧ s'.size_ = 2 + 1 ∧
      HeapOrdered (pay s') (2 + 1) ∧ (s'.heap_ 2).val = 2 := by
  obtain ⟨s', h1, h2, -, h4, -, -, h7⟩ := add_sift_up TransactionTid.sample 0 State.sample 2 2
    rfl (by decide) (by decide) committed_sample.settled committed_sample.free (by decide)
    committed_sample.ordered
    (fun i h0 h1 hd => by
      rw [committed_sample.not_dirty i h0 h1] at hd
      exact absurd hd (by decide))
  exact ⟨s', h1, h2, h4, (h7 (by decide) (by decide)).1⟩

end PriorityQueue

/-! ### ContentionManager: backoff across restarts, order of the timestamps -/

namespace ContentionManager

/-- With at most 10 recorded aborts `on_rollback` returns; the count becomes
`min (old + 1) 10`, the wait is below the new count times 8000, and the
abort counts of the other slots are as they were. -/
theorem on_rollback_of_le (s : State) (tid : Nat) (rand_r : Nat → Nat × Nat)
    (hle : s.abort_count (tid * 4) ≤ 10) :
    ∃ s' cycles, on_rollback s tid rand_r = some (s', cycles) ∧
      s'.abort_count (tid * 4) = min (s.abort_count (tid * 4) + 1) 10 ∧
      cycles < s'.abort_count (tid * 4) * 8000 := by
  by_cases hlt : s.abort_count (tid * 4) < 10
  · have hmod : (s.abort_count (tid * 4) + 1) % U128 = s.abort_count (tid * 4) + 1 :=
      Nat.mod_eq_of_lt (by unfold U128; omega)
    have hm2 : ((s.abort_count (tid * 4) + 1) * 8000) % U128
        = (s.abort_count (tid * 4) + 1) * 8000 :=
      Nat.mod_eq_of_lt (by unfold U128; omega)
    have hpos : (s.abort_count (tid * 4) + 1) * 8000 ≠ 0 := by omega
    have hr := Nat.mod_lt (rand_r (s.seed (tid * 4))).1
      (show 0 < (s.abort_count (tid * 4) + 1) * 8000 by omega)
    have hr64 := Nat.mod_le ((rand_r (s.seed (tid * 4))).1 %
      ((s.abort_count (tid * 4) + 1) * 8000)) U64
    have hres : on_rollback s tid rand_r = some
        ({ s with
            abort_count := Function.update s.abort_count (tid * 4)
              (s.abort_count (tid * 4) + 1)
            seed := Function.update s.seed (tid * 4) (rand_r (s.seed (tid * 4))).2 },
          (rand_r (s.seed (tid * 4))).1 % ((s.abort_count (tid * 4) + 1) * 8000) % U64) := by
      unfold on_rollback
      simp only [SUCC_ABORTS_MAX, WAIT_CYCLES_MULTIPLICATOR, hlt, if_true,
        Function.update_same, hmod, hm2, hpos, if_false]
    refine ⟨_, _, hres, ?_, ?_⟩
    · simp only [Function.update_same]; omega
    · simp only [Function.update_same]; omega
  · have h10 : s.abort_count (tid * 4) = 10 := by omega
    have hm2 : (10 * 8000) % U128 = 80000 := by unfold U128; norm_num
    have hr := Nat.mod_lt (rand_r (s.seed (tid * 4))).1 (show 0 < 80000 by omega)
    have hr64 := Nat.mod_le ((rand_r (s.seed (tid * 4))).1 % 80000) U64
    have hres : on_rollback s tid rand_r = some
        ({ s with seed := Function.update s.seed (tid * 4) (rand_r (s.seed (tid * 4))).2 },
          (rand_r (s.seed (tid * 4))).1 % 80000 % U64) := by
      unfold on_rollback
      simp only [SUCC_ABORTS_MAX, WAIT_CYCLES_MULTIPLICATOR, hlt, if_false]
      simp only [h10, hm2]
      simp
    refine ⟨_, _, hres, ?_, ?_⟩
    · simp only [h10]; rfl
    · simp only [h10]; omega

/-- Rollbacks followed by restarts, from a slot with `a ≤ 10` recorded aborts:
the run returns and the count is `min (a + k) 10` after `k` repetitions. -/
theorem rollbackRestarts_count (mask tid : Nat) (rs : List (Nat → Nat × Nat)) :
    ∀ s : State, s.abort_count (tid * 4) ≤ 10 →
      ∃ s', run mask (rollbackRestarts tid rs) s = some s' ∧
        s'.abort_count (tid * 4) = min (s.abort_count (tid * 4) + rs.length) 10 := by
  induction rs with
  | nil =>
    intro s hle
    exact ⟨s, rfl, by simp [hle]⟩
  | cons r rs ih =>
    intro s hle
    obtain ⟨s1, c, h1, hc1, -⟩ := on_rollback_of_le s tid r hle
    have hst : (start s1 tid true).abort_count (tid * 4) = s1.abort_count (tid * 4) := rfl
    obtain ⟨s', hrun, hcount⟩ := ih (start s1 tid true) (by rw [hst, hc1]; omega)
    refine ⟨s', ?_, ?_⟩
    · simp only [rollbackRestarts, run, Call.exec, h1, Option.map_some', Option.some_bind]
      exact hrun
    · rw [hcount, hst, hc1, List.length_cons]
      omega

/-- C34. Backoff escalation across restarts: after a fresh start of thread
`tid`, `k` repetitions of `on_rollback` followed by `start` as a restart (with
any generators) return and leave the slot's `abort_count` equal to
`min k 10`; the next rollback, the `k + 1`-th, returns, waits fewer than
`min (k + 1) 10 * 8000` cycles and leaves the count `min (k + 1) 10`, and the
restart after it keeps that count. -/
theorem backoff_escalates (mask : Nat) (s : State) (tid : Nat)
    (rs : List (Nat → Nat × Nat)) (rand_r : Nat → Nat × Nat) :
    ∃ sk, run mask (rollbackRestarts tid rs) (start s tid false) = some sk ∧
      sk.abort_count (tid * 4) = min rs.length 10 ∧
      ∃ s' cycles, on_rollback sk tid rand_r = some (s', cycles) ∧
        cycles < min (rs.length + 1) 10 * 8000 ∧
        s'.abort_count (tid * 4) = min (rs.length + 1) 10 ∧
        (start s' tid true).abort_count (tid * 4) = min (rs.length + 1) 10 := by
  have h0 : (start s tid false).abort_count (tid * 4) = 0 := by simp [start]
  obtain ⟨sk, hrun, hcount⟩ := rollbackRestarts_count mask tid rs (start s tid false)
    (by rw [h0]; omega)
  rw [h0, Nat.zero_add] at hcount
  obtain ⟨s', c, h1, hc1, hc2⟩ := on_rollback_of_le sk tid rand_r (by rw [hcount]; omega)
  have hnew : s'.abort_count (tid * 4) = min (rs.length + 1) 10 := by
    rw [hc1, hcount]; omega
  refine ⟨sk, hrun, hcount, s', c, h1, ?_, hnew, hnew⟩
  rw [← hnew]
  exact hc2

/-- C36. `on_rollback` never divides by zero: for every count of at most 10 on
entry (0, between 1 and 9, or already 10) the call returns, and the modulus
`abort_count * 8000`, taken on the count after the increment as the 128-bit
product, is at least 8000 and is what the wait is reduced by. -/
theorem on_rollback_modulus_pos (s : State) (tid : Nat) (rand_r : Nat → Nat × Nat)
    (hle : s.abort_count (tid * 4) ≤ 10) :
    ∃ s' cycles, on_rollback s tid rand_r = some (s', cycles) ∧
      8000 ≤ (s'.abort_count (tid * 4) * WAIT_CYCLES_MULTIPLICATOR) % U128 ∧
      cycles < (s'.abort_count (tid * 4) * WAIT_CYCLES_MULTIPLICATOR) % U128 ∧
      1 ≤ s'.abort_count (tid * 4) := by
  obtain ⟨s', c, h1, hc1, hc2⟩ := on_rollback_of_le s tid rand_r hle
  have hb : 1 ≤ s'.abort_count (tid * 4) ∧ s'.abort_count (tid * 4) ≤ 10 := by
    rw [hc1]; omega
  have hmod : (s'.abort_count (tid * 4) * WAIT_CYCLES_MULTIPLICATOR) % U128
      = s'.abort_count (tid * 4) * 8000 := by
    unfold WAIT_CYCLES_MULTIPLICATOR
    exact Nat.mod_eq_of_lt (by unfold U128; omega)
  refine ⟨s', c, h1, ?_, ?_, hb.1⟩
  · rw [hmod]; omega
  · rw [hmod]; exact hc2

/-- C36 at the three kinds of entry count: 0 (initial state), 5 and 10. -/
theorem on_rollback_modulus_pos_witness :
    (∃ s' cycles, on_rollback State.init 0 (fun seed => (123456789, seed + 1))
        = some (s', cycles) ∧
      8000 ≤ (s'.abort_count (0 * 4) * WAIT_CYCLES_MULTIPLICATOR) % U128) ∧
    (∃ s' cycles, on_rollback
        { State.init with abort_count := Function.update State.init.abort_count 0 5 } 0
        (fun seed => (123456789, seed + 1)) = some (s', cycles) ∧
      8000 ≤ (s'.abort_count (0 * 4) * WAIT_CYCLES_MULTIPLICATOR) % U128) ∧
    (∃ s' cycles, on_rollback
        { State.init with abort_count := Function.update State.init.abort_count 0 10 } 0
        (fun seed => (123456789, seed + 1)) = some (s', cycles) ∧
      8000 ≤ (s'.abort_count (0 * 4) * WAIT_CYCLES_MULTIPLICATOR) % U128) := by
  refine ⟨?_, ?_, ?_⟩
  · obtain ⟨s', c, h1, h2, -⟩ := on_rollback_modulus_pos State.init 0
      (fun seed => (123456789, seed + 1)) (by decide)
    exact ⟨s', c, h1, h2⟩
  · obtain ⟨s', c, h1, h2, -⟩ := on_rollback_modulus_pos
      { State.init with abort_count := Function.update State.init.abort_count 0 5 } 0
      (fun seed => (123456789, seed + 1)) (by decide)
    exact ⟨s', c, h1, h2⟩
  · obtain ⟨s', c, h1, h2, -⟩ := on_rollback_modulus_pos
      { State.init with abort_count := Function.update State.init.abort_count 0 10 } 0
      (fun seed => (123456789, seed + 1)) (by decide)
    exact ⟨s', c, h1, h2⟩

end ContentionManager

namespace ContentionManager

/-- A call of `on_write` that takes the assigning branch stores the counter in
the caller's slot and advances the counter. -/
theorem on_write_assigning (s : State) (tid : Nat)
    (h : s.timestamp (tid * 4) = MAX_TS ∧
      (on_write s tid).write_set_size (tid * 4) = TS_THRESHOLD) :
    (on_write s tid).timestamp (tid * 4) = s.ts ∧ (on_write s tid).ts = (s.ts + 1) % U64 := by
  have hw : ((s.write_set_size (tid * 4) + 1) % U128) = TS_THRESHOLD := by
    have h2 := h.2
    unfold on_write at h2
    simp only [Function.update_same] at h2
    split_ifs at h2 <;> simpa using h2
  unfold on_write
  simp only [Function.update_same, h.1, hw, and_self, if_true]

/-- A call of `on_write` that does not take the assigning branch leaves the
counter alone. -/
theorem on_write_not_assigning (s : State) (tid : Nat)
    (h : ¬ (s.timestamp (tid * 4) = MAX_TS ∧
      (on_write s tid).write_set_size (tid * 4) = TS_THRESHOLD)) :
    (on_write s tid).ts = s.ts := by
  by_cases hc : s.timestamp (tid * 4) = MAX_TS ∧
      ((s.write_set_size (tid * 4) + 1) % U128) = TS_THRESHOLD
  · exfalso
    apply h
    refine ⟨hc.1, ?_⟩
    unfold on_write
    simp only [Function.update_same, hc.1, hc.2, and_self, if_true]
  · unfold on_write
    simp only [Function.update_same]
    rw [if_neg hc]

/-- The calls other than `on_write` leave the counter alone. -/
theorem exec_ts (mask : Nat) (s s' : State) (c : Call) (hc : ∀ tid, c ≠ .on_write tid)
    (h : c.exec mask s = some s') : s'.ts = s.ts := by
  cases c with
  | should_abort tid wlock abo =>
    simp only [Call.exec, Option.some.injEq] at h
    subst h
    unfold ContentionManager.should_abort
    simp only []
    split_ifs <;> rfl
  | on_write tid => exact absurd rfl (hc tid)
  | start tid r =>
    simp only [Call.exec, Option.some.injEq] at h
    subst h
    unfold ContentionManager.start
    cases r <;> rfl
  | on_rollback tid rand_r =>
    simp only [Call.exec, Option.map_eq_some'] at h
    obtain ⟨r, hr, rfl⟩ := h
    unfold ContentionManager.on_rollback at hr
    simp only [] at hr
    split_ifs at hr <;> simp only [Option.some.injEq] at hr <;> subst hr <;> rfl

/-- From a state whose counter is `s.ts`, the assignments of a run that does
not take the counter to `2^64` are `s.ts`, `s.ts + 1`, and so on, in order. -/
theorem assignments_from (mask : Nat) (calls : List Call) :
    ∀ s : State, s.ts + (assignments mask calls s).length < U64 →
      (assignments mask calls s).map Prod.snd
        = List.range' s.ts (assignments mask calls s).length := by
  induction calls with
  | nil => intro s _; simp [assignments]
  | cons c cs ih =>
    intro s hlen
    unfold assignments at hlen ⊢
    cases hex : c.exec mask s with
    | none => simp
    | some s' =>
      simp only [hex] at hlen ⊢
      cases c with
      | on_write tid =>
        have hs' : s' = on_write s tid := by
          simp only [Call.exec, Option.some.injEq] at hex
          exact hex.symm
        by_cases hc : s.timestamp (tid * 4) = MAX_TS ∧
            (on_write s tid).write_set_size (tid * 4) = TS_THRESHOLD
        · simp only [hc, and_self, if_true, List.singleton_append, List.length_cons,
            List.map_cons] at hlen ⊢
          obtain ⟨h1, h2⟩ := on_write_assigning s tid hc
          have hts' : s'.ts = s.ts + 1 := by
            rw [hs', h2]
            exact Nat.mod_eq_of_lt (by omega)
          have := ih s' (by rw [hts']; omega)
          rw [this, hts', hs', h1]
          rfl
        · simp only [hc, if_false, List.nil_append] at hlen ⊢
          have hts' : s'.ts = s.ts := by rw [hs']; exact on_write_not_assigning s tid hc
          have := ih s' (by rw [hts']; exact hlen)
          rw [this, hts']
      | should_abort tid wlock abo =>
        simp only [List.nil_append] at hlen ⊢
        have hts' := exec_ts mask s s' _ (fun _ h => by cases h) hex
        have := ih s' (by rw [hts']; exact hlen)
        rw [this, hts']
      | start tid r =>
        simp only [List.nil_append] at hlen ⊢
        have hts' := exec_ts mask s s' _ (fun _ h => by cases h) hex
        have := ih s' (by rw [hts']; exact hlen)
        rw [this, hts']
      | on_rollback tid rand_r =>
        simp only [List.nil_append] at hlen ⊢
        have hts' := exec_ts mask s s' _ (fun _ h => by cases h) hex
        have := ih s' (by rw [hts']; exact hlen)
        rw [this, hts']

/-- A run from the initial state returns: `assignments` follows it to its
end. -/
theorem run_init_isSome (mask : Nat) (calls : List Call) :
    ∀ s : State, Reachable mask s → ∃ s', run mask calls s = some s' := by
  induction calls with
  | nil => intro s _; exact ⟨s, rfl⟩
  | cons c cs ih =>
    intro s hr
    obtain ⟨s1, h1, hr1⟩ := exec_reachable mask s hr c
    obtain ⟨s', hrun⟩ := ih s1 hr1
    exact ⟨s', by simp [run, h1, hrun]⟩

/-- C35. Timestamps are unique and ordered: every run of calls of the four
operations from the initial state returns, and when it makes fewer than
`2^64` timestamp assignments (the 64-bit counter has not wrapped), the
timestamps that successive assigning calls of `on_write` leave in their
caller's slot are 0, 1, 2, and so on in assignment order: strictly increasing,
so never equal for two different assignments, the earlier one holding the
smaller value. -/
theorem timestamps_ordered (mask : Nat) (calls : List Call)
    (hwrap : (assignments mask calls State.init).length < U64) :
    (∃ s', run mask calls State.init = some s') ∧
    (assignments mask calls State.init).map Prod.snd
      = List.range (assignments mask calls State.init).length ∧
    List.Pairwise (fun a b => a < b) ((assignments mask calls State.init).map Prod.snd) := by
  have h := assignments_from mask calls State.init
    (by show 0 + _ < U64; rw [Nat.zero_add]; exact hwrap)
  have h0 : State.init.ts = 0 := rfl
  rw [h0, ← List.range_eq_range'] at h
  refine ⟨run_init_isSome mask calls State.init Reachable.init, h, ?_⟩
  rw [h]
  exact List.pairwise_lt_range _

/-- C35 on two threads that each start afresh and make ten writes, thread 1
first: thread 1 is assigned 0 and thread 2 is assigned 1. -/
theorem timestamps_ordered_witness :
    assignments 31
        ([.start 1 false] ++ List.replicate 10 (.on_write 1) ++
          [.start 2 false] ++ List.replicate 10 (.on_write 2)) State.init
      = [(1, 0), (2, 1)] ∧
    (assignments 31
        ([.start 1 false] ++ List.replicate 10 (.on_write 1) ++
          [.start 2 false] ++ List.replicate 10 (.on_write 2)) State.init).map Prod.snd
      = List.range 2 :=
  have hq : assignments 31
        ([.start 1 false] ++ List.replicate 10 (.on_write 1) ++
          [.start 2 false] ++ List.replicate 10 (.on_write 2)) State.init
      = [(1, 0), (2, 1)] := by decide
  ⟨hq, by
    have h := (timestamps_ordered 31
      ([.start 1 false] ++ List.replicate 10 (.on_write 1) ++
        [.start 2 false] ++ List.replicate 10 (.on_write 2))
      (by rw [hq]; decide)).2.1
    rw [hq] at h ⊢
    exact h⟩

end ContentionManager

/-! ### PriorityQueue: aborted pushes and aborted pops seen by later operations -/

namespace PriorityQueue

/-- C31, failing run. A committed push of 5, then a transaction that pushes 9
and aborts: the live prefix holds 9, marked deleted, above 5.  A later
transaction's `pop()` records the value holding 9, which is marked deleted, as
its popped value, and its commit succeeds; had 9 never been pushed the same
`pop()` would have recorded 5.  `pop()` takes whatever `removeMax()` returns
and never looks at the deleted mark of the root. -/
theorem pop_records_aborted_push :
    (((runCommitted TransactionTid.sample 0 [.push 5] State.init).bind fun r =>
      (push TransactionTid.sample 0 (setTxn r.2 []) 9).bind
        (abortTxn TransactionTid.sample 0)).val?.map
      (fun s => (livePayloads s, is_deleted TransactionTid.sample (version s (s.heap_ 0).val),
        s.txn.length)))
      = some ([9, 5], true, 0) ∧
    ((((runCommitted TransactionTid.sample 0 [.push 5] State.init).bind fun r =>
      (push TransactionTid.sample 0 (setTxn r.2 []) 9).bind
        (abortTxn TransactionTid.sample 0)).bind (pop TransactionTid.sample)).val?.map
      (fun s => (s.txn.filter has_delete).map
        (fun it => (read_value s it.key.toNat,
          is_deleted TransactionTid.sample (version s it.key.toNat)))))
      = some [(9, true)] ∧
    (((((runCommitted TransactionTid.sample 0 [.push 5] State.init).bind fun r =>
      (push TransactionTid.sample 0 (setTxn r.2 []) 9).bind
        (abortTxn TransactionTid.sample 0)).bind (pop TransactionTid.sample)).bind
        (commit TransactionTid.sample 0 false 0)).val?.map Prod.fst)
      = some true ∧
    (((runCommitted TransactionTid.sample 0 [.push 5] State.init).bind fun r =>
      pop TransactionTid.sample (setTxn r.2 [])).val?.map poppedPayloads)
      = some [5] := by
  decide!

/-- C32, failing run. After a committed push of 5 a transaction pushes 9,
pops (the popped value is its own 9; the new head, the value holding 5 at
address 0, is marked dirty) and aborts: after `cleanup` with
`committed = false` on all of its items the version of the value holding 5 is
still dirty.  The item of the popped value carries the insert tag and the
delete tag, and `cleanup` takes the insert branch only.  For comparison, a
transaction that only pops from the sample queue and aborts leaves no live
value dirty. -/
theorem dirty_mark_survives_abort :
    (((runCommitted TransactionTid.sample 0 [.push 5] State.init).bind fun r =>
      (push TransactionTid.sample 0 (setTxn r.2 []) 9).bind
        (pop TransactionTid.sample)).val?.map
      (fun s => (poppedPayloads s, livePayloads s, (s.heap_ 0).val,
        is_dirty TransactionTid.sample (version s 0))))
      = some ([9], [5], 0, true) ∧
    (((runCommitted TransactionTid.sample 0 [.push 5] State.init).bind fun r =>
      (push TransactionTid.sample 0 (setTxn r.2 []) 9).bind
        (pop TransactionTid.sample)).val?.map
      (fun s => s.txn.map (fun it => it.key)))
      = some [1, 0, -2] ∧
    (((runCommitted TransactionTid.sample 0 [.push 5] State.init).bind fun r =>
      (push TransactionTid.sample 0 (setTxn r.2 []) 9).bind
        (pop TransactionTid.sample)).val?.map
      (fun s => s.txn.map (fun it => has_insert it)))
      = some [true, false, false] ∧
    (((runCommitted TransactionTid.sample 0 [.push 5] State.init).bind fun r =>
      (push TransactionTid.sample 0 (setTxn r.2 []) 9).bind
        (pop TransactionTid.sample)).val?.map
      (fun s => s.txn.map (fun it => has_delete it)))
      = some [true, false, false] ∧
    ((((runCommitted TransactionTid.sample 0 [.push 5] State.init).bind fun r =>
      (push TransactionTid.sample 0 (setTxn r.2 []) 9).bind
        (pop TransactionTid.sample)).bind (abortTxn TransactionTid.sample 0)).val?.map
      (fun s => (livePayloads s, (s.heap_ 0).val,
        is_dirty TransactionTid.sample (version s 0), s.txn.length)))
      = some ([5], 0, true, 0) ∧
    (((pop TransactionTid.sample State.sample).bind
        (abortTxn TransactionTid.sample 0)).val?.map
      (fun s => (livePayloads s,
        is_dirty TransactionTid.sample (version s (s.heap_ 0).val),
        is_dirty TransactionTid.sample (version s (s.heap_ 1).val))))
      = some ([5, 3], false, false) := by
  decide!

end PriorityQueue

/-! ### PriorityQueue: the nodes past the live prefix -/

namespace PriorityQueue

/-- A node lock that was taken changed the lock word of that node only. -/
theorem lockNode_inv (T : TransactionTid) (s a : State) (i : Int)
    (h : lockNode T s i = .ok a) : ∃ v, a = setNodeVer s i v := by
  unfold lockNode at h
  split_ifs at h
  split at h
  · injection h with h; exact ⟨_, h.symm⟩
  · cases h

/-- The sift-down loop of `removeMax` leaves the status of every node outside
the live prefix as it was. -/
theorem siftDown_outside (T : TransactionTid) : ∀ (fuel : Nat) (s : State) (k : Int)
    (s' : State), 0 ≤ k → siftDown T fuel s k = .ok s' →
    ∀ i, ¬ (0 ≤ i ∧ i < s.size_) → (s'.heap_ i).status = (s.heap_ i).status := by
  intro fuel
  induction fuel with
  | zero =>
    intro s k s' _ h i _
    rw [siftDown] at h
    split_ifs at h
    injection h with h
    subst h
    simp
  | succ fuel ih =>
    intro s k s' hk h i hi
    rw [siftDown] at h
    split_ifs at h with hc
    · simp only [] at h
      cases hL : lockNode T s (k * 2 + 1) with
      | ok a =>
        obtain ⟨v, rfl⟩ := lockNode_inv T s a _ hL
        simp only [hL, Res.ok_bind_do] at h
        cases hR : lockNode T (setNodeVer s (k * 2 + 1) v) (k * 2 + 2) with
        | ok b =>
          obtain ⟨w, rfl⟩ := lockNode_inv T _ b _ hR
          simp only [hR, Res.ok_bind_do] at h
          have hsw : ∀ c : Int, c = k * 2 + 1 ∨ c = k * 2 + 2 → Equiv.swap k c i = i := by
            intro c hcc
            apply Equiv.swap_apply_of_ne_of_ne <;> omega
          have hrec : ∀ (S : State) (c : Int), c = k * 2 + 1 ∨ c = k * 2 + 2 →
              S.size_ = s.size_ → (∀ j, (S.heap_ j).status = (s.heap_ j).status) →
              siftDown T fuel (unlockNode T (swap S k c) k) c = .ok s' →
              (s'.heap_ i).status = (s.heap_ i).status := by
            intro S c hcc hS hSt hrun
            have := ih _ c s' (by omega) hrun i (by
              show ¬ (0 ≤ i ∧ i < S.size_)
              rw [hS]; exact hi)
            rw [this, unlockNode_status, swap_status, hsw c hcc, hSt]
          split_ifs at h
          · injection h with h; subst h; simp
          · refine hrec _ _ (Or.inl rfl) ?_ ?_ h
            · rfl
            · intro j; simp
          · injection h with h; subst h; simp
          · refine hrec _ _ (Or.inr rfl) ?_ ?_ h
            · rfl
            · intro j; simp
          · injection h with h; subst h; simp
        | abort _ => simp only [hR] at h; cases h
        | fault => simp only [hR] at h; cases h
        | spin => simp only [hR] at h; cases h
        | fuel => simp only [hR] at h; cases h
      | abort _ => simp only [hL] at h; cases h
      | fault => simp only [hL] at h; cases h
      | spin => simp only [hL] at h; cases h
      | fuel => simp only [hL] at h; cases h
    · injection h with h
      subst h
      simp

end PriorityQueue

/-! ### PriorityQueue: node statuses after `add` and `removeMax` -/

namespace PriorityQueue

/-- One iteration of the sift-up loop of `add` once parent `p` and child `c`
are locked (state `s2`), as far as the node statuses go: the loop ends, by a
return or by `Sto::abort()`, with the nodes settled and unlocked. -/
theorem addLoop_status_step (T : TransactionTid) (me : Int) (fuel : Nat)
    (ih : ∀ (s : State) (c n : Int),
      s.size_ = n → n ≤ s.heap_size → 0 ≤ c → c < n → c ≤ fuel →
      amOwner me (s.heap_ c) = true →
      (∀ i : Int, 0 ≤ i → i < n → i ≠ c → (s.heap_ i).status = .AVAILABLE) →
      NodesFree T s n →
      (∃ r, addLoop T me fuel s c = .ok r ∧ AddLoopStatus T me n s r) ∨
      (∃ s', addLoop T me fuel s c = .abort s' ∧ s'.size_ = n ∧ Settled s' n ∧
        NodesFree T s' n ∧
        ∀ i : Int, ¬ (0 ≤ i ∧ i < n) → (s'.heap_ i).status = (s.heap_ i).status))
    (s s2 : State) (c p n : Int)
    (hcap : n ≤ s.heap_size) (hc : 0 < c) (hcn : c < n)
    (hfuel : c ≤ ((fuel + 1 : Nat) : Int)) (hp : p = (c - 1) / 2)
    (hown : amOwner me (s.heap_ c) = true)
    (hav : ∀ i : Int, 0 ≤ i → i < n → i ≠ c → (s.heap_ i).status = .AVAILABLE)
    (hsz2 : s2.size_ = n) (hcap2 : s2.heap_size = s.heap_size)
    (hst : ∀ i, (s2.heap_ i).status = (s.heap_ i).status)
    (how : ∀ i, (s2.heap_ i).owner = (s.heap_ i).owner)
    (hfree2 : ∀ i, 0 ≤ i → i < n → i ≠ p → i ≠ c → is_locked T (s2.heap_ i).ver = false) :
    (∃ r,
      (if (s2.heap_ p).status = .AVAILABLE ∧ amOwner me (s2.heap_ c) = true then
        if read_value s2 (s2.heap_ c).val > read_value s2 (s2.heap_ p).val then
          if is_dirty T (version (swap s2 c p) (s2.heap_ p).val) = true then
            if (!has_dirty (Sto.item (touch (swap s2 c p) (s2.heap_ p).val).txn
                ((s2.heap_ p).val : Int))) = true then
              Res.abort (unlockNode T (unlockNode T
                (settle (touch (swap s2 c p) (s2.heap_ p).val) p) c) p)
            else
              addLoop T me fuel (unlockNode T (unlockNode T
                (touch (swap s2 c p) (s2.heap_ p).val) c) p) p
          else addLoop T me fuel (unlockNode T (unlockNode T (swap s2 c p) c) p) p
        else Res.ok (unlockNode T (unlockNode T (settle s2 c) c) p, none)
      else if (!amOwner me (s2.heap_ c)) = true then
        addLoop T me fuel (unlockNode T (unlockNode T s2 c) p) p
      else Res.spin) = .ok r ∧ AddLoopStatus T me n s r) ∨
    (∃ s',
      (if (s2.heap_ p).status = .AVAILABLE ∧ amOwner me (s2.heap_ c) = true then
        if read_value s2 (s2.heap_ c).val > read_value s2 (s2.heap_ p).val then
          if is_dirty T (version (swap s2 c p) (s2.heap_ p).val) = true then
            if (!has_dirty (Sto.item (touch (swap s2 c p) (s2.heap_ p).val).txn
                ((s2.heap_ p).val : Int))) = true then
              Res.abort (unlockNode T (unlockNode T
                (settle (touch (swap s2 c p) (s2.heap_ p).val) p) c) p)
            else
              addLoop T me fuel (unlockNode T (unlockNode T
                (touch (swap s2 c p) (s2.heap_ p).val) c) p) p
          else addLoop T me fuel (unlockNode T (unlockNode T (swap s2 c p) c) p) p
        else Res.ok (unlockNode T (unlockNode T (settle s2 c) c) p, none)
      else if (!amOwner me (s2.heap_ c)) = true then
        addLoop T me fuel (unlockNode T (unlockNode T s2 c) p) p
      else Res.spin) = .abort s' ∧ s'.size_ = n ∧ Settled s' n ∧ NodesFree T s' n ∧
      ∀ i : Int, ¬ (0 ≤ i ∧ i < n) → (s'.heap_ i).status = (s.heap_ i).status) := by
  have hp0 : 0 ≤ p := by omega
  have hpc : p < c := by omega
  have hpn : p < n := by omega
  have hcp : c ≠ p := by omega
  have hstp : (s2.heap_ p).status = .AVAILABLE := by rw [hst]; exact hav p hp0 hpn (by omega)
  have hown2 : amOwner me (s2.heap_ c) = true := by
    rw [amOwner_congr me _ _ (hst c) (how c)]; exact hown
  rw [if_pos ⟨hstp, hown2⟩]
  have hsw : ∀ i, i ≠ p → i ≠ c → Equiv.swap c p i = i :=
    fun i h1 h2 => Equiv.swap_apply_of_ne_of_ne h2 h1
  by_cases hgt : read_value s2 (s2.heap_ c).val > read_value s2 (s2.heap_ p).val
  · rw [if_pos hgt]
    -- the two branches that go on with the loop
    have hcont : ∀ s3 : State, s3.size_ = n → s3.heap_size = s.heap_size →
        (∀ i, (s3.heap_ i).status = (s.heap_ (Equiv.swap c p i)).status) →
        (∀ i, (s3.heap_ i).owner = (s.heap_ (Equiv.swap c p i)).owner) →
        (∀ i, 0 ≤ i → i < n → i ≠ p → i ≠ c → is_locked T (s3.heap_ i).ver = false) →
        (∃ r, addLoop T me fuel (unlockNode T (unlockNode T s3 c) p) p = .ok r ∧
          AddLoopStatus T me n s r) ∨
        (∃ s', addLoop T me fuel (unlockNode T (unlockNode T s3 c) p) p = .abort s' ∧
          s'.size_ = n ∧ Settled s' n ∧ NodesFree T s' n ∧
          ∀ i : Int, ¬ (0 ≤ i ∧ i < n) → (s'.heap_ i).status = (s.heap_ i).status) := by
      intro s3 hsz3 hcap3 hs3 ho3 hf3
      have hres := ih (unlockNode T (unlockNode T s3 c) p) p n
        hsz3 (by show n ≤ s3.heap_size; rw [hcap3]; exact hcap) hp0 hpn
        (by push_cast at hfuel; omega)
        (by
          rw [amOwner_congr me _ (s.heap_ c) (by simp [hs3]) (by simp [ho3])]
          exact hown)
        (by
          intro i h0 h1 hip
          simp only [unlockNode_status, hs3]
          by_cases hic : i = c
          · rw [hic, Equiv.swap_apply_left]
            exact hav p hp0 hpn (by omega)
          · rw [hsw i hip hic]
            exact hav i h0 h1 hic)
        (by
          intro i h0 h1
          rw [unlockNode_ver]
          split_ifs with hip
          · exact is_locked_unlockWord T _
          · rw [unlockNode_ver]
            split_ifs with hic
            · exact is_locked_unlockWord T _
            · exact hf3 i h0 h1 hip hic)
      have hout : ∀ i : Int, ¬ (0 ≤ i ∧ i < n) →
          ((unlockNode T (unlockNode T s3 c) p).heap_ i).status = (s.heap_ i).status := by
        intro i hi
        simp only [unlockNode_status, hs3]
        rw [hsw i (by omega) (by omega)]
      rcases hres with ⟨r, hrun, hpost⟩ | ⟨s', hrun, h1, h2, h3, h4⟩
      · left
        refine ⟨r, hrun, ?_⟩
        exact
          { size_ := hpost.size_
            heap_size := hpost.heap_size.trans hcap3
            free := hpost.free
            outside := fun i hi => (hpost.outside i hi).trans (hout i hi)
            returned := hpost.returned
            at_root := hpost.at_root }
      · right
        exact ⟨s', hrun, h1, h2, h3, fun i hi => (h4 i hi).trans (hout i hi)⟩
    by_cases hd : is_dirty T (version (swap s2 c p) (s2.heap_ p).val) = true
    · rw [if_pos hd]
      by_cases hown3 : (!has_dirty (Sto.item (touch (swap s2 c p) (s2.heap_ p).val).txn
          ((s2.heap_ p).val : Int))) = true
      · rw [if_pos hown3]
        right
        refine ⟨_, rfl, hsz2, ?_, ?_, ?_⟩
        · intro i h0 h1
          show ((unlockNode T (unlockNode T
            (settle (touch (swap s2 c p) (s2.heap_ p).val) p) c) p).heap_ i).status = _
          simp only [unlockNode_status, settle_status]
          split_ifs with hip
          · rfl
          · show ((swap s2 c p).heap_ i).status = _
            rw [swap_status]
            by_cases hic : i = c
            · rw [hic, Equiv.swap_apply_left]; exact hstp
            · rw [hsw i hip hic, hst]; exact hav i h0 h1 hic
        · intro i h0 h1
          show is_locked T ((unlockNode T (unlockNode T
            (settle (touch (swap s2 c p) (s2.heap_ p).val) p) c) p).heap_ i).ver = false
          rw [unlockNode_ver]
          split_ifs with hip
          · exact is_locked_unlockWord T _
          · rw [unlockNode_ver]
            split_ifs with hic
            · exact is_locked_unlockWord T _
            · rw [settle_ver]
              show is_locked T ((swap s2 c p).heap_ i).ver = false
              rw [swap_ver]
              exact hfree2 i h0 h1 hip hic
        · intro i hi
          show ((unlockNode T (unlockNode T
            (settle (touch (swap s2 c p) (s2.heap_ p).val) p) c) p).heap_ i).status = _
          simp only [unlockNode_status, settle_status]
          rw [if_neg (by omega)]
          show ((swap s2 c p).heap_ i).status = _
          rw [swap_status, hsw i (by omega) (by omega), hst]
      · rw [if_neg hown3]
        exact hcont (touch (swap s2 c p) (s2.heap_ p).val) hsz2 hcap2
          (by intro i; show ((swap s2 c p).heap_ i).status = _; simp [hst])
          (by intro i; show ((swap s2 c p).heap_ i).owner = _; simp [how])
          (by
            intro i h0 h1 hip hic
            show is_locked T ((swap s2 c p).heap_ i).ver = false
            rw [swap_ver]; exact hfree2 i h0 h1 hip hic)
    · rw [if_neg hd]
      exact hcont (swap s2 c p) hsz2 hcap2
        (by intro i; simp [hst]) (by intro i; simp [how])
        (by intro i h0 h1 hip hic; rw [swap_ver]; exact hfree2 i h0 h1 hip hic)
  · rw [if_neg hgt]
    left
    refine ⟨_, rfl, ?_⟩
    exact
      { size_ := hsz2
        heap_size := hcap2
        free := by
          intro i h0 h1
          show is_locked T ((unlockNode T (unlockNode T (settle s2 c) c) p).heap_ i).ver = false
          rw [unlockNode_ver]
          split_ifs with hip
          · exact is_locked_unlockWord T _
          · rw [unlockNode_ver]
            split_ifs with hic
            · exact is_locked_unlockWord T _
            · rw [settle_ver]; exact hfree2 i h0 h1 hip hic
        outside := by
          intro i hi
          show ((unlockNode T (unlockNode T (settle s2 c) c) p).heap_ i).status = _
          simp only [unlockNode_status, settle_status]
          rw [if_neg (by omega), hst]
        returned := by
          intro _ i h0 h1
          show ((unlockNode T (unlockNode T (settle s2 c) c) p).heap_ i).status = .AVAILABLE
          simp only [unlockNode_status, settle_status]
          split_ifs with hic
          · rfl
          · rw [hst]; exact hav i h0 h1 hic
        at_root := by intro c' h; simp at h }

/-- The sift-up loop of `add`, started at an owned node `c` of a prefix whose
other nodes are settled and unlocked, whatever the payloads and the dirty
marks are: it ends by a return with `AddLoopStatus` or by `Sto::abort()` with
every node settled and unlocked. -/
theorem addLoop_status (T : TransactionTid) (me : Int) : ∀ (fuel : Nat) (s : State) (c n : Int),
    s.size_ = n → n ≤ s.heap_size → 0 ≤ c → c < n → c ≤ fuel →
    amOwner me (s.heap_ c) = true →
    (∀ i : Int, 0 ≤ i → i < n → i ≠ c → (s.heap_ i).status = .AVAILABLE) →
    NodesFree T s n →
    (∃ r, addLoop T me fuel s c = .ok r ∧ AddLoopStatus T me n s r) ∨
    (∃ s', addLoop T me fuel s c = .abort s' ∧ s'.size_ = n ∧ Settled s' n ∧
      NodesFree T s' n ∧
      ∀ i : Int, ¬ (0 ≤ i ∧ i < n) → (s'.heap_ i).status = (s.heap_ i).status) := by
  intro fuel
  induction fuel with
  | zero =>
    intro s c n hsz hcap hc0 hcn hfuel hown hav hfree
    have hc : c = 0 := by omega
    subst hc
    left
    refine ⟨(s, some 0), by simp [addLoop], ?_⟩
    exact
      { size_ := hsz
        heap_size := rfl
        free := hfree
        outside := fun _ _ => rfl
        returned := by intro h; simp at h
        at_root := by
          intro c' h
          simp only [Option.some.injEq] at h
          subst h
          exact ⟨rfl, hown, fun i h0 h1 => hav i (by omega) h1 (by omega)⟩ }
  | succ fuel ih =>
    intro s c n hsz hcap hc0 hcn hfuel hown hav hfree
    by_cases hc : c > 0
    · have hp0 : 0 ≤ (c - 1) / 2 := by omega
      have hpc : (c - 1) / 2 < c := by omega
      have hLp := lockNode_ok T s ((c - 1) / 2) (by omega) (hfree _ hp0 (by omega))
      have hLc := lockNode_ok T
        (setNodeVer s ((c - 1) / 2) ((s.heap_ ((c - 1) / 2)).ver ||| T.lock_bit)) c
        (by show 0 ≤ c ∧ c < s.heap_size; omega)
        (by
          rw [setNodeVer_ver, if_neg (by omega)]
          exact hfree _ hc0 hcn)
      rw [addLoop, if_pos hc]
      simp only [hLp, hLc, Res.ok_bind_do]
      exact addLoop_status_step T me fuel ih s _ c ((c - 1) / 2) n hcap hc hcn hfuel rfl
        hown hav hsz rfl (by intro i; simp) (by intro i; simp)
        (by
          intro i h0 h1 hip hic
          rw [setNodeVer_ver, if_neg hic, setNodeVer_ver, if_neg hip]
          exact hfree i h0 h1)
    · have hc' : c = 0 := by omega
      subst hc'
      left
      refine ⟨(s, some 0), by simp [addLoop], ?_⟩
      exact
        { size_ := hsz
          heap_size := rfl
          free := hfree
          outside := fun _ _ => rfl
          returned := by intro h; simp at h
          at_root := by
            intro c' h
            simp only [Option.some.injEq] at h
            subst h
            exact ⟨rfl, hown, fun i h0 h1 => hav i (by omega) h1 (by omega)⟩ }

/-- The statements of `add` after the new node is placed at index `n` (state
`sC`), as far as the node statuses go: `add` ends, by a return or by
`Sto::abort()`, with `n + 1` live nodes, all settled and unlocked, and no node
made `BUSY`. -/
theorem add_status_after_place (T : TransactionTid) (me : Int) (s sC : State) (n : Int) (v : Nat)
    (hn0 : 0 ≤ n) (hset : Settled s n) (hfree : NodesFree T s n)
    (hCsz : sC.size_ = n + 1) (hCcap : n + 1 ≤ sC.heap_size)
    (hCnew : sC.heap_ n = { val := v, ver := 0, status := .BUSY, owner := me })
    (hCold : ∀ i, i ≠ n → sC.heap_ i = s.heap_ i) :
    ∃ s', (((addLoop T me n.toNat sC n).bind fun r =>
        match r.2 with
        | none => Res.ok r.1
        | some child =>
          if child = 0 then
            (lockNode T r.1 0).bind fun s =>
            Res.ok (unlockNode T (if amOwner me (s.heap_ 0) = true then settle s 0 else s) 0)
          else Res.ok r.1) = .ok s' ∨
      ((addLoop T me n.toNat sC n).bind fun r =>
        match r.2 with
        | none => Res.ok r.1
        | some child =>
          if child = 0 then
            (lockNode T r.1 0).bind fun s =>
            Res.ok (unlockNode T (if amOwner me (s.heap_ 0) = true then settle s 0 else s) 0)
          else Res.ok r.1) = .abort s') ∧ StatusPost T (n + 1) s s' := by
  have hbase : ∀ s' : State, s'.size_ = n + 1 → Settled s' (n + 1) → NodesFree T s' (n + 1) →
      (∀ i : Int, ¬ (0 ≤ i ∧ i < n + 1) → (s'.heap_ i).status = (sC.heap_ i).status) →
      StatusPost T (n + 1) s s' := by
    intro s' h1 h2 h3 h4
    exact
      { size_ := h1
        settled := h2
        free := h3
        empty_past_end := by
          intro i h0 he
          by_contra hlt
          have := h2 i h0 (by omega)
          rw [this] at he
          cases he
        no_new_busy := by
          intro i hb
          by_cases hin : 0 ≤ i ∧ i < n + 1
          · have := h2 i hin.1 hin.2
            rw [this] at hb
            cases hb
          · rw [h4 i hin, hCold i (by omega)] at hb
            exact hb }
  have hloop := addLoop_status T me n.toNat sC n (n + 1) hCsz hCcap hn0 (by omega) (by omega)
    (by rw [hCnew]; simp [amOwner])
    (by
      intro i h0 h1 hi
      rw [hCold i hi]
      exact hset i h0 (by omega))
    (by
      intro i h0 h1
      by_cases hi : i = n
      · rw [hi, hCnew]; exact is_locked_zero T
      · rw [hCold i hi]; exact hfree i h0 (by omega))
  rcases hloop with ⟨r, hrun, hpost⟩ | ⟨s', hrun, h1, h2, h3, h4⟩
  · rw [hrun, Res.ok_bind]
    cases hr2 : r.2 with
    | none =>
      simp only []
      exact ⟨r.1, Or.inl rfl, hbase r.1 hpost.size_ (hpost.returned hr2) hpost.free hpost.outside⟩
    | some c' =>
      obtain ⟨hc0, hown, hothers⟩ := hpost.at_root c' hr2
      subst hc0
      simp only [if_true]
      have hL := lockNode_ok T r.1 0 (by rw [hpost.heap_size]; omega)
        (hpost.free 0 le_rfl (by omega))
      rw [hL, Res.ok_bind]
      have hown' : amOwner me ((setNodeVer r.1 0 ((r.1.heap_ 0).ver ||| T.lock_bit)).heap_ 0)
          = true := by
        rw [amOwner_congr me _ (r.1.heap_ 0) (by simp) (by simp)]
        exact hown
      rw [if_pos hown']
      refine ⟨_, Or.inl rfl, hbase _ hpost.size_ ?_ ?_ ?_⟩
      · intro i h0 h1
        simp only [unlockNode_status, settle_status]
        split_ifs with hi
        · rfl
        · simp only [setNodeVer_status]
          exact hothers i (by omega) h1
      · intro i h0 h1
        rw [unlockNode_ver]
        split_ifs with hi
        · exact is_locked_unlockWord T _
        · rw [settle_ver, setNodeVer_ver, if_neg hi]
          exact hpost.free i h0 h1
      · intro i hi
        simp only [unlockNode_status, settle_status]
        rw [if_neg (by omega)]
        simp only [setNodeVer_status]
        exact hpost.outside i hi
  · rw [hrun]
    exact ⟨s', Or.inr rfl, hbase s' h1 h2 h3 h4⟩

/-- The node statuses after `add(v)` on a heap of `n` live nodes inside the
vector, all `AVAILABLE`, with the node locks and the heap lock free: `add`
ends, by a return or by `Sto::abort()`, with `n + 1` live nodes, all
`AVAILABLE` and unlocked, and no node made `BUSY`. -/
theorem add_status (T : TransactionTid) (me : Int) (s : State) (n : Int) (v : Nat)
    (hsz : s.size_ = n) (hn0 : 0 ≤ n) (hcap : n ≤ s.heap_size)
    (hset : Settled s n) (hfree : NodesFree T s n) (hhl : is_locked T s.heaplock_ = false) :
    ∃ s', (add T me s v = .ok s' ∨ add T me s v = .abort s') ∧ StatusPost T (n + 1) s s' := by
  rw [add, lockWord_of_free T _ hhl]
  simp only [setHeaplock_size_, hsz, setSize_heap_size, setHeaplock_heap_size]
  by_cases hfull : n < 0 ∨ n ≥ s.heap_size
  · rw [if_pos hfull]
    have hmc : s.heap_size = n := by omega
    apply add_status_after_place T me s _ n v hn0 hset hfree
    · rfl
    · show n + 1 ≤ s.heap_size + 1; omega
    · show Function.update s.heap_ s.heap_size _ n = _
      rw [hmc, Function.update_same]
    · intro i hi
      show Function.update s.heap_ s.heap_size _ i = _
      rw [hmc, Function.update_noteq hi]
  · rw [if_neg hfull]
    apply add_status_after_place T me s _ n v hn0 hset hfree
    · rfl
    · show n + 1 ≤ s.heap_size; omega
    · show Function.update s.heap_ n _ n = _
      rw [Function.update_same]
    · intro i hi
      show Function.update s.heap_ n _ i = _
      rw [Function.update_noteq hi]

/-- The node statuses after `removeMax()` on a heap of `n ≥ 1` live nodes
inside the vector, all `AVAILABLE`, with the node locks and the heap lock
free: it returns with `n - 1` live nodes, all `AVAILABLE` and unlocked, and no
node made `BUSY`. -/
theorem removeMax_status (T : TransactionTid) (s : State) (n : Int)
    (hsz : s.size_ = n) (hn : 1 ≤ n) (hcap : n ≤ s.heap_size)
    (hset : Settled s n) (hfree : NodesFree T s n) (hhl : is_locked T s.heaplock_ = false) :
    ∃ r, removeMax T s none = .ok r ∧ StatusPost T (n - 1) s r.2 := by
  rw [removeMax, lockWord_of_free T _ hhl]
  simp only [setHeaplock_size_, hsz, setSize_heap_, setHeaplock_heap_, setSize_heaplock_,
    setHeaplock_heaplock_]
  by_cases hne : n - 1 = 0
  · rw [if_pos hne]
    have hb : inBounds (setSize (setHeaplock s (s.heaplock_ ||| T.lock_bit)) (n - 1)) 0 = true := by
      simp [inBounds]; omega
    rw [if_pos hb]
    refine ⟨_, rfl, ?_⟩
    exact
      { size_ := rfl
        settled := by intro i h0 h1; omega
        free := by intro i h0 h1; omega
        empty_past_end := by intro i h0 _; omega
        no_new_busy := fun i hb => hb }
  · rw [if_neg hne]
    have hLb := lockNode_ok T (setSize (setHeaplock s (s.heaplock_ ||| T.lock_bit)) (n - 1))
      (n - 1) (by show 0 ≤ n - 1 ∧ n - 1 < s.heap_size; omega)
      (by show is_locked T (s.heap_ (n - 1)).ver = false; exact hfree _ (by omega) (by omega))
    rw [hLb, Res.ok_bind]
    have hL0 := lockNode_ok T
      (setNodeVer (setSize (setHeaplock s (s.heaplock_ ||| T.lock_bit)) (n - 1)) (n - 1)
        (((setSize (setHeaplock s (s.heaplock_ ||| T.lock_bit)) (n - 1)).heap_ (n - 1)).ver
          ||| T.lock_bit)) 0
      (by show 0 ≤ (0 : Int) ∧ 0 < s.heap_size; omega)
      (by
        rw [setNodeVer_ver, if_neg (by omega)]
        exact hfree _ (by omega) (by omega))
    rw [hL0, Res.ok_bind]
    simp only [ne_eq, not_true_eq_false, false_and, if_false]
    have hsw : ∀ i : Int, 0 ≤ i → i < n - 1 →
        (Equiv.swap (n - 1) 0 i = if i = 0 then n - 1 else i) := by
      intro i h0 h1
      rw [Equiv.swap_apply_def]
      split_ifs <;> omega
    have key : ∀ (S : State) (res : Nat), S.size_ = n - 1 → n - 1 ≤ S.heap_size →
        Settled S (n - 1) → FreeExcept T S (n - 1) 0 →
        (S.heap_ (n - 1)).status = .EMPTY →
        (∀ i : Int, ¬ (0 ≤ i ∧ i < n) → (S.heap_ i).status = (s.heap_ i).status) →
        ∃ r, ((siftDown T S.size_.toNat S 0).bind fun a => Res.ok (some res, a)) = .ok r ∧
          StatusPost T (n - 1) s r.2 := by
      intro S res hSsz hScap hSset hSfree hSbot hSout
      obtain ⟨a, hrun, hpost⟩ := siftDown_plain T S.size_.toNat S 0 (n - 1) hSsz hScap le_rfl
        (by omega) (by rw [hSsz]; omega) hSset hSfree
      have hout := siftDown_outside T _ _ 0 a le_rfl hrun
      refine ⟨(some res, a), by rw [hrun]; rfl, ?_⟩
      exact
        { size_ := hpost.frame.size_.trans hSsz
          settled := hpost.settled
          free := hpost.free
          empty_past_end := by
            intro i h0 he
            by_contra hlt
            have := hpost.settled i h0 (by omega)
            rw [this] at he
            cases he
          no_new_busy := by
            intro i hb
            by_cases hin : 0 ≤ i ∧ i < n - 1
            · have := hpost.settled i hin.1 hin.2
              rw [this] at hb
              cases hb
            · rw [hout i (by rw [hSsz]; exact hin)] at hb
              by_cases hib : i = n - 1
              · rw [hib, hSbot] at hb
                cases hb
              · rw [hSout i (by omega)] at hb
                exact hb }
    apply key
    · rfl
    · show n - 1 ≤ s.heap_size; omega
    · intro i h0 h1
      simp only [unlockNode_status, swap_status, vacate_status, hsw i h0 h1]
      by_cases hi0 : i = 0
      · rw [if_pos hi0, if_neg hne]
        simp only [setHeaplock_heap_, setNodeVer_status, setSize_heap_]
        exact hset _ (by omega) (by omega)
      · rw [if_neg hi0, if_neg hi0]
        simp only [setHeaplock_heap_, setNodeVer_status, setSize_heap_]
        exact hset _ (by omega) (by omega)
    · intro i h0 h1 hi0
      rw [unlockNode_ver, if_neg (by omega), swap_ver, vacate_ver]
      simp only [setHeaplock_heap_]
      rw [setNodeVer_ver, if_neg hi0, setNodeVer_ver, if_neg (by omega)]
      exact hfree _ (by omega) (by omega)
    · simp only [unlockNode_status, swap_status, vacate_status, Equiv.swap_apply_left, if_true]
    · intro i hi
      simp only [unlockNode_status, swap_status, vacate_status]
      rw [Equiv.swap_apply_of_ne_of_ne (by omega) (by omega), if_neg (by omega)]
      simp only [setHeaplock_heap_, setNodeVer_status, setSize_heap_]

/-- C33. Node status invariant: on a heap of `n` live nodes inside the vector,
all `AVAILABLE`, with the node locks and the heap lock free, `add(v)` ends, by
a return or by `Sto::abort()`, with `n + 1` live nodes, and `removeMax()`
returns (when `n ≥ 1`) with `n - 1` live nodes; after either one every node of
the new live prefix is `AVAILABLE` and unlocked, an `EMPTY` node lies at or
past the end of the prefix, and no node is `BUSY` that was not `BUSY`
before. -/
theorem status_invariant (T : TransactionTid) (me : Int) (s : State) (n : Int)
    (hsz : s.size_ = n) (hn0 : 0 ≤ n) (hcap : n ≤ s.heap_size)
    (hset : Settled s n) (hfree : NodesFree T s n) (hhl : is_locked T s.heaplock_ = false) :
    (∀ v : Nat, ∃ s', (add T me s v = .ok s' ∨ add T me s v = .abort s') ∧
      StatusPost T (n + 1) s s') ∧
    (1 ≤ n → ∃ r, removeMax T s none = .ok r ∧ StatusPost T (n - 1) s r.2) :=
  ⟨fun v => add_status T me s n v hsz hn0 hcap hset hfree hhl,
    fun hn => removeMax_status T s n hsz hn hcap hset hfree hhl⟩

/-- C33 on the sample queue holding 5 and 3, whose two nodes are `AVAILABLE`
and unlocked: after `add` of any value three nodes are live and settled, after
`removeMax()` one node is. -/
theorem status_invariant_witness :
    (∀ v : Nat, ∃ s', (add TransactionTid.sample 1 State.sample v = .ok s' ∨
        add TransactionTid.sample 1 State.sample v = .abort s') ∧
      StatusPost TransactionTid.sample (2 + 1) State.sample s') ∧
    (1 ≤ (2 : Int) → ∃ r, removeMax TransactionTid.sample State.sample none = .ok r ∧
      StatusPost TransactionTid.sample (2 - 1) State.sample r.2) :=
  status_invariant TransactionTid.sample 1 State.sample 2 rfl (by decide) (by decide)
    committed_sample.settled committed_sample.free (by decide)

end PriorityQueue
